import Mathlib

/-!
# Technical-indicator kernels (`src/engine/wasm/src/indicators.c`)

A shallow embedding of the C kernels in exact arithmetic.

* A `double` is a `Dbl`: either a rational number or `nan`.  Arithmetic is exact on
  rationals and `nan` is absorbing; ordered comparisons and `==` are false as soon
  as one operand is `nan`, as in IEEE-754.  Infinities are not represented: a
  division by zero gives `nan`.  The one kernel whose property is about exact increments,
  `calculateOBV`, adds and subtracts with binary64 rounding (`round64`).
* A `double*` is a `Buf`: the memory seen through the pointer, indexed by the `int`
  offset.  `&a[k]` is `Buf.shift a k`.  All pointer arguments are non-null.
* `size_t length` is a `Nat`; the cast `(int)length` is `castInt`, a 32-bit two's
  complement reinterpretation.  `int` parameters are `Int`; `int` arithmetic that
  could leave the 32-bit range goes through `wrapInt`.
* A `for (int i = lo; i < hi; i++)` loop is `forInt lo hi body`, a left fold of the
  body over `lo, lo+1, ..., hi-1`.
* Functions return the `int` status together with the final contents of every
  output buffer.  The initial contents of an output buffer are an argument.
* The outcome of the `malloc` calls of a function is an argument `tmp`: `none` when an
  allocation failed, otherwise the uninitialised contents of the temporaries.
* A `for (size_t i = lo; i < length; i++)` loop is `forInt lo length body` as well: the
  index is a non-negative offset.
* The C library function `sqrt` is an argument `sqrt : Dbl → Dbl` of the functions that
  call it.

The definitions come first, then the properties: for each kernel a lemma describing a
successful run for arbitrary inputs, and from it the properties on finite prices.
-/

namespace Indicators

/-! ## Numbers and buffers -/

/-- A `double` in exact arithmetic: a rational value or the not-a-number sentinel. -/
inductive Dbl where
  | nan : Dbl
  | fin (q : ℚ) : Dbl
  deriving DecidableEq

namespace Dbl

/-- The C predicate `isnan`. -/
def isnan : Dbl → Bool
  | nan => true
  | fin _ => false

/-- Addition of doubles, `a + b`. -/
def add : Dbl → Dbl → Dbl
  | fin a, fin b => fin (a + b)
  | _, _ => nan

/-- Subtraction of doubles, `a - b`. -/
def sub : Dbl → Dbl → Dbl
  | fin a, fin b => fin (a - b)
  | _, _ => nan

/-- Multiplication of doubles, `a * b`. -/
def mul : Dbl → Dbl → Dbl
  | fin a, fin b => fin (a * b)
  | _, _ => nan

/-- Division of doubles, `a / b`; a zero divisor leaves the rationals and gives `nan`. -/
def div : Dbl → Dbl → Dbl
  | fin a, fin b => if b = 0 then nan else fin (a / b)
  | _, _ => nan

/-- Unary minus, `-a`. -/
def neg : Dbl → Dbl
  | fin a => fin (-a)
  | nan => nan

/-- The comparison `a > b`, false when an operand is `nan`. -/
def gt : Dbl → Dbl → Bool
  | fin a, fin b => decide (b < a)
  | _, _ => false

/-- The comparison `a < b`, false when an operand is `nan`. -/
def lt : Dbl → Dbl → Bool
  | fin a, fin b => decide (a < b)
  | _, _ => false

/-- The comparison `a == b`, false when an operand is `nan`. -/
def eq : Dbl → Dbl → Bool
  | fin a, fin b => decide (a = b)
  | _, _ => false

/-- The rational value of a finite double; `0` for `nan`. -/
def val : Dbl → ℚ
  | fin q => q
  | nan => 0

/-- Conversion of an `int` to `double`. -/
def ofInt (n : Int) : Dbl := fin (n : ℚ)

end Dbl

open Dbl (nan fin)

/-- Reduction of an integer to the 32-bit two's complement range. -/
def wrapInt (x : Int) : Int := Int.bmod x (2 ^ 32)

/-- The cast `(int)length` of a `size_t`. -/
def castInt (length : Nat) : Int := wrapInt (length : Int)

/-- The memory behind a `double*`, indexed by the offset from the pointer. -/
abbrev Buf := Int → Dbl

/-- The store `b[i] = v`. -/
def Buf.write (b : Buf) (i : Int) (v : Dbl) : Buf :=
  fun k => if k = i then v else b k

/-- The pointer `&b[k]`. -/
def Buf.shift (b : Buf) (k : Int) : Buf :=
  fun i => b (k + i)

/-- The stores made through `&b[k]` seen from `b`: `sub` is the memory behind `&b[k]`
after the stores, and positions below `k` keep the contents of `b`. -/
def Buf.unshift (b : Buf) (k : Int) (sub : Buf) : Buf :=
  fun i => if i < k then b i else sub (i - k)

/-- The buffer holding the rationals of a list at offsets `0, 1, ...`; `nan` elsewhere. -/
def Buf.ofList (l : List ℚ) : Buf :=
  fun i => if i < 0 then nan else
    match l.get? i.toNat with
    | some q => fin q
    | none => nan

/-- The loop `for (int i = lo; i < hi; i++) s = body i s`. -/
def forInt {σ : Type} (lo hi : Int) (body : Int → σ → σ) (s : σ) : σ :=
  (List.range (hi - lo).toNat).foldl (fun (acc : σ) (k : Nat) => body (lo + (k : Int)) acc) s

/-! ## Moving averages -/

/-- The function `calculateSMA` (indicators.c, lines 30-50). -/
def calculateSMA (prices : Buf) (length : Nat) (period : Int) (result : Buf) : Int × Buf :=
  if period ≤ 0 ∨ period > castInt length then (-1, result)
  else
    let result := forInt 0 (min (period - 1) (castInt length))
      (fun i r => r.write i nan) result
    let result := forInt (period - 1) (castInt length)
      (fun i r =>
        let sum := forInt (i - period + 1) (i + 1) (fun j s => s.add (prices j)) (fin 0)
        r.write i (sum.div (Dbl.ofInt period))) result
    (0, result)

/-- The function `calculateEMA` (indicators.c, lines 52-80). -/
def calculateEMA (prices : Buf) (length : Nat) (period : Int) (result : Buf) : Int × Buf :=
  if period ≤ 0 ∨ period > castInt length then (-1, result)
  else
    let alpha := (fin 2).div ((Dbl.ofInt period).add (fin 1))
    let result := forInt 0 (min (period - 1) (castInt length))
      (fun i r => r.write i nan) result
    let result :=
      if period - 1 < castInt length then
        let sum := forInt 0 period (fun i s => s.add (prices i)) (fin 0)
        result.write (period - 1) (sum.div (Dbl.ofInt period))
      else result
    let result := forInt period (castInt length)
      (fun i r =>
        r.write i ((alpha.mul (prices i)).add (((fin 1).sub alpha).mul (r (i - 1))))) result
    (0, result)

/-- The function `calculateWMA` (indicators.c, lines 82-105). -/
def calculateWMA (prices : Buf) (length : Nat) (period : Int) (result : Buf) : Int × Buf :=
  if period ≤ 0 ∨ period > castInt length then (-1, result)
  else
    let result := forInt 0 (min (period - 1) (castInt length))
      (fun i r => r.write i nan) result
    let weightSum := Int.tdiv (wrapInt (period * wrapInt (period + 1))) 2
    let result := forInt (period - 1) (castInt length)
      (fun i r =>
        let weightedSum := forInt 0 period
          (fun j s =>
            let weight := j + 1
            s.add ((prices (i - period + 1 + j)).mul (Dbl.ofInt weight))) (fin 0)
        r.write i (weightedSum.div (Dbl.ofInt weightSum))) result
    (0, result)

/-! ## RSI -/

/-- The function `calculateRSI` (indicators.c, lines 153-222).  `tmp` is the outcome of
the two `malloc` calls: `none` when one of them failed, otherwise the uninitialised
contents of `gains` and `losses`. -/
def calculateRSI (tmp : Option (Buf × Buf)) (prices : Buf) (length : Nat) (period : Int)
    (result : Buf) : Int × Buf :=
  if period ≤ 0 ∨ period ≥ castInt length then (-1, result)
  else
    let result := forInt 0 (min period (castInt length)) (fun i r => r.write i nan) result
    if period ≥ castInt length then (0, result)
    else
      match tmp with
      | none => (-1, result)
      | some (gains, losses) =>
        let gl := forInt 1 (castInt length)
          (fun i (gl : Buf × Buf) =>
            let change := (prices i).sub (prices (i - 1))
            (gl.1.write i (if change.gt (fin 0) then change else fin 0),
             gl.2.write i (if change.lt (fin 0) then change.neg else fin 0)))
          (gains, losses)
        let gains := gl.1
        let losses := gl.2
        let avg := forInt 1 (period + 1)
          (fun i (a : Dbl × Dbl) => (a.1.add (gains i), a.2.add (losses i)))
          (fin 0, fin 0)
        let avgGain := avg.1.div (Dbl.ofInt period)
        let avgLoss := avg.2.div (Dbl.ofInt period)
        let result :=
          if period < castInt length then
            if avgLoss.eq (fin 0) then result.write period (fin 100)
            else
              let rs := avgGain.div avgLoss
              result.write period ((fin 100).sub ((fin 100).div ((fin 1).add rs)))
          else result
        let st := forInt (period + 1) (castInt length)
          (fun i (st : Dbl × Dbl × Buf) =>
            let avgGain := ((st.1.mul (Dbl.ofInt (period - 1))).add (gains i)).div
              (Dbl.ofInt period)
            let avgLoss := ((st.2.1.mul (Dbl.ofInt (period - 1))).add (losses i)).div
              (Dbl.ofInt period)
            if avgLoss.eq (fin 0) then (avgGain, avgLoss, st.2.2.write i (fin 100))
            else
              let rs := avgGain.div avgLoss
              (avgGain, avgLoss,
                st.2.2.write i ((fin 100).sub ((fin 100).div ((fin 1).add rs)))))
          (avgGain, avgLoss, result)
        (0, st.2.2)

/-! ## MACD -/

/-- The loop `while (firstValidMACD < (int)length && isnan(macd[firstValidMACD]))
firstValidMACD++` of `calculateMACD` (lines 277-280), started at `f` and run for at most
`fuel` iterations. -/
def firstValidLoop (macd : Buf) (ilen : Int) : Nat → Int → Int
  | 0, f => f
  | fuel + 1, f =>
    if f < ilen ∧ (macd f).isnan = true then firstValidLoop macd ilen fuel (f + 1) else f

/-- The histogram loop of `calculateMACD` (lines 311-318). -/
def histogramLoop (ilen : Int) (macd signal histogram : Buf) : Buf :=
  forInt 0 ilen
    (fun i h =>
      if (macd i).isnan || (signal i).isnan then h.write i nan
      else h.write i ((macd i).sub (signal i))) histogram

/-- The block "MACD line" of `calculateMACD` (lines 261-273): the final contents of
`macd`, from the two EMA buffers. -/
def macdLine (ilen slowPeriod : Int) (fastEMA slowEMA macd : Buf) : Buf :=
  let startIdx := slowPeriod - 1
  let macd := forInt 0 (min startIdx ilen) (fun i m => m.write i nan) macd
  forInt startIdx ilen
    (fun i m =>
      if (fastEMA i).isnan || (slowEMA i).isnan then m.write i nan
      else m.write i ((fastEMA i).sub (slowEMA i))) macd

/-- The block "Signal line" of `calculateMACD` (lines 275-309): `-1` when the block
takes the early `return -1` of line 291 and `0` otherwise, with the contents of `signal`
at that point.  The `while` loop gets `(int)length - startIdx` iterations of fuel, which
it cannot exhaust (`firstValidLoop_exit`). -/
def macdSignal (length : Nat) (slowPeriod signalPeriod : Int) (macd signal : Buf) :
    Int × Buf :=
  let startIdx := slowPeriod - 1
  let firstValidMACD :=
    firstValidLoop macd (castInt length) (castInt length - startIdx).toNat startIdx
  if firstValidMACD < castInt length then
    let macdValues := macd.shift firstValidMACD
    let macdLength := length - firstValidMACD.toNat
    let signalValues := signal.shift firstValidMACD
    let ema := calculateEMA macdValues macdLength signalPeriod signalValues
    let signal := signal.unshift firstValidMACD ema.2
    if ema.1 ≠ 0 then (-1, signal)
    else
      let signal := forInt 0 firstValidMACD (fun i s => s.write i nan) signal
      let signalStart := wrapInt (wrapInt (firstValidMACD + signalPeriod) - 1)
      let signal := forInt firstValidMACD (min signalStart (castInt length))
        (fun i s => s.write i nan) signal
      (0, signal)
  else
    (0, forInt 0 (castInt length) (fun i s => s.write i nan) signal)

/-- The function `calculateMACD` (indicators.c, lines 228-324).  `tmp` is the outcome of
the two `malloc` calls: `none` when one of them failed, otherwise the uninitialised
contents of `fastEMA` and `slowEMA`.  The result is the status and the final contents
of `macd`, `signal` and `histogram`. -/
def calculateMACD (tmp : Option (Buf × Buf)) (prices : Buf) (length : Nat)
    (fastPeriod slowPeriod signalPeriod : Int) (macd signal histogram : Buf) :
    Int × Buf × Buf × Buf :=
  if fastPeriod ≤ 0 ∨ slowPeriod ≤ fastPeriod ∨ signalPeriod ≤ 0 ∨
      slowPeriod > castInt length ∨ signalPeriod > castInt length then
    (-1, macd, signal, histogram)
  else
    match tmp with
    | none => (-1, macd, signal, histogram)
    | some (fastEMA, slowEMA) =>
      let fast := calculateEMA prices length fastPeriod fastEMA
      let slow := calculateEMA prices length slowPeriod slowEMA
      if fast.1 ≠ 0 ∨ slow.1 ≠ 0 then (-1, macd, signal, histogram)
      else
        let macd := macdLine (castInt length) slowPeriod fast.2 slow.2 macd
        let sg := macdSignal length slowPeriod signalPeriod macd signal
        if sg.1 ≠ 0 then (-1, macd, sg.2, histogram)
        else (0, macd, sg.2, histogramLoop (castInt length) macd sg.2 histogram)

/-! ## Statistics utilities and Bollinger Bands -/

/-- The comparison `a <= b`, false when an operand is `nan`. -/
def Dbl.le : Dbl → Dbl → Bool
  | fin a, fin b => decide (a ≤ b)
  | _, _ => false

/-- Conversion of a `size_t` to `double`. -/
def Dbl.ofNat (n : Nat) : Dbl := fin (n : ℚ)

/-- The conversion of an `int` to `size_t` (32 bits, as on the wasm32 target). -/
def castSize (x : Int) : Nat := (x % 2 ^ 32).toNat

/-- The function `calculateVariance` (indicators.c, lines 10-20).  The `size_t` loop
index is an `Int` offset, never negative. -/
def calculateVariance (values : Buf) (length : Nat) (mean : Dbl) : Dbl :=
  if length = 0 then fin 0
  else
    let sum := forInt 0 (length : Int)
      (fun i sum =>
        let diff := (values i).sub mean
        sum.add (diff.mul diff)) (fin 0)
    sum.div (Dbl.ofNat length)

/-- The function `calculateStdDev` (indicators.c, lines 22-24).  The C library function
`sqrt` is the parameter `sqrt`. -/
def calculateStdDev (sqrt : Dbl → Dbl) (values : Buf) (length : Nat) (mean : Dbl) : Dbl :=
  sqrt (calculateVariance values length mean)

/-- The function `calculateBollingerBands` (indicators.c, lines 111-147).  The C library
function `sqrt` is the parameter `sqrt`.  The result is the status and the final contents
of `upper`, `middle` and `lower`. -/
def calculateBollingerBands (sqrt : Dbl → Dbl) (prices : Buf) (length : Nat) (period : Int)
    (stdDev : Dbl) (upper middle lower : Buf) : Int × Buf × Buf × Buf :=
  if period ≤ 0 ∨ period > castInt length ∨ stdDev.le (fin 0) = true then
    (-1, upper, middle, lower)
  else
    let sma := calculateSMA prices length period middle
    if sma.1 ≠ 0 then (-1, upper, sma.2, lower)
    else
      let middle := sma.2
      let ul := forInt (period - 1) (castInt length)
        (fun i (ul : Buf × Buf) =>
          let mean := middle i
          let std := calculateStdDev sqrt (prices.shift (i - period + 1)) (castSize period) mean
          (ul.1.write i (mean.add (stdDev.mul std)), ul.2.write i (mean.sub (stdDev.mul std))))
        (upper, lower)
      let ul := forInt 0 (min (period - 1) (castInt length))
        (fun i (ul : Buf × Buf) => (ul.1.write i nan, ul.2.write i nan)) ul
      (0, ul.1, middle, ul.2)

/-! ## Stochastic oscillator -/

/-- The function `calculateStochastic` (indicators.c, lines 330-374).  The result is the
status and the final contents of `k` and `d`. -/
def calculateStochastic (high low close : Buf) (length : Nat) (kPeriod dPeriod : Int)
    (k d : Buf) : Int × Buf × Buf :=
  if kPeriod ≤ 0 ∨ dPeriod ≤ 0 ∨ kPeriod > castInt length ∨ dPeriod > castInt length then
    (-1, k, d)
  else
    let k := forInt 0 (min (kPeriod - 1) (castInt length)) (fun i k => k.write i nan) k
    let k := forInt (kPeriod - 1) (castInt length)
      (fun i k =>
        let highest := high (i - kPeriod + 1)
        let lowest := low (i - kPeriod + 1)
        let hl := forInt (i - kPeriod + 2) (i + 1)
          (fun j (hl : Dbl × Dbl) =>
            (if (high j).gt hl.1 then high j else hl.1,
             if (low j).lt hl.2 then low j else hl.2))
          (highest, lowest)
        let range := hl.1.sub hl.2
        if range.eq (fin 0) then k.write i (fin 50)
        else k.write i ((fin 100).mul (((close i).sub hl.2).div range))) k
    let sma := calculateSMA k length dPeriod d
    if sma.1 ≠ 0 then (-1, k, sma.2)
    else (0, k, sma.2)

/-! ## Binary64 rounding

The additions and subtractions of `calculateOBV` are modelled with their binary64
rounding, because the property proved about that kernel is about the exact increments
`result[i] - result[i-1]`. -/

/-- The power `2^e` as a rational, for an integer exponent. -/
def pow2 (e : Int) : ℚ :=
  if 0 ≤ e then ((2 ^ e.toNat : Nat) : ℚ) else 1 / ((2 ^ (-e).toNat : Nat) : ℚ)

/-- The magnitude of a rational. -/
def magnitude (q : ℚ) : ℚ := if q < 0 then -q else q

/-- The integer `⌊log₂ n⌋` of `n ≥ 1` by repeated halving, with `fuel` halvings allowed. -/
def log2Fuel : Nat → Nat → Nat
  | 0, _ => 0
  | fuel + 1, n => if n < 2 then 0 else log2Fuel fuel (n / 2) + 1

/-- The integer `⌊log₂ n⌋` of `n ≥ 1`; `n` halvings are always enough (`ilog2_spec`). -/
def ilog2 (n : Nat) : Nat := log2Fuel n n

/-- The integer `⌊log₂ q⌋` of a positive rational `q = n/d`: one of `ilog2 n - ilog2 d` and
`ilog2 n - ilog2 d - 1`. -/
def floorLog2 (q : ℚ) : Int :=
  if pow2 ((ilog2 q.num.toNat : Int) - (ilog2 q.den : Int)) ≤ q
  then (ilog2 q.num.toNat : Int) - (ilog2 q.den : Int)
  else (ilog2 q.num.toNat : Int) - (ilog2 q.den : Int) - 1

/-- Rounding of a non-negative rational to the nearest integer, ties to even. -/
def roundHalfEven (m : ℚ) : Int :=
  let f : Int := m.num / (m.den : Int)
  let frac : ℚ := m - (f : ℚ)
  if frac < 1 / 2 then f
  else if 1 / 2 < frac then f + 1
  else if f % 2 = 0 then f else f + 1

/-- Rounding of a rational to binary64, round-to-nearest, ties-to-even: 53 significant bits,
spacing `2^-1074` in the subnormal range, no bound on the exponent from above. -/
def round64 (q : ℚ) : ℚ :=
  if q = 0 then 0
  else
    let e : Int := max (floorLog2 (magnitude q) - 52) (-1074)
    let r : Int := roundHalfEven (magnitude q / pow2 e)
    if q < 0 then -((r : ℚ) * pow2 e) else (r : ℚ) * pow2 e

/-- The binary64 result of an operation whose exact value is `q`: the rounded value, or a
non-finite value (an infinity in C, `nan` in this model) when it leaves the range. -/
def Dbl.ofExact (q : ℚ) : Dbl :=
  if magnitude (round64 q) < pow2 1024 then fin (round64 q) else nan

/-- Addition of doubles `a + b` with binary64 rounding. -/
def Dbl.addR : Dbl → Dbl → Dbl
  | fin a, fin b => Dbl.ofExact (a + b)
  | _, _ => nan

/-- Subtraction of doubles `a - b` with binary64 rounding. -/
def Dbl.subR : Dbl → Dbl → Dbl
  | fin a, fin b => Dbl.ofExact (a - b)
  | _, _ => nan

/-! ## Volume indicators -/

/-- The function `calculateOBV` (indicators.c, lines 413-439).  The `size_t` loop index is
an `Int` offset, never negative.  The sum of line 428 and the difference of line 431 are
rounded to binary64 (`Dbl.addR`, `Dbl.subR`). -/
def calculateOBV (close volume : Buf) (length : Nat) (result : Buf) : Int × Buf :=
  if length = 0 then (-1, result)
  else
    let result := result.write 0 (volume 0)
    let result := forInt 1 (length : Int)
      (fun i r =>
        if (close i).gt (close (i - 1)) then r.write i ((r (i - 1)).addR (volume i))
        else if (close i).lt (close (i - 1)) then r.write i ((r (i - 1)).subR (volume i))
        else r.write i (r (i - 1))) result
    (0, result)

/-! ## Reference formulas for RSI, following the specification's wording -/

/-- Spec: per-step gain `max(Δprice, 0)`. -/
def gainSpec (p : Int → ℚ) (i : Int) : ℚ := max (p i - p (i - 1)) 0

/-- Spec: per-step loss `max(-Δprice, 0)`. -/
def lossSpec (p : Int → ℚ) (i : Int) : ℚ := max (p (i - 1) - p i) 0

/-- Spec: Wilder average of the series `x` at index `period + n`: the arithmetic mean of
`x` over indices `1..period` for `n = 0`, then
`avg_i = (avg_{i-1}·(period-1) + x[i]) / period`. -/
def avgSpec (x : Int → ℚ) (period : Int) : Nat → ℚ
  | 0 => (∑ k in Finset.range period.toNat, x (1 + (k : Int))) / (period : ℚ)
  | n + 1 => (avgSpec x period n * ((period : ℚ) - 1) + x (period + ((n + 1 : Nat) : Int)))
      / (period : ℚ)

/-- Spec: `RSI = 100` if `avgLoss = 0`, else `100 − 100/(1 + avgGain/avgLoss)`. -/
def rsiSpec (avgGain avgLoss : ℚ) : ℚ :=
  if avgLoss = 0 then 100 else 100 - 100 / (1 + avgGain / avgLoss)

/-! ## Reference formulas for the stochastic oscillator, following the specification's wording -/

/-- Spec: the maximum of `x` over the window `[lo, lo + n]`. -/
def windowMax (x : Int → ℚ) (lo : Int) : Nat → ℚ
  | 0 => x lo
  | n + 1 => max (windowMax x lo n) (x (lo + ((n + 1 : Nat) : Int)))

/-- Spec: the minimum of `x` over the window `[lo, lo + n]`. -/
def windowMin (x : Int → ℚ) (lo : Int) : Nat → ℚ
  | 0 => x lo
  | n + 1 => min (windowMin x lo n) (x (lo + ((n + 1 : Nat) : Int)))

/-- Spec: `%K = 100·(close[i]-lowest)/(highest-lowest)`, or `50` when `highest = lowest`,
with `highest`/`lowest` the max/min of high/low over `[i-kPeriod+1, i]`. -/
def stochSpec (h l c : Int → ℚ) (kPeriod : Int) (i : Int) : ℚ :=
  if windowMax h (i - kPeriod + 1) (kPeriod - 1).toNat
      = windowMin l (i - kPeriod + 1) (kPeriod - 1).toNat then 50
  else 100 * (c i - windowMin l (i - kPeriod + 1) (kPeriod - 1).toNat)
    / (windowMax h (i - kPeriod + 1) (kPeriod - 1).toNat
        - windowMin l (i - kPeriod + 1) (kPeriod - 1).toNat)

/-! ## Reference formulas for VWAP, following the specification's wording -/

/-- Spec: the OBV increment at index `i`: `+volume[i]` if `close[i] > close[i-1]`,
`-volume[i]` if `close[i] < close[i-1]`, else `0`. -/
def obvStepSpec (c v : Int → ℚ) (i : Int) : ℚ :=
  if c i > c (i - 1) then v i else if c i < c (i - 1) then -v i else 0

/-! ## Example data -/

/-- The example price series `[1, 2, 3, 4, 5]` as a function of the index. -/
def examplePrices : Int → ℚ := fun i => (i : ℚ) + 1

/-- An arbitrary initial content for output and temporary buffers in examples. -/
def junk : Buf := fun _ => fin 7

/-- The constant price series `1, 1, 1, ...` as a function of the index. -/
def flatPrices : Int → ℚ := fun _ => 1

/-- A price series of length 40, `prices[i] = i²`, as a function of the index. -/
def squarePrices : Int → ℚ := fun i => (i : ℚ) * (i : ℚ)

/-- The rational series held by a list at indices `0, 1, ...` (`0` elsewhere). -/
def seriesOf (l : List ℚ) : Int → ℚ := fun i => l.getD i.toNat 0

/-- A stand-in for the square root on rationals in examples: exact at `0`, `1` and `4`,
and `0` at every other rational. -/
def exampleRoot (q : ℚ) : ℚ := if q = 1 then 1 else if q = 4 then 2 else 0

/-- A stand-in for `sqrt` in examples: `exampleRoot` on finite values. -/
def exampleSqrt : Dbl → Dbl
  | fin q => fin (exampleRoot q)
  | nan => nan

/-! # Properties

## Casts and loops -/

theorem castInt_of_lt (n : Nat) (h : n < 2 ^ 31) : castInt n = (n : Int) := by
  unfold castInt wrapInt Int.bmod
  norm_num at h ⊢
  omega

theorem wrapInt_of_range (x : Int) (h0 : -(2 ^ 31) ≤ x) (h1 : x < 2 ^ 31) : wrapInt x = x := by
  unfold wrapInt Int.bmod
  norm_num at h0 h1 ⊢
  omega

theorem forInt_of_le {σ : Type} (lo hi : Int) (body : Int → σ → σ) (s : σ) (h : hi ≤ lo) :
    forInt lo hi body s = s := by
  have : (hi - lo).toNat = 0 := by omega
  simp [forInt, this]

theorem forInt_succ {σ : Type} (lo hi : Int) (body : Int → σ → σ) (s : σ) (h : lo ≤ hi) :
    forInt lo (hi + 1) body s = body hi (forInt lo hi body s) := by
  have e : (hi + 1 - lo).toNat = (hi - lo).toNat + 1 := by omega
  have e2 : lo + ((hi - lo).toNat : Int) = hi := by omega
  unfold forInt
  rw [e, List.range_succ, List.foldl_append, List.foldl_cons, List.foldl_nil, e2]

/-- Loop-invariant rule for `forInt`. -/
theorem forInt_inv {σ : Type} (P : Int → σ → Prop) (lo hi : Int) (body : Int → σ → σ) (s : σ)
    (hle : lo ≤ hi) (h0 : P lo s)
    (hstep : ∀ i t, lo ≤ i → i < hi → P i t → P (i + 1) (body i t)) :
    P hi (forInt lo hi body s) := by
  obtain ⟨n, rfl⟩ : ∃ n : Nat, hi = lo + n := ⟨(hi - lo).toNat, by omega⟩
  clear hle
  induction n with
  | zero => simpa [forInt_of_le] using h0
  | succ n ih =>
    have hs : lo + ((n + 1 : Nat) : Int) = (lo + n) + 1 := by push_cast; ring
    rw [hs, forInt_succ _ _ _ _ (by omega)]
    apply hstep _ _ (by omega) (by omega)
    apply ih
    intro i t h1 h2 h3
    exact hstep i t h1 (by omega) h3

@[simp] theorem Buf.write_same (b : Buf) (i : Int) (v : Dbl) : (b.write i v) i = v := by
  simp [Buf.write]

theorem Buf.write_other (b : Buf) (i k : Int) (v : Dbl) (h : k ≠ i) : (b.write i v) k = b k := by
  simp [Buf.write, h]

/-- A loop that stores `f i` at every index of `[lo, hi)`, where `f i` may read the
part of the buffer outside `[lo, hi)` only through `g`: final contents. -/
theorem forInt_fill (lo hi : Int) (f : Int → Dbl) (r : Buf) (k : Int) :
    forInt lo hi (fun i t => t.write i (f i)) r k = if lo ≤ k ∧ k < hi then f k else r k := by
  by_cases hle : lo ≤ hi
  · have key := forInt_inv
      (fun (n : Int) (t : Buf) => ∀ k, t k = if lo ≤ k ∧ k < n then f k else r k)
      lo hi (fun i t => t.write i (f i)) r hle
      (by intro k; rw [if_neg (by omega)])
      (by
        intro i t h1 h2 ht k
        by_cases hk : k = i
        · subst hk
          show (t.write k (f k)) k = _
          rw [Buf.write_same, if_pos ⟨h1, by omega⟩]
        · show (t.write i (f i)) k = _
          rw [Buf.write_other _ _ _ _ hk, ht k]
          have : (k < i + 1) ↔ (k < i) := by omega
          simp [this])
    exact key k
  · rw [forInt_of_le _ _ _ _ (by omega)]
    have : ¬ (lo ≤ k ∧ k < hi) := by omega
    simp [this]

/-- The accumulation loop `sum += prices[j]` over finite values is the exact sum. -/
theorem forInt_sum (prices : Buf) (p : Int → ℚ) (lo : Int) (n : Nat)
    (hp : ∀ k : Nat, k < n → prices (lo + k) = fin (p (lo + k))) :
    forInt lo (lo + n) (fun j s => s.add (prices j)) (fin 0)
      = fin (∑ k in Finset.range n, p (lo + k)) := by
  induction n with
  | zero => simp [forInt_of_le]
  | succ n ih =>
    have hs : lo + ((n + 1 : Nat) : Int) = (lo + n) + 1 := by push_cast; ring
    rw [hs, forInt_succ _ _ _ _ (by omega), ih (fun k hk => hp k (by omega)),
      hp n (by omega), Finset.sum_range_succ]
    rfl

/-- Output of a successful `calculateSMA` run, for arbitrary (possibly `nan`) inputs. -/
theorem calculateSMA_run (prices : Buf) (N : Nat) (period : Int) (result : Buf)
    (hN : N < 2 ^ 31) (h1 : 1 ≤ period) (h2 : period ≤ N) :
    calculateSMA prices N period result = (0, fun k =>
      if period - 1 ≤ k ∧ k < N then
        (forInt (k - period + 1) (k + 1) (fun j s => s.add (prices j)) (fin 0)).div
          (Dbl.ofInt period)
      else if 0 ≤ k ∧ k < period - 1 then nan else result k) := by
  have hc : castInt N = (N : Int) := castInt_of_lt N hN
  have hv : ¬ (period ≤ 0 ∨ period > (N : Int)) := by omega
  unfold calculateSMA
  rw [hc, if_neg hv]
  refine congrArg (Prod.mk (0 : Int)) ?_
  funext k
  rw [forInt_fill (period - 1) N
    (fun i => (forInt (i - period + 1) (i + 1) (fun j s => s.add (prices j)) (fin 0)).div
      (Dbl.ofInt period)), forInt_fill 0 _ (fun _ => nan)]
  have hm : min (period - 1) (N : Int) = period - 1 := min_eq_left (by omega)
  rw [hm]

/-- The window sum of `calculateSMA` over finite prices. -/
theorem windowSum_fin (prices : Buf) (p : Int → ℚ) (N : Nat) (period : Int)
    (hfin : ∀ j : Int, 0 ≤ j → j < N → prices j = fin (p j)) (h1 : 1 ≤ period)
    (i : Int) (hi1 : period - 1 ≤ i) (hi2 : i < N) :
    forInt (i - period + 1) (i + 1) (fun j s => s.add (prices j)) (fin 0)
      = fin (∑ k in Finset.range period.toNat, p (i - period + 1 + k)) := by
  have e : i + 1 = (i - period + 1) + (period.toNat : Int) := by omega
  rw [e]
  exact forInt_sum prices p _ _ (fun k hk => hfin _ (by omega) (by omega))

theorem Dbl.div_ofInt_pos (q : ℚ) (period : Int) (h1 : 1 ≤ period) :
    (fin q).div (Dbl.ofInt period) = fin (q / (period : ℚ)) := by
  have hq : (period : ℚ) ≠ 0 := by
    have : (0 : ℚ) < period := by exact_mod_cast (by omega : (0 : Int) < period)
    exact ne_of_gt this
  simp only [Dbl.div, Dbl.ofInt, if_neg hq]

/-- C2. `calculateSMA` on a finite price series of length `N` (representable as `int`)
with `1 ≤ period ≤ N` succeeds; `result[i]` is `nan` for `i < period - 1`, and for
`period - 1 ≤ i < N` it is the arithmetic mean of `prices[i-period+1 .. i]`. -/
theorem calculateSMA_spec (prices : Buf) (p : Int → ℚ) (N : Nat) (period : Int) (result : Buf)
    (hN : N < 2 ^ 31) (hfin : ∀ j : Int, 0 ≤ j → j < N → prices j = fin (p j))
    (h1 : 1 ≤ period) (h2 : period ≤ N) :
    (calculateSMA prices N period result).1 = 0 ∧
    (∀ i : Int, 0 ≤ i → i < period - 1 → (calculateSMA prices N period result).2 i = nan) ∧
    (∀ i : Int, period - 1 ≤ i → i < N → (calculateSMA prices N period result).2 i =
      fin ((∑ k in Finset.range period.toNat, p (i - period + 1 + k)) / (period : ℚ))) := by
  rw [calculateSMA_run prices N period result hN h1 h2]
  refine ⟨rfl, ?_, ?_⟩
  · intro i hi1 hi2
    simp only
    rw [if_neg (by omega), if_pos ⟨hi1, hi2⟩]
  · intro i hi1 hi2
    simp only
    rw [if_pos ⟨hi1, hi2⟩, windowSum_fin prices p N period hfin h1 i hi1 hi2,
      Dbl.div_ofInt_pos _ _ h1]


theorem ofList_examplePrices (j : Int) (h0 : 0 ≤ j) (h1 : j < (5 : Nat)) :
    Buf.ofList [1, 2, 3, 4, 5] j = fin (examplePrices j) := by
  have h1' : j < 5 := by exact_mod_cast h1
  interval_cases j <;> decide!

/-- C2, witness: `prices = [1,2,3,4,5]`, `period = 3` gives `[nan, nan, 2, 3, 4]`. -/
theorem calculateSMA_spec_witness :
    (calculateSMA (Buf.ofList [1, 2, 3, 4, 5]) 5 3 (fun _ => fin 7)).1 = 0 ∧
    (calculateSMA (Buf.ofList [1, 2, 3, 4, 5]) 5 3 (fun _ => fin 7)).2 0 = nan ∧
    (calculateSMA (Buf.ofList [1, 2, 3, 4, 5]) 5 3 (fun _ => fin 7)).2 1 = nan ∧
    (calculateSMA (Buf.ofList [1, 2, 3, 4, 5]) 5 3 (fun _ => fin 7)).2 2 = fin 2 ∧
    (calculateSMA (Buf.ofList [1, 2, 3, 4, 5]) 5 3 (fun _ => fin 7)).2 3 = fin 3 ∧
    (calculateSMA (Buf.ofList [1, 2, 3, 4, 5]) 5 3 (fun _ => fin 7)).2 4 = fin 4 := by
  have h := calculateSMA_spec (Buf.ofList [1, 2, 3, 4, 5]) examplePrices 5 3 (fun _ => fin 7)
    (by decide) ofList_examplePrices (by decide) (by decide)
  refine ⟨h.1, h.2.1 0 (by decide) (by decide), h.2.1 1 (by decide) (by decide),
    (h.2.2 2 (by decide) (by decide)).trans ?_, (h.2.2 3 (by decide) (by decide)).trans ?_,
    (h.2.2 4 (by decide) (by decide)).trans ?_⟩ <;>
  · congr 1
    have e3 : Int.toNat 3 = 3 := rfl
    norm_num [e3, Finset.sum_range_succ, examplePrices]

/-- Output of a successful `calculateEMA` run, for arbitrary (possibly `nan`) inputs:
the `nan` prefix, the seed, the recurrence, and the untouched memory outside `[0, N)`. -/
theorem calculateEMA_run (prices : Buf) (N : Nat) (period : Int) (result : Buf)
    (hN : N < 2 ^ 31) (h1 : 1 ≤ period) (h2 : period ≤ N) :
    (calculateEMA prices N period result).1 = 0 ∧
    (∀ k : Int, 0 ≤ k → k < period - 1 → (calculateEMA prices N period result).2 k = nan) ∧
    (calculateEMA prices N period result).2 (period - 1)
      = (forInt 0 period (fun i s => s.add (prices i)) (fin 0)).div (Dbl.ofInt period) ∧
    (∀ k : Int, period ≤ k → k < N → (calculateEMA prices N period result).2 k
      = (((fin 2).div ((Dbl.ofInt period).add (fin 1))).mul (prices k)).add
          (((fin 1).sub ((fin 2).div ((Dbl.ofInt period).add (fin 1)))).mul
            ((calculateEMA prices N period result).2 (k - 1)))) ∧
    (∀ k : Int, k < 0 ∨ (N : Int) ≤ k → (calculateEMA prices N period result).2 k = result k) := by
  have hc : castInt N = (N : Int) := castInt_of_lt N hN
  have hv : ¬ (period ≤ 0 ∨ period > (N : Int)) := by omega
  have hm : min (period - 1) (N : Int) = period - 1 := min_eq_left (by omega)
  unfold calculateEMA
  rw [hc, if_neg hv, hm]
  simp only [if_pos (show period - 1 < (N : Int) by omega)]
  generalize hα : (fin 2).div ((Dbl.ofInt period).add (fin 1)) = alpha
  generalize hseed : (forInt 0 period (fun i s => s.add (prices i)) (fin 0)).div
    (Dbl.ofInt period) = seed
  generalize hr2 : (forInt 0 (period - 1) (fun i r => r.write i nan) result).write
    (period - 1) seed = r2
  have hr2k : ∀ k, r2 k = if k = period - 1 then seed
      else if 0 ≤ k ∧ k < period - 1 then nan else result k := by
    intro k
    rw [← hr2]
    by_cases hk : k = period - 1
    · rw [hk, Buf.write_same, if_pos rfl]
    · rw [Buf.write_other _ _ _ _ hk, forInt_fill 0 _ (fun _ => nan), if_neg hk]
  have key := forInt_inv
    (fun (n : Int) (t : Buf) => (∀ k, k < period → t k = r2 k) ∧
      (∀ k, period ≤ k → k < n →
        t k = (alpha.mul (prices k)).add (((fin 1).sub alpha).mul (t (k - 1)))) ∧
      (∀ k, n ≤ k → t k = r2 k))
    period N
    (fun i r => r.write i ((alpha.mul (prices i)).add (((fin 1).sub alpha).mul (r (i - 1)))))
    r2 h2
    ⟨fun _ _ => rfl, fun k a b => by omega, fun _ _ => rfl⟩
    (by
      rintro i t hi1 hi2 ⟨ha, hb, hc⟩
      refine ⟨?_, ?_, ?_⟩
      · intro k hk
        show (t.write i _) k = _
        rw [Buf.write_other _ _ _ _ (by omega)]
        exact ha k hk
      · intro k hk1 hk2
        show (t.write i _) k = (alpha.mul (prices k)).add (((fin 1).sub alpha).mul
          ((t.write i _) (k - 1)))
        rw [Buf.write_other _ _ (k - 1) _ (by omega)]
        by_cases hki : k = i
        · subst hki
          rw [Buf.write_same]
        · rw [Buf.write_other _ _ _ _ hki]
          exact hb k hk1 (by omega)
      · intro k hk
        show (t.write i _) k = _
        rw [Buf.write_other _ _ _ _ (by omega)]
        exact hc k (by omega))
  obtain ⟨ka, kb, kc⟩ := key
  refine ⟨trivial, ?_, ?_, ?_, ?_⟩
  · intro k hk1 hk2
    show forInt period N _ r2 k = nan
    rw [ka k (by omega), hr2k, if_neg (by omega), if_pos ⟨hk1, hk2⟩]
  · show forInt period N _ r2 (period - 1) = seed
    rw [ka _ (by omega), hr2k, if_pos rfl]
  · intro k hk1 hk2
    exact kb k hk1 hk2
  · intro k hk
    show forInt period N _ r2 k = result k
    have : forInt period N
        (fun i r => r.write i ((alpha.mul (prices i)).add (((fin 1).sub alpha).mul (r (i - 1)))))
        r2 k = r2 k := by
      rcases hk with hk | hk
      · exact ka k (by omega)
      · exact kc k hk
    rw [this, hr2k, if_neg (by omega), if_neg (by omega)]

/-- The smoothing factor `2.0 / (period + 1.0)` for a positive period. -/
theorem alpha_fin (period : Int) (h1 : 1 ≤ period) :
    (fin 2).div ((Dbl.ofInt period).add (fin 1)) = fin (2 / ((period : ℚ) + 1)) := by
  have hq : (period : ℚ) + 1 ≠ 0 := by
    have : (0 : ℚ) < (period : ℚ) + 1 := by exact_mod_cast (by omega : (0 : Int) < period + 1)
    exact ne_of_gt this
  simp only [Dbl.div, Dbl.ofInt, Dbl.add, if_neg hq]

/-- On finite prices every output of `calculateEMA` from the seed on is finite. -/
theorem calculateEMA_finite (prices : Buf) (p : Int → ℚ) (N : Nat) (period : Int) (result : Buf)
    (hN : N < 2 ^ 31) (hfin : ∀ j : Int, 0 ≤ j → j < N → prices j = fin (p j))
    (h1 : 1 ≤ period) (h2 : period ≤ N) (k : Int) (hk1 : period - 1 ≤ k) (hk2 : k < N) :
    ∃ q : ℚ, (calculateEMA prices N period result).2 k = fin q := by
  obtain ⟨_, _, hseed, hrec, _⟩ := calculateEMA_run prices N period result hN h1 h2
  obtain ⟨n, rfl⟩ : ∃ n : Nat, k = period - 1 + n := ⟨(k - (period - 1)).toNat, by omega⟩
  clear hk1
  induction n with
  | zero =>
    have e : period = 0 + (period.toNat : Int) := by omega
    have hs := forInt_sum prices p 0 period.toNat (fun k hk => hfin _ (by omega) (by omega))
    rw [← e] at hs
    rw [show period - 1 + ((0 : Nat) : Int) = period - 1 by simp, hseed, hs,
      Dbl.div_ofInt_pos _ _ h1]
    exact ⟨_, rfl⟩
  | succ n ih =>
    obtain ⟨q, hq⟩ := ih (by omega)
    rw [hrec _ (by omega) hk2, alpha_fin period h1, hfin _ (by omega) hk2,
      show period - 1 + ((n + 1 : Nat) : Int) - 1 = period - 1 + (n : Int) by omega, hq]
    exact ⟨_, rfl⟩

/-- C1. `calculateEMA` on a finite price series of length `N` (representable as `int`)
with `1 ≤ period ≤ N` succeeds; with `α = 2/(period+1)`, `result[i]` is `nan` for
`i < period - 1`, `result[period-1]` is the arithmetic mean of `prices[0 .. period-1]`,
and for `period - 1 < i < N`, `result[i] = α·prices[i] + (1-α)·result[i-1]`, both finite. -/
theorem calculateEMA_spec (prices : Buf) (p : Int → ℚ) (N : Nat) (period : Int) (result : Buf)
    (hN : N < 2 ^ 31) (hfin : ∀ j : Int, 0 ≤ j → j < N → prices j = fin (p j))
    (h1 : 1 ≤ period) (h2 : period ≤ N) :
    (calculateEMA prices N period result).1 = 0 ∧
    (∀ i : Int, 0 ≤ i → i < period - 1 → (calculateEMA prices N period result).2 i = nan) ∧
    (calculateEMA prices N period result).2 (period - 1)
      = fin ((∑ k in Finset.range period.toNat, p k) / (period : ℚ)) ∧
    (∀ i : Int, period - 1 < i → i < N → ∃ prev : ℚ,
      (calculateEMA prices N period result).2 (i - 1) = fin prev ∧
      (calculateEMA prices N period result).2 i
        = fin (2 / ((period : ℚ) + 1) * p i + (1 - 2 / ((period : ℚ) + 1)) * prev)) := by
  obtain ⟨hst, hnan, hseed, hrec, _⟩ := calculateEMA_run prices N period result hN h1 h2
  refine ⟨hst, hnan, ?_, ?_⟩
  · have e : period = 0 + (period.toNat : Int) := by omega
    have hs := forInt_sum prices p 0 period.toNat (fun k hk => hfin _ (by omega) (by omega))
    rw [← e] at hs
    rw [hseed, hs, Dbl.div_ofInt_pos _ _ h1]
    simp
  · intro i hi1 hi2
    obtain ⟨q, hq⟩ := calculateEMA_finite prices p N period result hN hfin h1 h2 (i - 1)
      (by omega) (by omega)
    refine ⟨q, hq, ?_⟩
    rw [hrec i (by omega) hi2, alpha_fin period h1, hfin i (by omega) hi2, hq]
    rfl

/-- C1, witness: `prices = [1,2,3,4,5]`, `period = 3` gives `[nan, nan, 2, 3, 4]`. -/
theorem calculateEMA_spec_witness :
    (calculateEMA (Buf.ofList [1, 2, 3, 4, 5]) 5 3 (fun _ => fin 7)).1 = 0 ∧
    (calculateEMA (Buf.ofList [1, 2, 3, 4, 5]) 5 3 (fun _ => fin 7)).2 0 = nan ∧
    (calculateEMA (Buf.ofList [1, 2, 3, 4, 5]) 5 3 (fun _ => fin 7)).2 1 = nan ∧
    (calculateEMA (Buf.ofList [1, 2, 3, 4, 5]) 5 3 (fun _ => fin 7)).2 2 = fin 2 ∧
    (calculateEMA (Buf.ofList [1, 2, 3, 4, 5]) 5 3 (fun _ => fin 7)).2 3 = fin 3 ∧
    (calculateEMA (Buf.ofList [1, 2, 3, 4, 5]) 5 3 (fun _ => fin 7)).2 4 = fin 4 := by
  have h := calculateEMA_spec (Buf.ofList [1, 2, 3, 4, 5]) examplePrices 5 3 (fun _ => fin 7)
    (by decide) ofList_examplePrices (by decide) (by decide)
  have e3 : Int.toNat 3 = 3 := rfl
  have h2 : (calculateEMA (Buf.ofList [1, 2, 3, 4, 5]) 5 3 (fun _ => fin 7)).2 2 = fin 2 := by
    refine h.2.2.1.trans ?_
    congr 1
    norm_num [e3, Finset.sum_range_succ, examplePrices]
  have h3 : (calculateEMA (Buf.ofList [1, 2, 3, 4, 5]) 5 3 (fun _ => fin 7)).2 3 = fin 3 := by
    obtain ⟨prev, hp, hq⟩ := h.2.2.2 3 (by decide) (by decide)
    rw [show (3 : Int) - 1 = 2 by rfl, h2] at hp
    rw [hq, ← Dbl.fin.inj hp]
    congr 1
    norm_num [examplePrices]
  have h4 : (calculateEMA (Buf.ofList [1, 2, 3, 4, 5]) 5 3 (fun _ => fin 7)).2 4 = fin 4 := by
    obtain ⟨prev, hp, hq⟩ := h.2.2.2 4 (by decide) (by decide)
    rw [show (4 : Int) - 1 = 3 by rfl, h3] at hp
    rw [hq, ← Dbl.fin.inj hp]
    congr 1
    norm_num [examplePrices]
  exact ⟨h.1, h.2.1 0 (by decide) (by decide), h.2.1 1 (by decide) (by decide), h2, h3, h4⟩

/-! ## RSI -/

theorem avgSpec_nonneg (x : Int → ℚ) (period : Int) (h1 : 1 ≤ period) (hx : ∀ i, 0 ≤ x i)
    (n : Nat) : 0 ≤ avgSpec x period n := by
  have hp : (1 : ℚ) ≤ period := by exact_mod_cast h1
  induction n with
  | zero =>
    unfold avgSpec
    exact div_nonneg (Finset.sum_nonneg (fun k _ => hx _)) (by linarith)
  | succ n ih =>
    unfold avgSpec
    exact div_nonneg (add_nonneg (mul_nonneg ih (by linarith)) (hx _)) (by linarith)

/-- The two stores of an RSI value (lines 197-202 and 210-215) on finite non-negative
averages store `rsiSpec`. -/
theorem rsi_value (ag al : ℚ) (hg : 0 ≤ ag) (hl : 0 ≤ al) :
    (if (fin al).eq (fin 0) = true then fin 100
      else (fin 100).sub ((fin 100).div ((fin 1).add ((fin ag).div (fin al)))))
      = fin (rsiSpec ag al) := by
  unfold rsiSpec
  by_cases h : al = 0
  · simp [Dbl.eq, h]
  · have h1 : (1 : ℚ) + ag / al ≠ 0 := by
      have : 0 ≤ ag / al := div_nonneg hg hl
      linarith
    simp [Dbl.eq, Dbl.div, Dbl.add, Dbl.sub, h, h1]

/-- The loop filling `gains` and `losses` (lines 177-181). -/
theorem forInt_fill2 (lo hi : Int) (f g : Int → Dbl) (a b : Buf) :
    forInt lo hi (fun i (gl : Buf × Buf) => (gl.1.write i (f i), gl.2.write i (g i))) (a, b)
      = (forInt lo hi (fun i t => t.write i (f i)) a,
         forInt lo hi (fun i t => t.write i (g i)) b) := by
  by_cases hle : lo ≤ hi
  · obtain ⟨n, rfl⟩ : ∃ n : Nat, hi = lo + n := ⟨(hi - lo).toNat, by omega⟩
    clear hle
    induction n with
    | zero => simp [forInt_of_le]
    | succ n ih =>
      have hs : lo + ((n + 1 : Nat) : Int) = (lo + n) + 1 := by push_cast; ring
      rw [hs, forInt_succ _ _ _ _ (by omega), forInt_succ _ _ _ _ (by omega),
        forInt_succ _ _ _ _ (by omega), ih]
  · rw [forInt_of_le _ _ _ _ (by omega), forInt_of_le _ _ _ _ (by omega),
      forInt_of_le _ _ _ _ (by omega)]

/-- The loop accumulating the initial `avgGain`, `avgLoss` (lines 187-190). -/
theorem forInt_sum2 (gains losses : Buf) (G L : Int → ℚ) (lo : Int) (n : Nat)
    (hg : ∀ k : Nat, k < n → gains (lo + k) = fin (G (lo + k)))
    (hl : ∀ k : Nat, k < n → losses (lo + k) = fin (L (lo + k))) :
    forInt lo (lo + n) (fun i (a : Dbl × Dbl) => (a.1.add (gains i), a.2.add (losses i)))
      (fin 0, fin 0)
      = (fin (∑ k in Finset.range n, G (lo + k)), fin (∑ k in Finset.range n, L (lo + k))) := by
  induction n with
  | zero => simp [forInt_of_le]
  | succ n ih =>
    have hs : lo + ((n + 1 : Nat) : Int) = (lo + n) + 1 := by push_cast; ring
    rw [hs, forInt_succ _ _ _ _ (by omega),
      ih (fun k hk => hg k (by omega)) (fun k hk => hl k (by omega)),
      hg n (by omega), hl n (by omega), Finset.sum_range_succ, Finset.sum_range_succ]
    rfl

/-- The Wilder smoothing loop of `calculateRSI` (lines 206-216), started from the seed
averages, on gains and losses that are the non-negative rationals `G i`, `L i`. -/
theorem rsi_loop (gains losses : Buf) (G L : Int → ℚ) (N : Nat) (period : Int) (r1 : Buf)
    (h1 : 1 ≤ period)
    (hg : ∀ i : Int, 1 ≤ i → i < N → gains i = fin (G i))
    (hl : ∀ i : Int, 1 ≤ i → i < N → losses i = fin (L i))
    (hG0 : ∀ i, 0 ≤ G i) (hL0 : ∀ i, 0 ≤ L i) (m : Nat) (hm : period + 1 + m ≤ N) :
    forInt (period + 1) (period + 1 + m)
      (fun i (st : Dbl × Dbl × Buf) =>
        let avgGain := ((st.1.mul (Dbl.ofInt (period - 1))).add (gains i)).div
          (Dbl.ofInt period)
        let avgLoss := ((st.2.1.mul (Dbl.ofInt (period - 1))).add (losses i)).div
          (Dbl.ofInt period)
        if avgLoss.eq (fin 0) then (avgGain, avgLoss, st.2.2.write i (fin 100))
        else
          let rs := avgGain.div avgLoss
          (avgGain, avgLoss,
            st.2.2.write i ((fin 100).sub ((fin 100).div ((fin 1).add rs)))))
      (fin (avgSpec G period 0), fin (avgSpec L period 0), r1)
    = (fin (avgSpec G period m), fin (avgSpec L period m),
        fun k => if period + 1 ≤ k ∧ k < period + 1 + m
          then fin (rsiSpec (avgSpec G period (k - period).toNat)
            (avgSpec L period (k - period).toNat))
          else r1 k) := by
  induction m with
  | zero =>
    rw [forInt_of_le _ _ _ _ (by simp)]
    refine congrArg _ (congrArg _ ?_)
    funext k
    rw [if_neg (by simp)]
  | succ m ih =>
    have hs : period + 1 + ((m + 1 : Nat) : Int) = (period + 1 + m) + 1 := by push_cast; ring
    have hq : (period : ℚ) ≠ 0 := by
      have : (0 : ℚ) < period := by exact_mod_cast (by omega : (0 : Int) < period)
      exact ne_of_gt this
    rw [hs, forInt_succ _ _ _ _ (by omega), ih (by omega)]
    have e1 : period + ((m + 1 : Nat) : Int) = period + 1 + m := by push_cast; ring
    have hag : (((fin (avgSpec G period m)).mul (Dbl.ofInt (period - 1))).add
        (gains (period + 1 + m))).div (Dbl.ofInt period) = fin (avgSpec G period (m + 1)) := by
      rw [hg _ (by omega) (by omega)]
      simp only [Dbl.mul, Dbl.add, Dbl.div, Dbl.ofInt, if_neg hq]
      rw [avgSpec, e1]
      push_cast
      rfl
    have hal : (((fin (avgSpec L period m)).mul (Dbl.ofInt (period - 1))).add
        (losses (period + 1 + m))).div (Dbl.ofInt period) = fin (avgSpec L period (m + 1)) := by
      rw [hl _ (by omega) (by omega)]
      simp only [Dbl.mul, Dbl.add, Dbl.div, Dbl.ofInt, if_neg hq]
      rw [avgSpec, e1]
      push_cast
      rfl
    simp only [hag, hal]
    have hv := rsi_value _ _ (avgSpec_nonneg G period h1 hG0 (m + 1))
      (avgSpec_nonneg L period h1 hL0 (m + 1))
    have e2 : (period + 1 + (m : Int) - period).toNat = m + 1 := by omega
    by_cases hz : (fin (avgSpec L period (m + 1))).eq (fin 0) = true
    · rw [if_pos hz] at hv
      rw [if_pos hz]
      refine congrArg _ (congrArg _ ?_)
      funext k
      by_cases hk : k = period + 1 + m
      · rw [hk, Buf.write_same, if_pos ⟨by omega, by omega⟩, e2, ← hv]
      · rw [Buf.write_other _ _ _ _ hk]
        by_cases hk2 : period + 1 ≤ k ∧ k < period + 1 + m
        · rw [if_pos hk2, if_pos ⟨by omega, by omega⟩]
        · rw [if_neg hk2, if_neg (by omega)]
    · rw [if_neg hz] at hv
      rw [if_neg hz]
      refine congrArg _ (congrArg _ ?_)
      funext k
      by_cases hk : k = period + 1 + m
      · rw [hk, Buf.write_same, if_pos ⟨by omega, by omega⟩, e2, ← hv]
      · rw [Buf.write_other _ _ _ _ hk]
        by_cases hk2 : period + 1 ≤ k ∧ k < period + 1 + m
        · rw [if_pos hk2, if_pos ⟨by omega, by omega⟩]
        · rw [if_neg hk2, if_neg (by omega)]

/-- Output of a successful `calculateRSI` run whose per-step gains and losses are the
non-negative rationals `G i`, `L i`. -/
theorem calculateRSI_run (g0 l0 prices : Buf) (N : Nat) (period : Int) (result : Buf)
    (G L : Int → ℚ) (hN : N < 2 ^ 31) (h1 : 1 ≤ period) (h2 : period < N)
    (hG : ∀ i : Int, 1 ≤ i → i < N →
      (if ((prices i).sub (prices (i - 1))).gt (fin 0) = true
        then (prices i).sub (prices (i - 1)) else fin 0) = fin (G i))
    (hL : ∀ i : Int, 1 ≤ i → i < N →
      (if ((prices i).sub (prices (i - 1))).lt (fin 0) = true
        then ((prices i).sub (prices (i - 1))).neg else fin 0) = fin (L i))
    (hG0 : ∀ i, 0 ≤ G i) (hL0 : ∀ i, 0 ≤ L i) :
    calculateRSI (some (g0, l0)) prices N period result = (0, fun k =>
      if period ≤ k ∧ k < N then
        fin (rsiSpec (avgSpec G period (k - period).toNat) (avgSpec L period (k - period).toNat))
      else if 0 ≤ k ∧ k < period then nan else result k) := by
  have hc : castInt N = (N : Int) := castInt_of_lt N hN
  have hv : ¬ (period ≤ 0 ∨ period ≥ (N : Int)) := by omega
  have hv2 : ¬ (period ≥ (N : Int)) := by omega
  have hm : min period (N : Int) = period := min_eq_left (by omega)
  have hq : (period : ℚ) ≠ 0 := by
    have : (0 : ℚ) < period := by exact_mod_cast (by omega : (0 : Int) < period)
    exact ne_of_gt this
  unfold calculateRSI
  rw [hc, if_neg hv, hm]
  simp only [if_neg hv2, if_pos h2, forInt_fill2]
  generalize hgs : forInt 1 (N : Int) (fun i t => t.write i
    (if ((prices i).sub (prices (i - 1))).gt (fin 0) = true
      then (prices i).sub (prices (i - 1)) else fin 0)) g0 = gains
  generalize hls : forInt 1 (N : Int) (fun i t => t.write i
    (if ((prices i).sub (prices (i - 1))).lt (fin 0) = true
      then ((prices i).sub (prices (i - 1))).neg else fin 0)) l0 = losses
  have hg : ∀ i : Int, 1 ≤ i → i < N → gains i = fin (G i) := by
    intro i hi1 hi2
    rw [← hgs, forInt_fill 1 N (fun i => if ((prices i).sub (prices (i - 1))).gt (fin 0) = true
      then (prices i).sub (prices (i - 1)) else fin 0), if_pos ⟨hi1, hi2⟩]
    exact hG i hi1 hi2
  have hl : ∀ i : Int, 1 ≤ i → i < N → losses i = fin (L i) := by
    intro i hi1 hi2
    rw [← hls, forInt_fill 1 N (fun i => if ((prices i).sub (prices (i - 1))).lt (fin 0) = true
      then ((prices i).sub (prices (i - 1))).neg else fin 0), if_pos ⟨hi1, hi2⟩]
    exact hL i hi1 hi2
  have hsum := forInt_sum2 gains losses G L 1 period.toNat
    (fun k hk => hg _ (by omega) (by omega)) (fun k hk => hl _ (by omega) (by omega))
  rw [show (1 : Int) + (period.toNat : Int) = period + 1 by omega] at hsum
  rw [hsum]
  simp only [Dbl.div_ofInt_pos _ _ h1]
  have ha0 : ∀ x : Int → ℚ, (∑ k in Finset.range period.toNat, x (1 + (k : Int))) / (period : ℚ)
      = avgSpec x period 0 := fun x => rfl
  rw [ha0 G, ha0 L]
  have hfirst := rsi_value _ _ (avgSpec_nonneg G period h1 hG0 0)
    (avgSpec_nonneg L period h1 hL0 0)
  generalize hr0 : forInt 0 period (fun i r => r.write i nan) result = r0
  have hr0k : ∀ k, r0 k = if 0 ≤ k ∧ k < period then nan else result k := by
    intro k
    rw [← hr0, forInt_fill 0 period (fun _ => nan)]
  have hr1 : (if (fin (avgSpec L period 0)).eq (fin 0) = true then r0.write period (fin 100)
      else r0.write period ((fin 100).sub ((fin 100).div ((fin 1).add
        ((fin (avgSpec G period 0)).div (fin (avgSpec L period 0)))))))
      = r0.write period (fin (rsiSpec (avgSpec G period 0) (avgSpec L period 0))) := by
    rw [← hfirst]
    split <;> rfl
  rw [hr1]
  have hloop := rsi_loop gains losses G L N period
    (r0.write period (fin (rsiSpec (avgSpec G period 0) (avgSpec L period 0))))
    h1 hg hl hG0 hL0 (N - (period + 1)).toNat (by omega)
  rw [show period + 1 + (((N : Int) - (period + 1)).toNat : Int) = N by omega] at hloop
  simp only [] at hloop
  rw [hloop]
  refine congrArg _ ?_
  funext k
  simp only []
  by_cases hk1 : period + 1 ≤ k ∧ k < N
  · rw [if_pos hk1, if_pos ⟨by omega, by omega⟩]
  · rw [if_neg hk1]
    by_cases hk2 : k = period
    · rw [hk2, Buf.write_same, if_pos ⟨by omega, by omega⟩]
      simp
    · rw [Buf.write_other _ _ _ _ hk2, hr0k,
        if_neg (show ¬ (period ≤ k ∧ k < (N : Int)) by omega)]

/-- The gain stored at line 179 for finite prices is `gainSpec`. -/
theorem gain_fin (prices : Buf) (p : Int → ℚ) (N : Nat)
    (hfin : ∀ j : Int, 0 ≤ j → j < N → prices j = fin (p j))
    (i : Int) (hi1 : 1 ≤ i) (hi2 : i < N) :
    (if ((prices i).sub (prices (i - 1))).gt (fin 0) = true
      then (prices i).sub (prices (i - 1)) else fin 0) = fin (gainSpec p i) := by
  rw [hfin i (by omega) hi2, hfin (i - 1) (by omega) (by omega)]
  simp only [Dbl.sub, Dbl.gt, gainSpec, decide_eq_true_eq]
  split
  · rename_i h; rw [max_eq_left (le_of_lt h)]
  · rename_i h; rw [max_eq_right (not_lt.mp h)]

/-- The loss stored at line 180 for finite prices is `lossSpec`. -/
theorem loss_fin (prices : Buf) (p : Int → ℚ) (N : Nat)
    (hfin : ∀ j : Int, 0 ≤ j → j < N → prices j = fin (p j))
    (i : Int) (hi1 : 1 ≤ i) (hi2 : i < N) :
    (if ((prices i).sub (prices (i - 1))).lt (fin 0) = true
      then ((prices i).sub (prices (i - 1))).neg else fin 0) = fin (lossSpec p i) := by
  rw [hfin i (by omega) hi2, hfin (i - 1) (by omega) (by omega)]
  simp only [Dbl.sub, Dbl.lt, Dbl.neg, lossSpec, decide_eq_true_eq]
  split
  · rename_i h
    rw [max_eq_left (by linarith)]
    congr 1
    ring
  · rename_i h
    rw [max_eq_right (by linarith)]

theorem gainSpec_nonneg (p : Int → ℚ) (i : Int) : 0 ≤ gainSpec p i := le_max_right _ _

theorem lossSpec_nonneg (p : Int → ℚ) (i : Int) : 0 ≤ lossSpec p i := le_max_right _ _

/-- Output of a successful `calculateRSI` run on finite prices. -/
theorem calculateRSI_fin (g0 l0 prices : Buf) (p : Int → ℚ) (N : Nat) (period : Int)
    (result : Buf) (hN : N < 2 ^ 31)
    (hfin : ∀ j : Int, 0 ≤ j → j < N → prices j = fin (p j))
    (h1 : 1 ≤ period) (h2 : period < N) :
    calculateRSI (some (g0, l0)) prices N period result = (0, fun k =>
      if period ≤ k ∧ k < N then
        fin (rsiSpec (avgSpec (gainSpec p) period (k - period).toNat)
          (avgSpec (lossSpec p) period (k - period).toNat))
      else if 0 ≤ k ∧ k < period then nan else result k) :=
  calculateRSI_run g0 l0 prices N period result (gainSpec p) (lossSpec p) hN h1 h2
    (gain_fin prices p N hfin) (loss_fin prices p N hfin) (gainSpec_nonneg p) (lossSpec_nonneg p)

/-- C7. `calculateRSI` on a finite price series of length `N` with `0 < period < N`
succeeds and, for every `period ≤ i < N`, `result[i]` is `100` if `avgLoss_i = 0` and
`100 - 100/(1 + avgGain_i/avgLoss_i)` otherwise, where the averages are the Wilder
averages of `max(Δ,0)` and `max(-Δ,0)` seeded by their means over indices `1..period`. -/
theorem calculateRSI_values (g0 l0 prices : Buf) (p : Int → ℚ) (N : Nat) (period : Int)
    (result : Buf) (hN : N < 2 ^ 31)
    (hfin : ∀ j : Int, 0 ≤ j → j < N → prices j = fin (p j))
    (h1 : 0 < period) (h2 : period < N) :
    (calculateRSI (some (g0, l0)) prices N period result).1 = 0 ∧
    ∀ i : Int, period ≤ i → i < N →
      (calculateRSI (some (g0, l0)) prices N period result).2 i
        = fin (if avgSpec (lossSpec p) period (i - period).toNat = 0 then 100
            else 100 - 100 / (1 + avgSpec (gainSpec p) period (i - period).toNat
              / avgSpec (lossSpec p) period (i - period).toNat)) := by
  rw [calculateRSI_fin g0 l0 prices p N period result hN hfin h1 h2]
  refine ⟨rfl, ?_⟩
  intro i hi1 hi2
  simp only []
  rw [if_pos ⟨hi1, hi2⟩]
  rfl

/-- C7, witness: `prices = [3,2,4,1]`, `period = 2`: `result[2] = 100 - 100/(1 + 1/(1/2))`
and `result[3] = 100 - 100/(1 + (1/2)/(7/4))`. -/
theorem calculateRSI_values_witness :
    (calculateRSI (some (junk, junk)) (Buf.ofList [3, 2, 4, 1]) 4 2 junk).1 = 0 ∧
    (calculateRSI (some (junk, junk)) (Buf.ofList [3, 2, 4, 1]) 4 2 junk).2 2
      = fin (100 - 100 / (1 + 1 / (1 / 2))) ∧
    (calculateRSI (some (junk, junk)) (Buf.ofList [3, 2, 4, 1]) 4 2 junk).2 3
      = fin (100 - 100 / (1 + (1 / 2) / (7 / 4))) := by
  have hfin : ∀ j : Int, 0 ≤ j → j < (4 : Nat) →
      Buf.ofList [3, 2, 4, 1] j = fin ((fun i : Int => ([3, 2, 4, 1] : List ℚ).getD i.toNat 0) j) := by
    intro j h0 h1
    have h1' : j < 4 := by exact_mod_cast h1
    interval_cases j <;> decide!
  have h := calculateRSI_values junk junk (Buf.ofList [3, 2, 4, 1]) _ 4 2 junk
    (by decide) hfin (by decide) (by decide)
  refine ⟨h.1, ?_, ?_⟩ <;> decide!

/-- C6, counterexample: on `prices = [1,2,3]`, `period = 1` the call succeeds and
`result[period] = result[1]` is `100`, so the outputs at `[0, period]` are not all
undefined. -/
theorem calculateRSI_undefined_counterexample :
    (calculateRSI (some (junk, junk)) (Buf.ofList [1, 2, 3]) 3 1 junk).1 = 0 ∧
    (calculateRSI (some (junk, junk)) (Buf.ofList [1, 2, 3]) 3 1 junk).2 1 = fin 100 ∧
    ¬ (∀ i : Int, 0 ≤ i → i ≤ 1 →
      (calculateRSI (some (junk, junk)) (Buf.ofList [1, 2, 3]) 3 1 junk).2 i = nan) := by
  refine ⟨by decide!, by decide!, fun h => ?_⟩
  have h1 := h 1 (by decide) (by decide)
  revert h1
  decide!

/-- C6, amended. For every successful call of `calculateRSI` on finite prices
(`0 < period < N`), `result[i]` is `nan` exactly on `[0, period)`: the `period` leading
outputs are undefined and every output at `period ≤ i < N` is a finite number, so the
first defined output is at index `period`. -/
theorem calculateRSI_undefined_region (g0 l0 prices : Buf) (p : Int → ℚ) (N : Nat)
    (period : Int) (result : Buf) (hN : N < 2 ^ 31)
    (hfin : ∀ j : Int, 0 ≤ j → j < N → prices j = fin (p j))
    (h1 : 0 < period) (h2 : period < N) :
    (calculateRSI (some (g0, l0)) prices N period result).1 = 0 ∧
    (∀ i : Int, 0 ≤ i → i < period →
      (calculateRSI (some (g0, l0)) prices N period result).2 i = nan) ∧
    (∀ i : Int, period ≤ i → i < N →
      ∃ q : ℚ, (calculateRSI (some (g0, l0)) prices N period result).2 i = fin q) := by
  rw [calculateRSI_fin g0 l0 prices p N period result hN hfin h1 h2]
  refine ⟨rfl, ?_, ?_⟩
  · intro i hi1 hi2
    simp only []
    rw [if_neg (by omega), if_pos ⟨hi1, hi2⟩]
  · intro i hi1 hi2
    simp only []
    rw [if_pos ⟨hi1, hi2⟩]
    exact ⟨_, rfl⟩

/-- C6, witness of the amended claim: `prices = [1,2,3]`, `period = 1`. -/
theorem calculateRSI_undefined_region_witness :
    (calculateRSI (some (junk, junk)) (Buf.ofList [1, 2, 3]) 3 1 junk).1 = 0 ∧
    (calculateRSI (some (junk, junk)) (Buf.ofList [1, 2, 3]) 3 1 junk).2 0 = nan ∧
    (∃ q : ℚ, (calculateRSI (some (junk, junk)) (Buf.ofList [1, 2, 3]) 3 1 junk).2 1 = fin q) ∧
    (∃ q : ℚ, (calculateRSI (some (junk, junk)) (Buf.ofList [1, 2, 3]) 3 1 junk).2 2 = fin q) := by
  have hfin : ∀ j : Int, 0 ≤ j → j < (3 : Nat) →
      Buf.ofList [1, 2, 3] j = fin (examplePrices j) := by
    intro j h0 h1
    have h1' : j < 3 := by exact_mod_cast h1
    interval_cases j <;> decide!
  have h := calculateRSI_undefined_region junk junk (Buf.ofList [1, 2, 3]) examplePrices 3 1
    junk (by decide) hfin (by decide) (by decide)
  exact ⟨h.1, h.2.1 0 (by decide) (by decide), h.2.2 1 (by decide) (by decide),
    h.2.2 2 (by decide) (by decide)⟩

/-- Status of `calculateRSI` when the temporaries are allocated. -/
theorem calculateRSI_status (g0 l0 prices : Buf) (N : Nat) (period : Int) (result : Buf) :
    (calculateRSI (some (g0, l0)) prices N period result).1
      = if period ≤ 0 ∨ period ≥ castInt N then -1 else 0 := by
  unfold calculateRSI
  by_cases hv : period ≤ 0 ∨ period ≥ castInt N
  · rw [if_pos hv, if_pos hv]
  · rw [if_neg hv, if_neg hv]
    have hv2 : ¬ (period ≥ castInt N) := fun h => hv (Or.inr h)
    rw [if_neg hv2]

/-- Status of the three moving averages. -/
theorem movingAverage_status (prices : Buf) (N : Nat) (period : Int) (result : Buf) :
    (calculateSMA prices N period result).1
      = (if period ≤ 0 ∨ period > castInt N then -1 else 0) ∧
    (calculateEMA prices N period result).1
      = (if period ≤ 0 ∨ period > castInt N then -1 else 0) ∧
    (calculateWMA prices N period result).1
      = (if period ≤ 0 ∨ period > castInt N then -1 else 0) := by
  unfold calculateSMA calculateEMA calculateWMA
  by_cases hv : period ≤ 0 ∨ period > castInt N
  · simp only [if_pos hv, and_self]
  · simp only [if_neg hv, and_self]

/-- C8. With the buffers present, the temporaries allocated and a length representable
as `int`, `calculateRSI` fails iff `period ≤ 0` or `period ≥ length` (and otherwise
returns success); in particular it fails for `period = length ≥ 1`, where `calculateSMA`,
`calculateEMA` and `calculateWMA` all succeed. -/
theorem calculateRSI_validation (g0 l0 prices : Buf) (N : Nat) (period : Int)
    (result r1 r2 r3 : Buf) (hN : N < 2 ^ 31) :
    ((calculateRSI (some (g0, l0)) prices N period result).1 = -1
      ↔ (period ≤ 0 ∨ period ≥ (N : Int))) ∧
    (¬ (period ≤ 0 ∨ period ≥ (N : Int)) →
      (calculateRSI (some (g0, l0)) prices N period result).1 = 0) ∧
    (1 ≤ N →
      (calculateRSI (some (g0, l0)) prices N (N : Int) result).1 = -1 ∧
      (calculateSMA prices N (N : Int) r1).1 = 0 ∧
      (calculateEMA prices N (N : Int) r2).1 = 0 ∧
      (calculateWMA prices N (N : Int) r3).1 = 0) := by
  have hc : castInt N = (N : Int) := castInt_of_lt N hN
  refine ⟨?_, ?_, ?_⟩
  · rw [calculateRSI_status, hc]
    by_cases hv : period ≤ 0 ∨ period ≥ (N : Int)
    · simp [hv]
    · simp [hv]
  · intro hv
    rw [calculateRSI_status, hc, if_neg hv]
  · intro hpos
    have hn : ¬ ((N : Int) ≤ 0 ∨ (N : Int) > (N : Int)) := by omega
    refine ⟨?_, ?_, ?_, ?_⟩
    · rw [calculateRSI_status, hc, if_pos (Or.inr (le_refl _))]
    · rw [(movingAverage_status prices N (N : Int) r1).1, hc, if_neg hn]
    · rw [(movingAverage_status prices N (N : Int) r2).2.1, hc, if_neg hn]
    · rw [(movingAverage_status prices N (N : Int) r3).2.2, hc, if_neg hn]

/-- C8, witness: length 5, `period = 5` — RSI fails, SMA, EMA and WMA succeed; and
`period = 4` succeeds for RSI. -/
theorem calculateRSI_validation_witness :
    (calculateRSI (some (junk, junk)) (Buf.ofList [1, 2, 3, 4, 5]) 5 5 junk).1 = -1 ∧
    (calculateSMA (Buf.ofList [1, 2, 3, 4, 5]) 5 5 junk).1 = 0 ∧
    (calculateEMA (Buf.ofList [1, 2, 3, 4, 5]) 5 5 junk).1 = 0 ∧
    (calculateWMA (Buf.ofList [1, 2, 3, 4, 5]) 5 5 junk).1 = 0 ∧
    (calculateRSI (some (junk, junk)) (Buf.ofList [1, 2, 3, 4, 5]) 5 4 junk).1 = 0 :=
  have h5 := calculateRSI_validation junk junk (Buf.ofList [1, 2, 3, 4, 5]) 5 5
    junk junk junk junk (by decide)
  have h4 := calculateRSI_validation junk junk (Buf.ofList [1, 2, 3, 4, 5]) 5 4
    junk junk junk junk (by decide)
  ⟨(h5.2.2 (by decide)).1, (h5.2.2 (by decide)).2.1, (h5.2.2 (by decide)).2.2.1,
    (h5.2.2 (by decide)).2.2.2, h4.2.1 (by decide)⟩

theorem avgSpec_eq_zero (x : Int → ℚ) (period : Int) (h1 : 1 ≤ period) (n : Nat)
    (hx : ∀ i : Int, 1 ≤ i → i ≤ period + n → x i = 0) : avgSpec x period n = 0 := by
  induction n with
  | zero =>
    unfold avgSpec
    rw [Finset.sum_eq_zero, zero_div]
    intro k hk
    have := Finset.mem_range.mp hk
    exact hx _ (by omega) (by omega)
  | succ n ih =>
    unfold avgSpec
    rw [ih (fun i h1 h2 => hx i h1 (by push_cast; omega)), hx _ (by omega) (le_refl _)]
    simp

theorem avgSpec_pos (x : Int → ℚ) (period : Int) (h1 : 1 ≤ period) (n : Nat)
    (hx : ∀ i : Int, 1 ≤ i → i ≤ period + n → 0 < x i) : 0 < avgSpec x period n := by
  have hp : (1 : ℚ) ≤ period := by exact_mod_cast h1
  induction n with
  | zero =>
    unfold avgSpec
    refine div_pos (Finset.sum_pos (fun k hk => ?_) ?_) (by linarith)
    · have := Finset.mem_range.mp hk
      exact hx _ (by omega) (by omega)
    · exact ⟨0, Finset.mem_range.mpr (by omega)⟩
  | succ n ih =>
    unfold avgSpec
    have ih' := ih (fun i h1 h2 => hx i h1 (by push_cast; omega))
    have hlast := hx (period + ((n + 1 : Nat) : Int)) (by omega) (le_refl _)
    exact div_pos (add_pos_of_nonneg_of_pos (mul_nonneg (le_of_lt ih') (by linarith)) hlast)
      (by linarith)

/-- C9, counterexample: the constant series `[1,1,1]` is monotonically decreasing in the
claim's sense (`prices[i] ≤ prices[i-1]` for all `i`), the call with `period = 1`
succeeds, and the defined outputs `result[1]`, `result[2]` are `100`, not `0`. -/
theorem calculateRSI_boundary_counterexample :
    (∀ j : Int, 0 ≤ j → j < 3 → Buf.ofList [1, 1, 1] j = fin (flatPrices j)) ∧
    (∀ i : Int, 1 ≤ i → i < 3 → flatPrices i ≤ flatPrices (i - 1)) ∧
    (calculateRSI (some (junk, junk)) (Buf.ofList [1, 1, 1]) 3 1 junk).1 = 0 ∧
    (calculateRSI (some (junk, junk)) (Buf.ofList [1, 1, 1]) 3 1 junk).2 1 = fin 100 ∧
    (calculateRSI (some (junk, junk)) (Buf.ofList [1, 1, 1]) 3 1 junk).2 2 = fin 100 ∧
    (calculateRSI (some (junk, junk)) (Buf.ofList [1, 1, 1]) 3 1 junk).2 1 ≠ fin 0 := by
  refine ⟨?_, fun _ _ _ => le_refl _, by decide!, by decide!, by decide!, by decide!⟩
  intro j h0 h1
  interval_cases j <;> decide!

/-- C9, amended. On a finite price series with `0 < period < N`: if the series is
monotonically increasing (`prices[i] ≥ prices[i-1]`), `result[i] = 100` at every defined
index `period ≤ i < N`; if it is strictly decreasing (`prices[i] < prices[i-1]`),
`result[i] = 0` at every defined index. -/
theorem calculateRSI_boundary (g0 l0 prices : Buf) (p : Int → ℚ) (N : Nat) (period : Int)
    (result : Buf) (hN : N < 2 ^ 31)
    (hfin : ∀ j : Int, 0 ≤ j → j < N → prices j = fin (p j))
    (h1 : 0 < period) (h2 : period < N) :
    ((∀ i : Int, 1 ≤ i → i < N → p (i - 1) ≤ p i) →
      ∀ i : Int, period ≤ i → i < N →
        (calculateRSI (some (g0, l0)) prices N period result).2 i = fin 100) ∧
    ((∀ i : Int, 1 ≤ i → i < N → p i < p (i - 1)) →
      ∀ i : Int, period ≤ i → i < N →
        (calculateRSI (some (g0, l0)) prices N period result).2 i = fin 0) := by
  rw [calculateRSI_fin g0 l0 prices p N period result hN hfin h1 h2]
  constructor
  · intro hmono i hi1 hi2
    simp only []
    rw [if_pos ⟨hi1, hi2⟩]
    have hz : avgSpec (lossSpec p) period (i - period).toNat = 0 := by
      apply avgSpec_eq_zero _ _ h1
      intro j hj1 hj2
      unfold lossSpec
      exact max_eq_right (by linarith [hmono j hj1 (by omega)])
    rw [rsiSpec, if_pos hz]
  · intro hdec i hi1 hi2
    simp only []
    rw [if_pos ⟨hi1, hi2⟩]
    have hg : avgSpec (gainSpec p) period (i - period).toNat = 0 := by
      apply avgSpec_eq_zero _ _ h1
      intro j hj1 hj2
      unfold gainSpec
      exact max_eq_right (by linarith [hdec j hj1 (by omega)])
    have hl : 0 < avgSpec (lossSpec p) period (i - period).toNat := by
      apply avgSpec_pos _ _ h1
      intro j hj1 hj2
      unfold lossSpec
      exact lt_max_of_lt_left (by linarith [hdec j hj1 (by omega)])
    rw [rsiSpec, if_neg (ne_of_gt hl), hg]
    congr 1
    norm_num

/-- C9, witness of the amended claim: `[1,2,3]` gives `100` and `[3,2,1]` gives `0` at the
defined indices 1 and 2 (`period = 1`). -/
theorem calculateRSI_boundary_witness :
    (calculateRSI (some (junk, junk)) (Buf.ofList [1, 2, 3]) 3 1 junk).2 1 = fin 100 ∧
    (calculateRSI (some (junk, junk)) (Buf.ofList [1, 2, 3]) 3 1 junk).2 2 = fin 100 ∧
    (calculateRSI (some (junk, junk)) (Buf.ofList [3, 2, 1]) 3 1 junk).2 1 = fin 0 ∧
    (calculateRSI (some (junk, junk)) (Buf.ofList [3, 2, 1]) 3 1 junk).2 2 = fin 0 := by
  have hup : ∀ j : Int, 0 ≤ j → j < (3 : Nat) →
      Buf.ofList [1, 2, 3] j = fin ((fun i : Int => (i : ℚ) + 1) j) := by
    intro j h0 h1
    have h1' : j < 3 := by exact_mod_cast h1
    interval_cases j <;> decide!
  have hdown : ∀ j : Int, 0 ≤ j → j < (3 : Nat) →
      Buf.ofList [3, 2, 1] j = fin ((fun i : Int => 3 - (i : ℚ)) j) := by
    intro j h0 h1
    have h1' : j < 3 := by exact_mod_cast h1
    interval_cases j <;> decide!
  have hu := (calculateRSI_boundary junk junk (Buf.ofList [1, 2, 3]) _ 3 1 junk
    (by decide) hup (by decide) (by decide)).1
    (fun i _ _ => by show ((i - 1 : Int) : ℚ) + 1 ≤ (i : ℚ) + 1; push_cast; linarith)
  have hd := (calculateRSI_boundary junk junk (Buf.ofList [3, 2, 1]) _ 3 1 junk
    (by decide) hdown (by decide) (by decide)).2
    (fun i _ _ => by show 3 - (i : ℚ) < 3 - ((i - 1 : Int) : ℚ); push_cast; linarith)
  exact ⟨hu 1 (by decide) (by decide), hu 2 (by decide) (by decide),
    hd 1 (by decide) (by decide), hd 2 (by decide) (by decide)⟩

/-! ## MACD -/

/-- Exit state of the `while` loop of `calculateMACD`: with `ilen - s` iterations of fuel
the loop stops because its condition is false, at the first index in `[s, ilen)` whose
value is not `nan`, or at `ilen` if there is none. -/
theorem firstValidLoop_exit (macd : Buf) (ilen : Int) (fuel : Nat) (s : Int)
    (hs : s ≤ ilen) (hfuel : ilen - s ≤ fuel) :
    s ≤ firstValidLoop macd ilen fuel s ∧ firstValidLoop macd ilen fuel s ≤ ilen ∧
    (∀ j, s ≤ j → j < firstValidLoop macd ilen fuel s → (macd j).isnan = true) ∧
    (firstValidLoop macd ilen fuel s < ilen →
      (macd (firstValidLoop macd ilen fuel s)).isnan = false) := by
  induction fuel generalizing s with
  | zero =>
    have : s = ilen := by omega
    subst this
    simp only [firstValidLoop]
    exact ⟨le_refl _, le_refl _, fun j h1 h2 => by omega, fun h => by omega⟩
  | succ fuel ih =>
    unfold firstValidLoop
    by_cases hc : s < ilen ∧ (macd s).isnan = true
    · rw [if_pos hc]
      obtain ⟨a, b, c, d⟩ := ih (s + 1) (by omega) (by push_cast at hfuel; omega)
      refine ⟨by omega, b, ?_, d⟩
      intro j hj1 hj2
      by_cases hjs : j = s
      · rw [hjs]; exact hc.2
      · exact c j (by omega) hj2
    · rw [if_neg hc]
      refine ⟨le_refl _, hs, fun j h1 h2 => by omega, ?_⟩
      intro hlt
      cases h : (macd s).isnan
      · rfl
      · exact absurd ⟨hlt, h⟩ hc

/-- Closed form of the MACD line block. -/
theorem macdLine_eq (ilen slowPeriod : Int) (fastEMA slowEMA macd : Buf) (k : Int) :
    macdLine ilen slowPeriod fastEMA slowEMA macd k =
      if slowPeriod - 1 ≤ k ∧ k < ilen then (fastEMA k).sub (slowEMA k)
      else if 0 ≤ k ∧ k < min (slowPeriod - 1) ilen then nan else macd k := by
  unfold macdLine
  have hbody : (fun (i : Int) (m : Buf) =>
      if ((fastEMA i).isnan || (slowEMA i).isnan) = true then m.write i nan
      else m.write i ((fastEMA i).sub (slowEMA i)))
      = (fun (i : Int) (m : Buf) => m.write i ((fastEMA i).sub (slowEMA i))) := by
    funext i m
    split
    · rename_i h
      have : (fastEMA i).sub (slowEMA i) = nan := by
        cases hf : fastEMA i <;> cases hs : slowEMA i <;> simp_all [Dbl.sub, Dbl.isnan]
      rw [this]
    · rfl
  simp only [hbody]
  rw [forInt_fill (slowPeriod - 1) ilen (fun i => (fastEMA i).sub (slowEMA i)),
    forInt_fill 0 _ (fun _ => nan)]

/-- A call of `calculateMACD` that passes the front validation, with the temporaries
allocated: status and outputs in terms of the two blocks. -/
theorem calculateMACD_valid (f0 s0 prices : Buf) (N : Nat) (fastPeriod slowPeriod
    signalPeriod : Int) (macd signal histogram : Buf) (hN : N < 2 ^ 31)
    (hf : 0 < fastPeriod) (hfs : fastPeriod < slowPeriod) (hsl : slowPeriod ≤ N)
    (hsg : 0 < signalPeriod) (hsgN : signalPeriod ≤ N) :
    calculateMACD (some (f0, s0)) prices N fastPeriod slowPeriod signalPeriod macd signal
      histogram =
    if (macdSignal N slowPeriod signalPeriod
        (macdLine N slowPeriod (calculateEMA prices N fastPeriod f0).2
          (calculateEMA prices N slowPeriod s0).2 macd) signal).1 ≠ 0
    then (-1, macdLine N slowPeriod (calculateEMA prices N fastPeriod f0).2
          (calculateEMA prices N slowPeriod s0).2 macd,
        (macdSignal N slowPeriod signalPeriod
          (macdLine N slowPeriod (calculateEMA prices N fastPeriod f0).2
            (calculateEMA prices N slowPeriod s0).2 macd) signal).2, histogram)
    else (0, macdLine N slowPeriod (calculateEMA prices N fastPeriod f0).2
          (calculateEMA prices N slowPeriod s0).2 macd,
        (macdSignal N slowPeriod signalPeriod
          (macdLine N slowPeriod (calculateEMA prices N fastPeriod f0).2
            (calculateEMA prices N slowPeriod s0).2 macd) signal).2,
        histogramLoop N (macdLine N slowPeriod (calculateEMA prices N fastPeriod f0).2
          (calculateEMA prices N slowPeriod s0).2 macd)
          (macdSignal N slowPeriod signalPeriod
            (macdLine N slowPeriod (calculateEMA prices N fastPeriod f0).2
              (calculateEMA prices N slowPeriod s0).2 macd) signal).2 histogram) := by
  have hc : castInt N = (N : Int) := castInt_of_lt N hN
  have hv : ¬ (fastPeriod ≤ 0 ∨ slowPeriod ≤ fastPeriod ∨ signalPeriod ≤ 0 ∨
      slowPeriod > (N : Int) ∨ signalPeriod > (N : Int)) := by omega
  have hfast : (calculateEMA prices N fastPeriod f0).1 = 0 := by
    rw [(movingAverage_status prices N fastPeriod f0).2.1, hc, if_neg (by omega)]
  have hslow : (calculateEMA prices N slowPeriod s0).1 = 0 := by
    rw [(movingAverage_status prices N slowPeriod s0).2.1, hc, if_neg (by omega)]
  unfold calculateMACD
  rw [hc, if_neg hv]
  simp only [hfast, hslow, ne_eq, not_true_eq_false, or_self, if_false]

/-- A call of `calculateMACD` that fails the front validation returns `-1` and leaves
the three output buffers as they were. -/
theorem calculateMACD_invalid (tmp : Option (Buf × Buf)) (prices : Buf) (N : Nat)
    (fastPeriod slowPeriod signalPeriod : Int) (macd signal histogram : Buf)
    (h : fastPeriod ≤ 0 ∨ slowPeriod ≤ fastPeriod ∨ signalPeriod ≤ 0 ∨
      slowPeriod > castInt N ∨ signalPeriod > castInt N) :
    calculateMACD tmp prices N fastPeriod slowPeriod signalPeriod macd signal histogram
      = (-1, macd, signal, histogram) := by
  unfold calculateMACD
  rw [if_pos h]

/-- A successful call of `calculateMACD` has passed the front validation. -/
theorem calculateMACD_success_valid (tmp : Option (Buf × Buf)) (prices : Buf) (N : Nat)
    (fastPeriod slowPeriod signalPeriod : Int) (macd signal histogram : Buf)
    (hN : N < 2 ^ 31)
    (hs : (calculateMACD tmp prices N fastPeriod slowPeriod signalPeriod macd signal
      histogram).1 = 0) :
    0 < fastPeriod ∧ fastPeriod < slowPeriod ∧ slowPeriod ≤ N ∧ 0 < signalPeriod ∧
      signalPeriod ≤ N := by
  have hc : castInt N = (N : Int) := castInt_of_lt N hN
  by_contra hcon
  have h : fastPeriod ≤ 0 ∨ slowPeriod ≤ fastPeriod ∨ signalPeriod ≤ 0 ∨
      slowPeriod > castInt N ∨ signalPeriod > castInt N := by rw [hc]; omega
  rw [calculateMACD_invalid tmp prices N fastPeriod slowPeriod signalPeriod macd signal
    histogram h] at hs
  have hs' : (-1 : Int) = 0 := hs
  exact absurd hs' (by decide)

/-- Inside `[0, N)` the output of a successful `calculateEMA` does not depend on the
initial contents of the result buffer. -/
theorem calculateEMA_indep (prices : Buf) (N : Nat) (period : Int) (r r' : Buf)
    (hN : N < 2 ^ 31) (h1 : 1 ≤ period) (h2 : period ≤ N) (k : Int) (hk0 : 0 ≤ k)
    (hk : k < N) :
    (calculateEMA prices N period r).2 k = (calculateEMA prices N period r').2 k := by
  obtain ⟨_, hnan, hseed, hrec, _⟩ := calculateEMA_run prices N period r hN h1 h2
  obtain ⟨_, hnan', hseed', hrec', _⟩ := calculateEMA_run prices N period r' hN h1 h2
  by_cases hlt : k < period - 1
  · rw [hnan k hk0 hlt, hnan' k hk0 hlt]
  · obtain ⟨n, rfl⟩ : ∃ n : Nat, k = period - 1 + n := ⟨(k - (period - 1)).toNat, by omega⟩
    clear hlt hk0
    induction n with
    | zero =>
      rw [show period - 1 + ((0 : Nat) : Int) = period - 1 by simp, hseed, hseed']
    | succ n ih =>
      rw [hrec _ (by omega) hk, hrec' _ (by omega) hk,
        show period - 1 + ((n + 1 : Nat) : Int) - 1 = period - 1 + (n : Int) by omega,
        ih (by omega)]

/-- The `macd` output of a call that passes the front validation is the MACD line block
applied to the two EMAs. -/
theorem calculateMACD_macd (f0 s0 prices : Buf) (N : Nat) (fastPeriod slowPeriod
    signalPeriod : Int) (macd signal histogram : Buf) (hN : N < 2 ^ 31)
    (hf : 0 < fastPeriod) (hfs : fastPeriod < slowPeriod) (hsl : slowPeriod ≤ N)
    (hsg : 0 < signalPeriod) (hsgN : signalPeriod ≤ N) :
    (calculateMACD (some (f0, s0)) prices N fastPeriod slowPeriod signalPeriod macd signal
      histogram).2.1 =
    macdLine N slowPeriod (calculateEMA prices N fastPeriod f0).2
      (calculateEMA prices N slowPeriod s0).2 macd := by
  rw [calculateMACD_valid f0 s0 prices N fastPeriod slowPeriod signalPeriod macd signal
    histogram hN hf hfs hsl hsg hsgN]
  split <;> rfl

/-- On finite prices the MACD line is finite from `slowPeriod - 1` on. -/
theorem macdLine_finite (f0 s0 prices : Buf) (p : Int → ℚ) (N : Nat)
    (fastPeriod slowPeriod : Int) (macd : Buf) (hN : N < 2 ^ 31)
    (hfin : ∀ j : Int, 0 ≤ j → j < N → prices j = fin (p j))
    (hf : 0 < fastPeriod) (hfs : fastPeriod < slowPeriod) (hsl : slowPeriod ≤ N)
    (i : Int) (hi1 : slowPeriod - 1 ≤ i) (hi2 : i < N) :
    ∃ q : ℚ, macdLine N slowPeriod (calculateEMA prices N fastPeriod f0).2
      (calculateEMA prices N slowPeriod s0).2 macd i = fin q := by
  obtain ⟨a, ha⟩ := calculateEMA_finite prices p N fastPeriod f0 hN hfin (by omega) (by omega)
    i (by omega) hi2
  obtain ⟨b, hb⟩ := calculateEMA_finite prices p N slowPeriod s0 hN hfin (by omega) hsl
    i hi1 hi2
  rw [macdLine_eq, if_pos ⟨hi1, hi2⟩, ha, hb]
  exact ⟨a - b, rfl⟩

/-- C10. For every successful call of `calculateMACD` on finite prices (length
representable as `int`), `macd[i]` is `nan` for `i < slowPeriod - 1`, and for
`slowPeriod - 1 ≤ i < length` it is a finite number equal to
`EMA(prices, fastPeriod)[i] - EMA(prices, slowPeriod)[i]`, where EMA is `calculateEMA`
on the full price series (with any result buffers `r1`, `r2`). -/
theorem calculateMACD_line (f0 s0 prices : Buf) (p : Int → ℚ) (N : Nat)
    (fastPeriod slowPeriod signalPeriod : Int) (macd signal histogram r1 r2 : Buf)
    (hN : N < 2 ^ 31) (hfin : ∀ j : Int, 0 ≤ j → j < N → prices j = fin (p j))
    (hs : (calculateMACD (some (f0, s0)) prices N fastPeriod slowPeriod signalPeriod macd
      signal histogram).1 = 0) :
    (∀ i : Int, 0 ≤ i → i < slowPeriod - 1 →
      (calculateMACD (some (f0, s0)) prices N fastPeriod slowPeriod signalPeriod macd
        signal histogram).2.1 i = nan) ∧
    (∀ i : Int, slowPeriod - 1 ≤ i → i < N →
      (∃ q : ℚ, (calculateMACD (some (f0, s0)) prices N fastPeriod slowPeriod signalPeriod
        macd signal histogram).2.1 i = fin q) ∧
      (calculateMACD (some (f0, s0)) prices N fastPeriod slowPeriod signalPeriod macd
        signal histogram).2.1 i
        = ((calculateEMA prices N fastPeriod r1).2 i).sub
            ((calculateEMA prices N slowPeriod r2).2 i)) := by
  obtain ⟨hf, hfs, hsl, hsg, hsgN⟩ := calculateMACD_success_valid _ prices N fastPeriod
    slowPeriod signalPeriod macd signal histogram hN hs
  rw [calculateMACD_macd f0 s0 prices N fastPeriod slowPeriod signalPeriod macd signal
    histogram hN hf hfs hsl hsg hsgN]
  constructor
  · intro i hi1 hi2
    rw [macdLine_eq, if_neg (by omega), if_pos ⟨hi1, by simp only [lt_min_iff]; omega⟩]
  · intro i hi1 hi2
    refine ⟨macdLine_finite f0 s0 prices p N fastPeriod slowPeriod macd hN hfin hf hfs hsl
      i hi1 hi2, ?_⟩
    rw [macdLine_eq, if_pos ⟨hi1, hi2⟩,
      calculateEMA_indep prices N fastPeriod f0 r1 hN (by omega) (by omega) i (by omega) hi2,
      calculateEMA_indep prices N slowPeriod s0 r2 hN (by omega) hsl i (by omega) hi2]

/-- C10, witness: `prices = [1,2,3,4,5]`, `fastPeriod = 1`, `slowPeriod = 3`,
`signalPeriod = 2`: `macd = [nan, nan, 1, 1, 1]`, the fast EMA (the price itself)
minus the slow EMA `[nan, nan, 2, 3, 4]`. -/
theorem calculateMACD_line_witness :
    (calculateMACD (some (junk, junk)) (Buf.ofList [1, 2, 3, 4, 5]) 5 1 3 2 junk junk
      junk).1 = 0 ∧
    (calculateMACD (some (junk, junk)) (Buf.ofList [1, 2, 3, 4, 5]) 5 1 3 2 junk junk
      junk).2.1 1 = nan ∧
    (calculateMACD (some (junk, junk)) (Buf.ofList [1, 2, 3, 4, 5]) 5 1 3 2 junk junk
      junk).2.1 2
      = ((calculateEMA (Buf.ofList [1, 2, 3, 4, 5]) 5 1 junk).2 2).sub
          ((calculateEMA (Buf.ofList [1, 2, 3, 4, 5]) 5 3 junk).2 2) ∧
    (calculateMACD (some (junk, junk)) (Buf.ofList [1, 2, 3, 4, 5]) 5 1 3 2 junk junk
      junk).2.1 2 = fin 1 ∧
    (calculateMACD (some (junk, junk)) (Buf.ofList [1, 2, 3, 4, 5]) 5 1 3 2 junk junk
      junk).2.1 4 = fin 1 := by
  have h := calculateMACD_line junk junk (Buf.ofList [1, 2, 3, 4, 5]) examplePrices 5 1 3 2
    junk junk junk junk junk (by decide) ofList_examplePrices (by decide!)
  exact ⟨by decide!, h.1 1 (by decide) (by decide), (h.2 2 (by decide) (by decide)).2,
    by decide!, by decide!⟩

/-- When `macd[slowPeriod-1]` is not `nan` the `while` loop stops at once. -/
theorem firstValidLoop_first (macd : Buf) (ilen : Int) (fuel : Nat) (s : Int)
    (h : (macd s).isnan = false) : firstValidLoop macd ilen fuel s = s := by
  cases fuel with
  | zero => rfl
  | succ fuel =>
    unfold firstValidLoop
    rw [if_neg (by simp [h])]

/-- The signal block when `macd[slowPeriod-1]` is not `nan`: the EMA of the sub-series
starting there, and the two `nan` fills when it succeeds. -/
theorem macdSignal_of_first (N : Nat) (slowPeriod signalPeriod : Int) (macd signal : Buf)
    (hN : N < 2 ^ 31) (hsl : slowPeriod ≤ N)
    (hM : (macd (slowPeriod - 1)).isnan = false) :
    macdSignal N slowPeriod signalPeriod macd signal =
      if (calculateEMA (macd.shift (slowPeriod - 1)) (N - (slowPeriod - 1).toNat) signalPeriod
          (signal.shift (slowPeriod - 1))).1 ≠ 0
      then (-1, signal.unshift (slowPeriod - 1)
        (calculateEMA (macd.shift (slowPeriod - 1)) (N - (slowPeriod - 1).toNat) signalPeriod
          (signal.shift (slowPeriod - 1))).2)
      else (0, forInt (slowPeriod - 1)
        (min (wrapInt (wrapInt (slowPeriod - 1 + signalPeriod) - 1)) (N : Int))
        (fun i s => s.write i nan)
        (forInt 0 (slowPeriod - 1) (fun i s => s.write i nan)
          (signal.unshift (slowPeriod - 1)
            (calculateEMA (macd.shift (slowPeriod - 1)) (N - (slowPeriod - 1).toNat)
              signalPeriod (signal.shift (slowPeriod - 1))).2))) := by
  have hc : castInt N = (N : Int) := castInt_of_lt N hN
  unfold macdSignal
  simp only [hc, firstValidLoop_first macd _ _ _ hM]
  rw [if_pos (by omega)]

/-- The length of the MACD sub-series, cast to `int`. -/
theorem castInt_subLength (N : Nat) (slowPeriod : Int) (hN : N < 2 ^ 31)
    (h1 : 1 ≤ slowPeriod) (hsl : slowPeriod ≤ N) :
    castInt (N - (slowPeriod - 1).toNat) = (N : Int) - (slowPeriod - 1) := by
  rw [castInt_of_lt _ (by omega)]
  omega

/-- The signal block fails when the signal period exceeds the length of the MACD
sub-series. -/
theorem macdSignal_failure (N : Nat) (slowPeriod signalPeriod : Int) (macd signal : Buf)
    (hN : N < 2 ^ 31) (h1 : 1 ≤ slowPeriod) (hsl : slowPeriod ≤ N)
    (hM : (macd (slowPeriod - 1)).isnan = false)
    (hsg : signalPeriod > (N : Int) - (slowPeriod - 1)) :
    (macdSignal N slowPeriod signalPeriod macd signal).1 = -1 := by
  rw [macdSignal_of_first N slowPeriod signalPeriod macd signal hN hsl hM,
    (movingAverage_status _ _ _ _).2.1, castInt_subLength N slowPeriod hN h1 hsl,
    if_pos (Or.inr hsg)]
  rfl

/-- The signal block when the signal EMA succeeds: closed form of `signal`. -/
theorem macdSignal_success (N : Nat) (slowPeriod signalPeriod : Int) (macd signal : Buf)
    (hN : N < 2 ^ 31) (h1 : 1 ≤ slowPeriod) (hsl : slowPeriod ≤ N)
    (hM : (macd (slowPeriod - 1)).isnan = false)
    (hsg1 : 1 ≤ signalPeriod) (hsg2 : signalPeriod ≤ (N : Int) - (slowPeriod - 1)) :
    macdSignal N slowPeriod signalPeriod macd signal = (0, fun k =>
      if 0 ≤ k ∧ k < (slowPeriod - 1) + (signalPeriod - 1) then nan
      else if k < slowPeriod - 1 then signal k
      else (calculateEMA (macd.shift (slowPeriod - 1)) (N - (slowPeriod - 1).toNat)
        signalPeriod (signal.shift (slowPeriod - 1))).2 (k - (slowPeriod - 1))) := by
  have hst : (calculateEMA (macd.shift (slowPeriod - 1)) (N - (slowPeriod - 1).toNat)
      signalPeriod (signal.shift (slowPeriod - 1))).1 = 0 := by
    rw [(movingAverage_status _ _ _ _).2.1, castInt_subLength N slowPeriod hN h1 hsl,
      if_neg (by omega)]
  rw [macdSignal_of_first N slowPeriod signalPeriod macd signal hN hsl hM,
    if_neg (by rw [hst]; simp)]
  refine congrArg _ ?_
  funext k
  have hw1 : wrapInt (slowPeriod - 1 + signalPeriod) = slowPeriod - 1 + signalPeriod :=
    wrapInt_of_range _ (by omega) (by omega)
  have hw2 : wrapInt (slowPeriod - 1 + signalPeriod - 1) = slowPeriod - 1 + signalPeriod - 1 :=
    wrapInt_of_range _ (by omega) (by omega)
  rw [hw1, hw2, min_eq_left (by omega), forInt_fill _ _ (fun _ => nan),
    forInt_fill _ _ (fun _ => nan)]
  unfold Buf.unshift
  by_cases ha : slowPeriod - 1 ≤ k ∧ k < slowPeriod - 1 + signalPeriod - 1
  · rw [if_pos ha, if_pos ⟨by omega, by omega⟩]
  · rw [if_neg ha]
    by_cases hb : 0 ≤ k ∧ k < slowPeriod - 1
    · rw [if_pos hb, if_pos ⟨by omega, by omega⟩]
    · rw [if_neg hb, if_neg (show ¬ (0 ≤ k ∧ k < slowPeriod - 1 + (signalPeriod - 1)) by omega)]

theorem Dbl.eq_fin_val (d : Dbl) (h : ∃ q : ℚ, d = fin q) : d = fin (Dbl.val d) := by
  obtain ⟨q, rfl⟩ := h
  rfl

theorem Dbl.isnan_of_fin (d : Dbl) (h : ∃ q : ℚ, d = fin q) : d.isnan = false := by
  obtain ⟨q, rfl⟩ := h
  rfl

/-- First component of a two-way result whose branches carry the statuses `-1` and `0`. -/
theorem ite_status (c : Prop) [Decidable c] (M S H S' H' : Buf) :
    (if c then ((-1 : Int), M, S, H) else (0, M, S', H')).1 = if c then -1 else 0 := by
  split <;> rfl

/-- The `signal` component of a two-way result whose branches agree on it. -/
theorem ite_signal (c : Prop) [Decidable c] (a b : Int) (M S H H' : Buf) :
    (if c then (a, M, S, H) else (b, M, S, H')).2.2.1 = S := by
  split <;> rfl

/-- The `signal` output of a call that passes the front validation. -/
theorem calculateMACD_signal (f0 s0 prices : Buf) (N : Nat) (fastPeriod slowPeriod
    signalPeriod : Int) (macd signal histogram : Buf) (hN : N < 2 ^ 31)
    (hf : 0 < fastPeriod) (hfs : fastPeriod < slowPeriod) (hsl : slowPeriod ≤ N)
    (hsg : 0 < signalPeriod) (hsgN : signalPeriod ≤ N) :
    (calculateMACD (some (f0, s0)) prices N fastPeriod slowPeriod signalPeriod macd signal
      histogram).2.2.1 =
      (macdSignal N slowPeriod signalPeriod
        (macdLine N slowPeriod (calculateEMA prices N fastPeriod f0).2
          (calculateEMA prices N slowPeriod s0).2 macd) signal).2 := by
  rw [calculateMACD_valid f0 s0 prices N fastPeriod slowPeriod signalPeriod macd signal
    histogram hN hf hfs hsl hsg hsgN]
  exact ite_signal _ _ _ _ _ _ _

/-- The status of a call that passes the front validation. -/
theorem calculateMACD_status (f0 s0 prices : Buf) (N : Nat) (fastPeriod slowPeriod
    signalPeriod : Int) (macd signal histogram : Buf) (hN : N < 2 ^ 31)
    (hf : 0 < fastPeriod) (hfs : fastPeriod < slowPeriod) (hsl : slowPeriod ≤ N)
    (hsg : 0 < signalPeriod) (hsgN : signalPeriod ≤ N) :
    (calculateMACD (some (f0, s0)) prices N fastPeriod slowPeriod signalPeriod macd signal
      histogram).1 =
      (if (macdSignal N slowPeriod signalPeriod
        (macdLine N slowPeriod (calculateEMA prices N fastPeriod f0).2
          (calculateEMA prices N slowPeriod s0).2 macd) signal).1 ≠ 0 then -1 else 0) := by
  rw [calculateMACD_valid f0 s0 prices N fastPeriod slowPeriod signalPeriod macd signal
    histogram hN hf hfs hsl hsg hsgN]
  exact ite_status _ _ _ _ _ _

/-- C3. For every successful call of `calculateMACD` on finite prices (length
representable as `int`), the first defined signal index `(slowPeriod-1)+(signalPeriod-1)`
lies inside the series, `signal[i]` is `nan` below it, and from it on `signal[i]` is a
finite number equal to the value at position `i-(slowPeriod-1)` of `calculateEMA` with
period `signalPeriod` over the sub-series `macd[slowPeriod-1 .. N-1]` (with any result
buffer `r`). -/
theorem calculateMACD_signal_reindex (f0 s0 prices : Buf) (p : Int → ℚ) (N : Nat)
    (fastPeriod slowPeriod signalPeriod : Int) (macd signal histogram r : Buf)
    (hN : N < 2 ^ 31) (hfin : ∀ j : Int, 0 ≤ j → j < N → prices j = fin (p j))
    (hs : (calculateMACD (some (f0, s0)) prices N fastPeriod slowPeriod signalPeriod macd
      signal histogram).1 = 0) :
    (slowPeriod - 1) + (signalPeriod - 1) < N ∧
    (∀ i : Int, 0 ≤ i → i < (slowPeriod - 1) + (signalPeriod - 1) →
      (calculateMACD (some (f0, s0)) prices N fastPeriod slowPeriod signalPeriod macd
        signal histogram).2.2.1 i = nan) ∧
    (∀ i : Int, (slowPeriod - 1) + (signalPeriod - 1) ≤ i → i < N →
      (∃ q : ℚ, (calculateMACD (some (f0, s0)) prices N fastPeriod slowPeriod signalPeriod
        macd signal histogram).2.2.1 i = fin q) ∧
      (calculateMACD (some (f0, s0)) prices N fastPeriod slowPeriod signalPeriod macd
        signal histogram).2.2.1 i
        = (calculateEMA
            ((calculateMACD (some (f0, s0)) prices N fastPeriod slowPeriod signalPeriod macd
              signal histogram).2.1.shift (slowPeriod - 1))
            (N - (slowPeriod - 1).toNat) signalPeriod r).2 (i - (slowPeriod - 1))) := by
  obtain ⟨hf, hfs, hsl, hsg, hsgN⟩ := calculateMACD_success_valid _ prices N fastPeriod
    slowPeriod signalPeriod macd signal histogram hN hs
  have hst := calculateMACD_status f0 s0 prices N fastPeriod slowPeriod
    signalPeriod macd signal histogram hN hf hfs hsl hsg hsgN
  have hsig := calculateMACD_signal f0 s0 prices N fastPeriod slowPeriod
    signalPeriod macd signal histogram hN hf hfs hsl hsg hsgN
  rw [hst] at hs
  rw [hsig, calculateMACD_macd f0 s0 prices N fastPeriod slowPeriod signalPeriod macd signal
    histogram hN hf hfs hsl hsg hsgN]
  generalize hMdef : macdLine N slowPeriod (calculateEMA prices N fastPeriod f0).2
    (calculateEMA prices N slowPeriod s0).2 macd = M at hs ⊢
  have hMfin : ∀ i : Int, slowPeriod - 1 ≤ i → i < N → ∃ q : ℚ, M i = fin q := by
    intro i hi1 hi2
    rw [← hMdef]
    exact macdLine_finite f0 s0 prices p N fastPeriod slowPeriod macd hN hfin hf hfs hsl
      i hi1 hi2
  have hM0 : (M (slowPeriod - 1)).isnan = false :=
    Dbl.isnan_of_fin _ (hMfin _ (le_refl _) (by omega))
  have hle : signalPeriod ≤ (N : Int) - (slowPeriod - 1) := by
    by_contra hcon
    rw [macdSignal_failure N slowPeriod signalPeriod M signal hN (by omega) hsl hM0
      (by omega)] at hs
    revert hs
    decide
  rw [macdSignal_success N slowPeriod signalPeriod M signal hN (by omega) hsl hM0
    (by omega) hle]
  have hsub : ∀ j : Int, 0 ≤ j → j < ((N - (slowPeriod - 1).toNat : Nat) : Int) →
      M.shift (slowPeriod - 1) j = fin ((fun j => Dbl.val (M (slowPeriod - 1 + j))) j) := by
    intro j hj1 hj2
    exact Dbl.eq_fin_val _ (hMfin _ (by omega) (by omega))
  refine ⟨by omega, ?_, ?_⟩
  · intro i hi1 hi2
    simp only []
    rw [if_pos ⟨hi1, hi2⟩]
  · intro i hi1 hi2
    simp only []
    rw [if_neg (by omega), if_neg (by omega)]
    refine ⟨?_, ?_⟩
    · exact calculateEMA_finite _ _ _ signalPeriod _ (by omega) hsub (by omega) (by omega)
        (i - (slowPeriod - 1)) (by omega) (by omega)
    · exact calculateEMA_indep _ _ signalPeriod _ r (by omega) (by omega) (by omega)
        (i - (slowPeriod - 1)) (by omega) (by omega)

/-- C3, witness: length 40, `fastPeriod = 12`, `slowPeriod = 26`, `signalPeriod = 9`:
the call succeeds, `signal[32]` is `nan` and `signal[33]` is the first defined value. -/
theorem calculateMACD_signal_reindex_witness :
    (calculateMACD (some (junk, junk)) (fun j => fin (squarePrices j)) 40 12 26 9 junk junk
      junk).1 = 0 ∧
    ((26 : Int) - 1) + (9 - 1) = 33 ∧
    (calculateMACD (some (junk, junk)) (fun j => fin (squarePrices j)) 40 12 26 9 junk junk
      junk).2.2.1 0 = nan ∧
    (calculateMACD (some (junk, junk)) (fun j => fin (squarePrices j)) 40 12 26 9 junk junk
      junk).2.2.1 32 = nan ∧
    (∃ q : ℚ, (calculateMACD (some (junk, junk)) (fun j => fin (squarePrices j)) 40 12 26 9
      junk junk junk).2.2.1 33 = fin q) ∧
    (∃ q : ℚ, (calculateMACD (some (junk, junk)) (fun j => fin (squarePrices j)) 40 12 26 9
      junk junk junk).2.2.1 39 = fin q) := by
  have hs : (calculateMACD (some (junk, junk)) (fun j => fin (squarePrices j)) 40 12 26 9
      junk junk junk).1 = 0 := by decide!
  have h := calculateMACD_signal_reindex junk junk (fun j => fin (squarePrices j))
    squarePrices 40 12 26 9 junk junk junk junk (by decide) (fun _ _ _ => rfl) hs
  exact ⟨hs, by decide, h.2.1 0 (by decide) (by decide), h.2.1 32 (by decide) (by decide),
    (h.2.2 33 (by decide) (by decide)).1, (h.2.2 39 (by decide) (by decide)).1⟩

/-- C4, counterexample: `prices = [1,2,3]`, `fastPeriod = 1`, `slowPeriod = 2`,
`signalPeriod = 3` passes all five listed conditions (`0 < 1 < 2 ≤ 3`, `0 < 3 ≤ 3`), yet
the call returns `-1` (the signal EMA over the two-element MACD sub-series fails), and it
does so after `macd[1]` has been overwritten with `1/2`. -/
theorem calculateMACD_failure_counterexample :
    ¬ ((1 : Int) ≤ 0 ∨ (3 : Int) ≤ 0 ∨ (1 : Int) ≥ 2 ∨ (2 : Int) > ((3 : Nat) : Int) ∨
      (3 : Int) > ((3 : Nat) : Int)) ∧
    (calculateMACD (some (junk, junk)) (Buf.ofList [1, 2, 3]) 3 1 2 3 junk junk junk).1 = -1 ∧
    junk 1 = fin 7 ∧
    (calculateMACD (some (junk, junk)) (Buf.ofList [1, 2, 3]) 3 1 2 3 junk junk junk).2.1 1
      = fin (1 / 2) := by
  refine ⟨by decide, by decide!, rfl, by decide!⟩

/-- C4, amended. With the buffers present, the temporaries allocated, a length
representable as `int` and finite prices, `calculateMACD` returns failure iff
`fastPeriod ≤ 0`, or `signalPeriod ≤ 0`, or `fastPeriod ≥ slowPeriod`, or
`slowPeriod > length`, or `signalPeriod > length`, or
`signalPeriod > length - (slowPeriod - 1)`; every other call returns success; and a
failure by one of the first five conditions leaves all three outputs untouched. -/
theorem calculateMACD_failure (f0 s0 prices : Buf) (p : Int → ℚ) (N : Nat)
    (fastPeriod slowPeriod signalPeriod : Int) (macd signal histogram : Buf)
    (hN : N < 2 ^ 31) (hfin : ∀ j : Int, 0 ≤ j → j < N → prices j = fin (p j)) :
    ((calculateMACD (some (f0, s0)) prices N fastPeriod slowPeriod signalPeriod macd signal
        histogram).1 = -1 ↔
      (fastPeriod ≤ 0 ∨ signalPeriod ≤ 0 ∨ fastPeriod ≥ slowPeriod ∨ slowPeriod > (N : Int) ∨
        signalPeriod > (N : Int) ∨ signalPeriod > (N : Int) - (slowPeriod - 1))) ∧
    (¬ (fastPeriod ≤ 0 ∨ signalPeriod ≤ 0 ∨ fastPeriod ≥ slowPeriod ∨ slowPeriod > (N : Int) ∨
        signalPeriod > (N : Int) ∨ signalPeriod > (N : Int) - (slowPeriod - 1)) →
      (calculateMACD (some (f0, s0)) prices N fastPeriod slowPeriod signalPeriod macd signal
        histogram).1 = 0) ∧
    ((fastPeriod ≤ 0 ∨ signalPeriod ≤ 0 ∨ fastPeriod ≥ slowPeriod ∨ slowPeriod > (N : Int) ∨
        signalPeriod > (N : Int)) →
      calculateMACD (some (f0, s0)) prices N fastPeriod slowPeriod signalPeriod macd signal
        histogram = (-1, macd, signal, histogram)) := by
  have hc : castInt N = (N : Int) := castInt_of_lt N hN
  have hfront : (fastPeriod ≤ 0 ∨ signalPeriod ≤ 0 ∨ fastPeriod ≥ slowPeriod ∨
      slowPeriod > (N : Int) ∨ signalPeriod > (N : Int)) →
      calculateMACD (some (f0, s0)) prices N fastPeriod slowPeriod signalPeriod macd signal
        histogram = (-1, macd, signal, histogram) := by
    intro h
    exact calculateMACD_invalid _ prices N fastPeriod slowPeriod signalPeriod macd signal
      histogram (by rw [hc]; omega)
  have hlate : ¬ (fastPeriod ≤ 0 ∨ signalPeriod ≤ 0 ∨ fastPeriod ≥ slowPeriod ∨
      slowPeriod > (N : Int) ∨ signalPeriod > (N : Int)) →
      (calculateMACD (some (f0, s0)) prices N fastPeriod slowPeriod signalPeriod macd signal
        histogram).1 = if signalPeriod > (N : Int) - (slowPeriod - 1) then -1 else 0 := by
    intro h
    have hf : 0 < fastPeriod := by omega
    have hfs : fastPeriod < slowPeriod := by omega
    have hsl : slowPeriod ≤ N := by omega
    have hsg : 0 < signalPeriod := by omega
    have hsgN : signalPeriod ≤ N := by omega
    rw [calculateMACD_status f0 s0 prices N fastPeriod slowPeriod signalPeriod macd signal
      histogram hN hf hfs hsl hsg hsgN]
    have hM0 : (macdLine N slowPeriod (calculateEMA prices N fastPeriod f0).2
        (calculateEMA prices N slowPeriod s0).2 macd (slowPeriod - 1)).isnan = false :=
      Dbl.isnan_of_fin _ (macdLine_finite f0 s0 prices p N fastPeriod slowPeriod macd hN hfin
        hf hfs hsl _ (le_refl _) (by omega))
    by_cases hgt : signalPeriod > (N : Int) - (slowPeriod - 1)
    · rw [macdSignal_failure N slowPeriod signalPeriod _ signal hN (by omega) hsl hM0 hgt,
        if_pos hgt, if_pos (by decide)]
    · rw [macdSignal_success N slowPeriod signalPeriod _ signal hN (by omega) hsl hM0
        (by omega) (by omega), if_neg hgt, if_neg (by simp)]
  refine ⟨?_, ?_, hfront⟩
  · by_cases h : fastPeriod ≤ 0 ∨ signalPeriod ≤ 0 ∨ fastPeriod ≥ slowPeriod ∨
        slowPeriod > (N : Int) ∨ signalPeriod > (N : Int)
    · rw [hfront h]
      constructor
      · intro _; omega
      · intro _; rfl
    · rw [hlate h]
      by_cases hgt : signalPeriod > (N : Int) - (slowPeriod - 1)
      · rw [if_pos hgt]
        constructor
        · intro _; omega
        · intro _; rfl
      · rw [if_neg hgt]
        constructor
        · intro h0; exact absurd h0 (by decide)
        · intro h0; omega
  · intro h
    rw [hlate (by omega), if_neg (by omega)]

/-- C4, witness of the amended claim: on `prices = [1,2,3]` the call with periods
`(1, 2, 3)` fails (`3 > 3 - (2 - 1)`), the call with periods `(1, 2, 2)` succeeds, and
the call with periods `(2, 2, 1)` fails without touching the outputs. -/
theorem calculateMACD_failure_witness :
    (calculateMACD (some (junk, junk)) (Buf.ofList [1, 2, 3]) 3 1 2 3 junk junk junk).1 = -1 ∧
    (calculateMACD (some (junk, junk)) (Buf.ofList [1, 2, 3]) 3 1 2 2 junk junk junk).1 = 0 ∧
    calculateMACD (some (junk, junk)) (Buf.ofList [1, 2, 3]) 3 2 2 1 junk junk junk
      = (-1, junk, junk, junk) := by
  have hfin : ∀ j : Int, 0 ≤ j → j < (3 : Nat) →
      Buf.ofList [1, 2, 3] j = fin (examplePrices j) := by
    intro j h0 h1
    have h1' : j < 3 := by exact_mod_cast h1
    interval_cases j <;> decide!
  exact ⟨(calculateMACD_failure junk junk (Buf.ofList [1, 2, 3]) examplePrices 3 1 2 3 junk
      junk junk (by decide) hfin).1.mpr (by decide),
    (calculateMACD_failure junk junk (Buf.ofList [1, 2, 3]) examplePrices 3 1 2 2 junk
      junk junk (by decide) hfin).2.1 (by decide),
    (calculateMACD_failure junk junk (Buf.ofList [1, 2, 3]) examplePrices 3 2 2 1 junk
      junk junk (by decide) hfin).2.2 (by decide)⟩

/-- The signal block when no MACD value is defined from `slowPeriod - 1` on: the `while`
loop runs to `length` and `signal` is filled with `nan`. -/
theorem macdSignal_all_nan (N : Nat) (slowPeriod signalPeriod : Int) (macd signal : Buf)
    (hN : N < 2 ^ 31) (hsl : slowPeriod ≤ N)
    (hM : ∀ i : Int, slowPeriod - 1 ≤ i → i < N → macd i = nan) :
    macdSignal N slowPeriod signalPeriod macd signal
      = (0, fun k => if 0 ≤ k ∧ k < (N : Int) then nan else signal k) := by
  have hc : castInt N = (N : Int) := castInt_of_lt N hN
  obtain ⟨a, b, _, d⟩ := firstValidLoop_exit macd N ((N : Int) - (slowPeriod - 1)).toNat
    (slowPeriod - 1) (by omega) (by omega)
  have hf : ¬ (firstValidLoop macd N ((N : Int) - (slowPeriod - 1)).toNat (slowPeriod - 1)
      < (N : Int)) := by
    intro hlt
    have h1 := d hlt
    rw [hM _ a hlt] at h1
    exact absurd h1 (by decide)
  unfold macdSignal
  simp only [hc]
  rw [if_neg hf]
  refine congrArg _ ?_
  funext k
  rw [forInt_fill 0 _ (fun _ => nan)]

/-- C5, counterexample: `prices = [1,2]`, `fastPeriod = 1`, `slowPeriod = 2 = length`,
`signalPeriod = 1`: the call succeeds with `slowPeriod ≥ length`, yet `macd[1] = 1/2`
and `signal[1] = 1/2` are defined. -/
theorem calculateMACD_slow_length_counterexample :
    (calculateMACD (some (junk, junk)) (Buf.ofList [1, 2]) 2 1 2 1 junk junk junk).1 = 0 ∧
    (2 : Int) ≥ ((2 : Nat) : Int) ∧
    (calculateMACD (some (junk, junk)) (Buf.ofList [1, 2]) 2 1 2 1 junk junk junk).2.1 1
      = fin (1 / 2) ∧
    (calculateMACD (some (junk, junk)) (Buf.ofList [1, 2]) 2 1 2 1 junk junk junk).2.2.1 1
      = fin (1 / 2) := by
  refine ⟨by decide!, by decide, by decide!, by decide!⟩

/-- C5, amended. For every call of `calculateMACD` that returns success (length
representable as `int`): if no MACD value is defined, i.e. `macd[i]` is `nan` at every
index of `[slowPeriod-1, length)`, then `signal[i]` is `nan` at every index of
`[0, length)`.  On finite prices this never happens, in particular not for
`slowPeriod ≥ length`: `macd[slowPeriod-1]` is a finite number. -/
theorem calculateMACD_no_macd (f0 s0 prices : Buf) (N : Nat)
    (fastPeriod slowPeriod signalPeriod : Int) (macd signal histogram : Buf)
    (hN : N < 2 ^ 31)
    (hs : (calculateMACD (some (f0, s0)) prices N fastPeriod slowPeriod signalPeriod macd
      signal histogram).1 = 0) :
    ((∀ i : Int, slowPeriod - 1 ≤ i → i < N →
        (calculateMACD (some (f0, s0)) prices N fastPeriod slowPeriod signalPeriod macd
          signal histogram).2.1 i = nan) →
      ∀ i : Int, 0 ≤ i → i < N →
        (calculateMACD (some (f0, s0)) prices N fastPeriod slowPeriod signalPeriod macd
          signal histogram).2.2.1 i = nan) ∧
    (∀ p : Int → ℚ, (∀ j : Int, 0 ≤ j → j < N → prices j = fin (p j)) →
      ∃ q : ℚ, (calculateMACD (some (f0, s0)) prices N fastPeriod slowPeriod signalPeriod
        macd signal histogram).2.1 (slowPeriod - 1) = fin q) := by
  obtain ⟨hf, hfs, hsl, hsg, hsgN⟩ := calculateMACD_success_valid _ prices N fastPeriod
    slowPeriod signalPeriod macd signal histogram hN hs
  rw [calculateMACD_signal f0 s0 prices N fastPeriod slowPeriod signalPeriod macd signal
      histogram hN hf hfs hsl hsg hsgN,
    calculateMACD_macd f0 s0 prices N fastPeriod slowPeriod signalPeriod macd signal
      histogram hN hf hfs hsl hsg hsgN]
  constructor
  · intro hM i hi1 hi2
    rw [macdSignal_all_nan N slowPeriod signalPeriod _ signal hN hsl hM]
    simp only []
    rw [if_pos ⟨hi1, hi2⟩]
  · intro p hfin
    exact macdLine_finite f0 s0 prices p N fastPeriod slowPeriod macd hN hfin hf hfs hsl
      _ (le_refl _) (by omega)

/-- C5, witness of the amended claim: on the all-`nan` series of length 2 with periods
`(1, 2, 1)` the call succeeds, `macd[1]` is `nan`, and `signal` is `nan` at 0 and 1;
on `prices = [1,2]` with the same periods `macd[1]` is defined. -/
theorem calculateMACD_no_macd_witness :
    (calculateMACD (some (junk, junk)) (fun _ => nan) 2 1 2 1 junk junk junk).1 = 0 ∧
    (calculateMACD (some (junk, junk)) (fun _ => nan) 2 1 2 1 junk junk junk).2.1 1 = nan ∧
    (calculateMACD (some (junk, junk)) (fun _ => nan) 2 1 2 1 junk junk junk).2.2.1 0 = nan ∧
    (calculateMACD (some (junk, junk)) (fun _ => nan) 2 1 2 1 junk junk junk).2.2.1 1 = nan ∧
    (∃ q : ℚ, (calculateMACD (some (junk, junk)) (Buf.ofList [1, 2]) 2 1 2 1 junk junk
      junk).2.1 ((2 : Int) - 1) = fin q) := by
  have hs : (calculateMACD (some (junk, junk)) (fun _ => nan) 2 1 2 1 junk junk junk).1 = 0 := by
    decide!
  have hM : ∀ i : Int, (2 : Int) - 1 ≤ i → i < ((2 : Nat) : Int) →
      (calculateMACD (some (junk, junk)) (fun _ => nan) 2 1 2 1 junk junk junk).2.1 i = nan := by
    intro i h1 h2
    have h1' : 1 ≤ i := by omega
    have h2' : i < 2 := by exact_mod_cast h2
    interval_cases i
    decide!
  have h := (calculateMACD_no_macd junk junk (fun _ => nan) 2 1 2 1 junk junk junk
    (by decide) hs).1 hM
  have hfin : ∀ j : Int, 0 ≤ j → j < ((2 : Nat) : Int) →
      Buf.ofList [1, 2] j = fin (examplePrices j) := by
    intro j h0 h1
    have h1' : j < 2 := by exact_mod_cast h1
    interval_cases j <;> decide!
  have h2 := (calculateMACD_no_macd junk junk (Buf.ofList [1, 2]) 2 1 2 1 junk junk junk
    (by decide) (by decide!)).2 examplePrices hfin
  exact ⟨hs, hM 1 (by decide) (by decide), h 0 (by decide) (by decide),
    h 1 (by decide) (by decide), h2⟩

/-! ## Stochastic oscillator -/

theorem windowMax_ge (x : Int → ℚ) (lo : Int) (n t : Nat) (ht : t ≤ n) :
    x (lo + t) ≤ windowMax x lo n := by
  induction n with
  | zero =>
    have : t = 0 := by omega
    subst this
    simp [windowMax]
  | succ n ih =>
    unfold windowMax
    by_cases h : t = n + 1
    · subst h; exact le_max_right _ _
    · exact le_trans (ih (by omega)) (le_max_left _ _)

theorem windowMax_mem (x : Int → ℚ) (lo : Int) (n : Nat) :
    ∃ t : Nat, t ≤ n ∧ windowMax x lo n = x (lo + t) := by
  induction n with
  | zero => exact ⟨0, le_refl _, by simp [windowMax]⟩
  | succ n ih =>
    obtain ⟨t, ht, he⟩ := ih
    unfold windowMax
    rcases max_choice (windowMax x lo n) (x (lo + ((n + 1 : Nat) : Int))) with h | h
    · exact ⟨t, by omega, by rw [h, he]⟩
    · exact ⟨n + 1, le_refl _, h⟩

theorem windowMin_le (x : Int → ℚ) (lo : Int) (n t : Nat) (ht : t ≤ n) :
    windowMin x lo n ≤ x (lo + t) := by
  induction n with
  | zero =>
    have : t = 0 := by omega
    subst this
    simp [windowMin]
  | succ n ih =>
    unfold windowMin
    by_cases h : t = n + 1
    · subst h; exact min_le_right _ _
    · exact le_trans (min_le_left _ _) (ih (by omega))

theorem windowMin_mem (x : Int → ℚ) (lo : Int) (n : Nat) :
    ∃ t : Nat, t ≤ n ∧ windowMin x lo n = x (lo + t) := by
  induction n with
  | zero => exact ⟨0, le_refl _, by simp [windowMin]⟩
  | succ n ih =>
    obtain ⟨t, ht, he⟩ := ih
    unfold windowMin
    rcases min_choice (windowMin x lo n) (x (lo + ((n + 1 : Nat) : Int))) with h | h
    · exact ⟨t, by omega, by rw [h, he]⟩
    · exact ⟨n + 1, le_refl _, h⟩

/-- The inner loop of `calculateStochastic` (lines 352-358) on finite high and low
computes the window maximum and minimum. -/
theorem forInt_highLow (high low : Buf) (h l : Int → ℚ) (lo : Int) (n : Nat)
    (hh : ∀ t : Nat, t ≤ n → high (lo + t) = fin (h (lo + t)))
    (hl : ∀ t : Nat, t ≤ n → low (lo + t) = fin (l (lo + t))) :
    forInt (lo + 1) (lo + 1 + n)
      (fun j (hl : Dbl × Dbl) =>
        (if (high j).gt hl.1 then high j else hl.1,
         if (low j).lt hl.2 then low j else hl.2))
      (high lo, low lo)
      = (fin (windowMax h lo n), fin (windowMin l lo n)) := by
  induction n with
  | zero =>
    rw [forInt_of_le _ _ _ _ (by simp)]
    have h0 := hh 0 (le_refl _)
    have l0 := hl 0 (le_refl _)
    simp only [Nat.cast_zero, add_zero] at h0 l0
    rw [h0, l0]
    rfl
  | succ n ih =>
    have hs : lo + 1 + ((n + 1 : Nat) : Int) = (lo + 1 + n) + 1 := by push_cast; ring
    have e1 : lo + 1 + (n : Int) = lo + ((n + 1 : Nat) : Int) := by push_cast; ring
    rw [hs, forInt_succ _ _ _ _ (by omega), ih (fun t ht => hh t (by omega))
      (fun t ht => hl t (by omega)), e1, hh (n + 1) (le_refl _), hl (n + 1) (le_refl _)]
    simp only [Dbl.gt, Dbl.lt, decide_eq_true_eq, windowMax, windowMin]
    refine Prod.ext ?_ ?_
    · simp only []
      split
      · rename_i hlt; rw [max_eq_right (le_of_lt hlt)]
      · rename_i hlt; rw [max_eq_left (not_lt.mp hlt)]
    · simp only []
      split
      · rename_i hlt; rw [min_eq_right (le_of_lt hlt)]
      · rename_i hlt; rw [min_eq_left (not_lt.mp hlt)]

/-- The value stored in `k[i]` (lines 351-365) on finite inputs is `stochSpec`. -/
theorem stochValue_fin (high low close : Buf) (h l c : Int → ℚ) (N : Nat) (kPeriod : Int)
    (hh : ∀ j : Int, 0 ≤ j → j < N → high j = fin (h j))
    (hl : ∀ j : Int, 0 ≤ j → j < N → low j = fin (l j))
    (hc : ∀ j : Int, 0 ≤ j → j < N → close j = fin (c j))
    (h1 : 1 ≤ kPeriod) (i : Int) (hi1 : kPeriod - 1 ≤ i) (hi2 : i < N) :
    (if ((forInt (i - kPeriod + 2) (i + 1)
          (fun j (hl : Dbl × Dbl) =>
            (if (high j).gt hl.1 then high j else hl.1,
             if (low j).lt hl.2 then low j else hl.2))
          (high (i - kPeriod + 1), low (i - kPeriod + 1))).1.sub
        (forInt (i - kPeriod + 2) (i + 1)
          (fun j (hl : Dbl × Dbl) =>
            (if (high j).gt hl.1 then high j else hl.1,
             if (low j).lt hl.2 then low j else hl.2))
          (high (i - kPeriod + 1), low (i - kPeriod + 1))).2).eq (fin 0) = true
      then fin 50
      else (fin 100).mul (((close i).sub
        (forInt (i - kPeriod + 2) (i + 1)
          (fun j (hl : Dbl × Dbl) =>
            (if (high j).gt hl.1 then high j else hl.1,
             if (low j).lt hl.2 then low j else hl.2))
          (high (i - kPeriod + 1), low (i - kPeriod + 1))).2).div
        ((forInt (i - kPeriod + 2) (i + 1)
          (fun j (hl : Dbl × Dbl) =>
            (if (high j).gt hl.1 then high j else hl.1,
             if (low j).lt hl.2 then low j else hl.2))
          (high (i - kPeriod + 1), low (i - kPeriod + 1))).1.sub
        (forInt (i - kPeriod + 2) (i + 1)
          (fun j (hl : Dbl × Dbl) =>
            (if (high j).gt hl.1 then high j else hl.1,
             if (low j).lt hl.2 then low j else hl.2))
          (high (i - kPeriod + 1), low (i - kPeriod + 1))).2)))
      = fin (stochSpec h l c kPeriod i) := by
  have e1 : i - kPeriod + 2 = (i - kPeriod + 1) + 1 := by ring
  have e2 : i + 1 = (i - kPeriod + 1) + 1 + ((kPeriod - 1).toNat : Int) := by omega
  have key := forInt_highLow high low h l (i - kPeriod + 1) (kPeriod - 1).toNat
    (fun t ht => hh _ (by omega) (by omega)) (fun t ht => hl _ (by omega) (by omega))
  rw [← e2, ← e1] at key
  rw [key, hc i (by omega) hi2]
  unfold stochSpec
  simp only [Dbl.sub, Dbl.eq, decide_eq_true_eq, sub_eq_zero]
  split
  · rfl
  · rename_i hne
    have hne' : windowMax h (i - kPeriod + 1) (kPeriod - 1).toNat
        - windowMin l (i - kPeriod + 1) (kPeriod - 1).toNat ≠ 0 := sub_ne_zero.mpr hne
    simp only [Dbl.div, Dbl.mul, if_neg hne', mul_div_assoc]

/-- A call of `calculateStochastic` that passes the validation, on finite inputs: status,
closed form of `k`, and `d` as the SMA of `k`. -/
theorem calculateStochastic_run (high low close : Buf) (h l c : Int → ℚ) (N : Nat)
    (kPeriod dPeriod : Int) (k d : Buf) (hN : N < 2 ^ 31)
    (hh : ∀ j : Int, 0 ≤ j → j < N → high j = fin (h j))
    (hl : ∀ j : Int, 0 ≤ j → j < N → low j = fin (l j))
    (hc : ∀ j : Int, 0 ≤ j → j < N → close j = fin (c j))
    (hk1 : 1 ≤ kPeriod) (hk2 : kPeriod ≤ N) (hd1 : 1 ≤ dPeriod) (hd2 : dPeriod ≤ N) :
    calculateStochastic high low close N kPeriod dPeriod k d =
      (0, (fun j => if kPeriod - 1 ≤ j ∧ j < N then fin (stochSpec h l c kPeriod j)
          else if 0 ≤ j ∧ j < kPeriod - 1 then nan else k j),
        (calculateSMA (fun j => if kPeriod - 1 ≤ j ∧ j < N then fin (stochSpec h l c kPeriod j)
          else if 0 ≤ j ∧ j < kPeriod - 1 then nan else k j) N dPeriod d).2) := by
  have hcN : castInt N = (N : Int) := castInt_of_lt N hN
  have hv : ¬ (kPeriod ≤ 0 ∨ dPeriod ≤ 0 ∨ kPeriod > (N : Int) ∨ dPeriod > (N : Int)) := by
    omega
  have hm : min (kPeriod - 1) (N : Int) = kPeriod - 1 := min_eq_left (by omega)
  have hbody : (fun (i : Int) (k : Buf) =>
      let highest := high (i - kPeriod + 1)
      let lowest := low (i - kPeriod + 1)
      let hl := forInt (i - kPeriod + 2) (i + 1)
        (fun j (hl : Dbl × Dbl) =>
          (if (high j).gt hl.1 then high j else hl.1,
           if (low j).lt hl.2 then low j else hl.2))
        (highest, lowest)
      let range := hl.1.sub hl.2
      if range.eq (fin 0) then k.write i (fin 50)
      else k.write i ((fin 100).mul (((close i).sub hl.2).div range)))
      = (fun (i : Int) (k : Buf) => k.write i
        (if ((forInt (i - kPeriod + 2) (i + 1)
          (fun j (hl : Dbl × Dbl) =>
            (if (high j).gt hl.1 then high j else hl.1,
             if (low j).lt hl.2 then low j else hl.2))
          (high (i - kPeriod + 1), low (i - kPeriod + 1))).1.sub
        (forInt (i - kPeriod + 2) (i + 1)
          (fun j (hl : Dbl × Dbl) =>
            (if (high j).gt hl.1 then high j else hl.1,
             if (low j).lt hl.2 then low j else hl.2))
          (high (i - kPeriod + 1), low (i - kPeriod + 1))).2).eq (fin 0) = true
      then fin 50
      else (fin 100).mul (((close i).sub
        (forInt (i - kPeriod + 2) (i + 1)
          (fun j (hl : Dbl × Dbl) =>
            (if (high j).gt hl.1 then high j else hl.1,
             if (low j).lt hl.2 then low j else hl.2))
          (high (i - kPeriod + 1), low (i - kPeriod + 1))).2).div
        ((forInt (i - kPeriod + 2) (i + 1)
          (fun j (hl : Dbl × Dbl) =>
            (if (high j).gt hl.1 then high j else hl.1,
             if (low j).lt hl.2 then low j else hl.2))
          (high (i - kPeriod + 1), low (i - kPeriod + 1))).1.sub
        (forInt (i - kPeriod + 2) (i + 1)
          (fun j (hl : Dbl × Dbl) =>
            (if (high j).gt hl.1 then high j else hl.1,
             if (low j).lt hl.2 then low j else hl.2))
          (high (i - kPeriod + 1), low (i - kPeriod + 1))).2)))) := by
    funext i k
    simp only []
    split <;> rfl
  unfold calculateStochastic
  rw [hcN, if_neg hv, hm]
  simp only [hbody]
  have hK : ∀ f : Int → Dbl,
      (∀ i, kPeriod - 1 ≤ i → i < N → f i = fin (stochSpec h l c kPeriod i)) →
      forInt (kPeriod - 1) N (fun i k => k.write i (f i))
        (forInt 0 (kPeriod - 1) (fun i k => k.write i nan) k)
      = (fun j => if kPeriod - 1 ≤ j ∧ j < N then fin (stochSpec h l c kPeriod j)
          else if 0 ≤ j ∧ j < kPeriod - 1 then nan else k j) := by
    intro f hf
    funext j
    rw [forInt_fill (kPeriod - 1) N f, forInt_fill 0 _ (fun _ => nan)]
    by_cases hj : kPeriod - 1 ≤ j ∧ j < N
    · rw [if_pos hj, if_pos hj, hf j hj.1 hj.2]
    · rw [if_neg hj, if_neg hj]
  rw [hK _ (fun i hi1 hi2 => stochValue_fin high low close h l c N kPeriod hh hl hc hk1 i
    hi1 hi2)]
  have hst : ∀ K : Buf, (calculateSMA K N dPeriod d).1 = 0 := by
    intro K
    rw [(movingAverage_status K N dPeriod d).1, hcN, if_neg (by omega)]
  simp only [hst, ne_eq, not_true_eq_false, if_false]

theorem ofList_seriesOf (l : List ℚ) (j : Int) (h0 : 0 ≤ j) (h1 : j < (l.length : Int)) :
    Buf.ofList l j = fin (seriesOf l j) := by
  have hlt : j.toNat < l.length := by omega
  unfold Buf.ofList seriesOf
  rw [if_neg (by omega), List.get?_eq_get hlt, List.getD_eq_getElem l 0 hlt]
  rfl

/-- C11. `calculateStochastic` on finite inputs of length `N` (representable as `int`)
with `1 ≤ kPeriod ≤ N`, `1 ≤ dPeriod ≤ N` succeeds; `k[i]` is `nan` for `i < kPeriod-1`,
and for `kPeriod-1 ≤ i < N`, with `highest`/`lowest` the maximum of high / minimum of low
over `[i-kPeriod+1, i]`, `k[i] = 50` if `highest = lowest` and
`100·(close[i]-lowest)/(highest-lowest)` otherwise. -/
theorem calculateStochastic_percentK (high low close : Buf) (h l c : Int → ℚ) (N : Nat)
    (kPeriod dPeriod : Int) (k d : Buf) (hN : N < 2 ^ 31)
    (hh : ∀ j : Int, 0 ≤ j → j < N → high j = fin (h j))
    (hl : ∀ j : Int, 0 ≤ j → j < N → low j = fin (l j))
    (hc : ∀ j : Int, 0 ≤ j → j < N → close j = fin (c j))
    (hk1 : 1 ≤ kPeriod) (hk2 : kPeriod ≤ N) (hd1 : 1 ≤ dPeriod) (hd2 : dPeriod ≤ N) :
    (calculateStochastic high low close N kPeriod dPeriod k d).1 = 0 ∧
    (∀ i : Int, 0 ≤ i → i < kPeriod - 1 →
      (calculateStochastic high low close N kPeriod dPeriod k d).2.1 i = nan) ∧
    (∀ i : Int, kPeriod - 1 ≤ i → i < N →
      (calculateStochastic high low close N kPeriod dPeriod k d).2.1 i
        = fin (if windowMax h (i - kPeriod + 1) (kPeriod - 1).toNat
              = windowMin l (i - kPeriod + 1) (kPeriod - 1).toNat then 50
            else 100 * (c i - windowMin l (i - kPeriod + 1) (kPeriod - 1).toNat)
              / (windowMax h (i - kPeriod + 1) (kPeriod - 1).toNat
                - windowMin l (i - kPeriod + 1) (kPeriod - 1).toNat))) := by
  rw [calculateStochastic_run high low close h l c N kPeriod dPeriod k d hN hh hl hc hk1 hk2
    hd1 hd2]
  refine ⟨rfl, ?_, ?_⟩
  · intro i hi1 hi2
    simp only []
    rw [if_neg (by omega), if_pos ⟨hi1, hi2⟩]
  · intro i hi1 hi2
    simp only []
    rw [if_pos ⟨hi1, hi2⟩]
    rfl

/-- C11, witness: high `[1,2,5]`, low `[1,2,3]`, close `[1,2,4]`, `kPeriod = 2`,
`dPeriod = 2`: `k = [nan, 100, 200/3]`. -/
theorem calculateStochastic_percentK_witness :
    (calculateStochastic (Buf.ofList [1, 2, 5]) (Buf.ofList [1, 2, 3]) (Buf.ofList [1, 2, 4])
      3 2 2 junk junk).1 = 0 ∧
    (calculateStochastic (Buf.ofList [1, 2, 5]) (Buf.ofList [1, 2, 3]) (Buf.ofList [1, 2, 4])
      3 2 2 junk junk).2.1 0 = nan ∧
    (calculateStochastic (Buf.ofList [1, 2, 5]) (Buf.ofList [1, 2, 3]) (Buf.ofList [1, 2, 4])
      3 2 2 junk junk).2.1 1 = fin 100 ∧
    (calculateStochastic (Buf.ofList [1, 2, 5]) (Buf.ofList [1, 2, 3]) (Buf.ofList [1, 2, 4])
      3 2 2 junk junk).2.1 2 = fin (200 / 3) := by
  have h := calculateStochastic_percentK (Buf.ofList [1, 2, 5]) (Buf.ofList [1, 2, 3])
    (Buf.ofList [1, 2, 4]) (seriesOf [1, 2, 5]) (seriesOf [1, 2, 3]) (seriesOf [1, 2, 4])
    3 2 2 junk junk (by decide) (fun j h0 h1 => ofList_seriesOf [1, 2, 5] j h0 h1)
    (fun j h0 h1 => ofList_seriesOf [1, 2, 3] j h0 h1)
    (fun j h0 h1 => ofList_seriesOf [1, 2, 4] j h0 h1)
    (by decide) (by decide) (by decide) (by decide)
  exact ⟨h.1, h.2.1 0 (by decide) (by decide), by decide!, by decide!⟩

theorem windowMax_const (x : Int → ℚ) (lo : Int) (n : Nat) (v : ℚ)
    (hx : ∀ t : Nat, t ≤ n → x (lo + t) = v) : windowMax x lo n = v := by
  obtain ⟨t, ht, he⟩ := windowMax_mem x lo n
  rw [he, hx t ht]

theorem windowMin_const (x : Int → ℚ) (lo : Int) (n : Nat) (v : ℚ)
    (hx : ∀ t : Nat, t ≤ n → x (lo + t) = v) : windowMin x lo n = v := by
  obtain ⟨t, ht, he⟩ := windowMin_mem x lo n
  rw [he, hx t ht]

/-- C12, counterexample: with `high = low = close = [1,2]`, `kPeriod = 2`, `dPeriod = 1`
every entry of the window `[0,1]` has `high[j] = low[j]`, the call succeeds, but
`highest = 2 ≠ 1 = lowest` and `k[1] = 100`, not `50`. -/
theorem calculateStochastic_zero_range_counterexample :
    (∀ j : Int, 0 ≤ j → j ≤ 1 → seriesOf [1, 2] j = seriesOf [1, 2] j) ∧
    (calculateStochastic (Buf.ofList [1, 2]) (Buf.ofList [1, 2]) (Buf.ofList [1, 2])
      2 2 1 junk junk).1 = 0 ∧
    (calculateStochastic (Buf.ofList [1, 2]) (Buf.ofList [1, 2]) (Buf.ofList [1, 2])
      2 2 1 junk junk).2.1 1 = fin 100 ∧
    (calculateStochastic (Buf.ofList [1, 2]) (Buf.ofList [1, 2]) (Buf.ofList [1, 2])
      2 2 1 junk junk).2.1 1 ≠ fin 50 := by
  refine ⟨fun _ _ _ => rfl, by decide!, by decide!, by decide!⟩

/-- C12, amended. For every valid call of `calculateStochastic` on finite inputs and
every index `kPeriod-1 ≤ i < N` such that `high[j]` and `low[j]` all equal one common
value `v` for every entry `j` of the window `[i-kPeriod+1, i]`, `k[i]` is exactly `50`. -/
theorem calculateStochastic_zero_range (high low close : Buf) (h l c : Int → ℚ) (N : Nat)
    (kPeriod dPeriod : Int) (k d : Buf) (hN : N < 2 ^ 31)
    (hh : ∀ j : Int, 0 ≤ j → j < N → high j = fin (h j))
    (hl : ∀ j : Int, 0 ≤ j → j < N → low j = fin (l j))
    (hc : ∀ j : Int, 0 ≤ j → j < N → close j = fin (c j))
    (hk1 : 1 ≤ kPeriod) (hk2 : kPeriod ≤ N) (hd1 : 1 ≤ dPeriod) (hd2 : dPeriod ≤ N)
    (i : Int) (hi1 : kPeriod - 1 ≤ i) (hi2 : i < N) (v : ℚ)
    (hflat : ∀ j : Int, i - kPeriod + 1 ≤ j → j ≤ i → h j = v ∧ l j = v) :
    (calculateStochastic high low close N kPeriod dPeriod k d).2.1 i = fin 50 := by
  rw [calculateStochastic_run high low close h l c N kPeriod dPeriod k d hN hh hl hc hk1 hk2
    hd1 hd2]
  simp only []
  rw [if_pos ⟨hi1, hi2⟩]
  have hmax := windowMax_const h (i - kPeriod + 1) (kPeriod - 1).toNat v
    (fun t ht => (hflat _ (by omega) (by omega)).1)
  have hmin := windowMin_const l (i - kPeriod + 1) (kPeriod - 1).toNat v
    (fun t ht => (hflat _ (by omega) (by omega)).2)
  unfold stochSpec
  rw [hmax, hmin, if_pos rfl]

/-- C12, witness of the amended claim: high `[1,2,2]`, low `[0,2,2]`, close `[1,2,2]`,
`kPeriod = 2`: the window `[1,2]` is flat at `2` and `k[2] = 50`. -/
theorem calculateStochastic_zero_range_witness :
    (calculateStochastic (Buf.ofList [1, 2, 2]) (Buf.ofList [0, 2, 2]) (Buf.ofList [1, 2, 2])
      3 2 1 junk junk).2.1 2 = fin 50 :=
  calculateStochastic_zero_range (Buf.ofList [1, 2, 2]) (Buf.ofList [0, 2, 2])
    (Buf.ofList [1, 2, 2]) (seriesOf [1, 2, 2]) (seriesOf [0, 2, 2]) (seriesOf [1, 2, 2])
    3 2 1 junk junk (by decide) (fun j h0 h1 => ofList_seriesOf [1, 2, 2] j h0 h1)
    (fun j h0 h1 => ofList_seriesOf [0, 2, 2] j h0 h1)
    (fun j h0 h1 => ofList_seriesOf [1, 2, 2] j h0 h1)
    (by decide) (by decide) (by decide) (by decide) 2 (by decide) (by decide) 2
    (by
      intro j h1 h2
      have h1' : 1 ≤ j := by omega
      interval_cases j <;> exact ⟨by decide!, by decide!⟩)

/-- A `nan` anywhere in the window makes the accumulation loop `sum += prices[j]` end
with `nan`. -/
theorem forInt_sum_nan (prices : Buf) (lo : Int) (n : Nat) (init : Dbl) (j : Int)
    (hj1 : lo ≤ j) (hj2 : j < lo + n) (hnan : prices j = nan) :
    forInt lo (lo + n) (fun j s => s.add (prices j)) init = nan := by
  induction n with
  | zero => simp at hj2; omega
  | succ n ih =>
    have hs : lo + ((n + 1 : Nat) : Int) = (lo + n) + 1 := by push_cast; ring
    rw [hs, forInt_succ _ _ _ _ (by omega)]
    by_cases hlast : j = lo + n
    · rw [← hlast, hnan]
      cases forInt lo j (fun j s => s.add (prices j)) init <;> rfl
    · rw [ih (by push_cast at hj2; omega)]
      rfl

/-- C13. For every valid call of `calculateStochastic` on finite inputs (length
representable as `int`), `d[i]` is `nan` for every `i < (kPeriod-1)+(dPeriod-1)`, and for
`(kPeriod-1)+(dPeriod-1) ≤ i < N` every `k` value of the window `[i-dPeriod+1, i]` is
finite and `d[i]` is their arithmetic mean. -/
theorem calculateStochastic_percentD (high low close : Buf) (h l c : Int → ℚ) (N : Nat)
    (kPeriod dPeriod : Int) (k d : Buf) (hN : N < 2 ^ 31)
    (hh : ∀ j : Int, 0 ≤ j → j < N → high j = fin (h j))
    (hl : ∀ j : Int, 0 ≤ j → j < N → low j = fin (l j))
    (hc : ∀ j : Int, 0 ≤ j → j < N → close j = fin (c j))
    (hk1 : 1 ≤ kPeriod) (hk2 : kPeriod ≤ N) (hd1 : 1 ≤ dPeriod) (hd2 : dPeriod ≤ N) :
    (∀ i : Int, 0 ≤ i → i < (kPeriod - 1) + (dPeriod - 1) → i < N →
      (calculateStochastic high low close N kPeriod dPeriod k d).2.2 i = nan) ∧
    (∀ i : Int, (kPeriod - 1) + (dPeriod - 1) ≤ i → i < N →
      (∀ j : Int, i - dPeriod + 1 ≤ j → j ≤ i →
        (calculateStochastic high low close N kPeriod dPeriod k d).2.1 j
          = fin (Dbl.val ((calculateStochastic high low close N kPeriod dPeriod k d).2.1 j))) ∧
      (calculateStochastic high low close N kPeriod dPeriod k d).2.2 i
        = fin ((∑ t in Finset.range dPeriod.toNat,
            Dbl.val ((calculateStochastic high low close N kPeriod dPeriod k d).2.1
              (i - dPeriod + 1 + t))) / (dPeriod : ℚ))) := by
  rw [calculateStochastic_run high low close h l c N kPeriod dPeriod k d hN hh hl hc hk1 hk2
    hd1 hd2]
  generalize hK : (fun j : Int => if kPeriod - 1 ≤ j ∧ j < (N : Int)
      then fin (stochSpec h l c kPeriod j)
      else if 0 ≤ j ∧ j < kPeriod - 1 then nan else k j) = K
  have hKnan : ∀ j : Int, 0 ≤ j → j < kPeriod - 1 → K j = nan := by
    intro j h0 h1
    rw [← hK]
    simp only []
    rw [if_neg (by omega), if_pos ⟨h0, h1⟩]
  have hKfin : ∀ j : Int, kPeriod - 1 ≤ j → j < N → K j = fin (Dbl.val (K j)) := by
    intro j h0 h1
    apply Dbl.eq_fin_val
    rw [← hK]
    simp only []
    rw [if_pos ⟨h0, h1⟩]
    exact ⟨_, rfl⟩
  rw [calculateSMA_run K N dPeriod d hN hd1 hd2]
  constructor
  · intro i hi1 hi2 hi3
    simp only []
    by_cases hlt : dPeriod - 1 ≤ i
    · rw [if_pos ⟨hlt, hi3⟩]
      have e : i + 1 = (i - dPeriod + 1) + (dPeriod.toNat : Int) := by omega
      rw [e, forInt_sum_nan K (i - dPeriod + 1) dPeriod.toNat (fin 0) (i - dPeriod + 1)
        (le_refl _) (by omega) (hKnan _ (by omega) (by omega))]
      rfl
    · rw [if_neg (by omega), if_pos ⟨hi1, by omega⟩]
  · intro i hi1 hi2
    refine ⟨fun j hj1 hj2 => hKfin j (by omega) (by omega), ?_⟩
    simp only []
    have e : i + 1 = (i - dPeriod + 1) + (dPeriod.toNat : Int) := by omega
    rw [if_pos ⟨by omega, hi2⟩, e,
      forInt_sum K (fun j => Dbl.val (K j)) (i - dPeriod + 1) dPeriod.toNat
        (fun t ht => hKfin _ (by omega) (by omega)),
      Dbl.div_ofInt_pos _ _ hd1]

/-- C13, witness: high `[1,2,5]`, low `[1,2,3]`, close `[1,2,4]`, `kPeriod = 2`,
`dPeriod = 2`: `k = [nan, 100, 200/3]` and `d = [nan, nan, (100 + 200/3)/2]`. -/
theorem calculateStochastic_percentD_witness :
    (calculateStochastic (Buf.ofList [1, 2, 5]) (Buf.ofList [1, 2, 3]) (Buf.ofList [1, 2, 4])
      3 2 2 junk junk).2.2 0 = nan ∧
    (calculateStochastic (Buf.ofList [1, 2, 5]) (Buf.ofList [1, 2, 3]) (Buf.ofList [1, 2, 4])
      3 2 2 junk junk).2.2 1 = nan ∧
    (calculateStochastic (Buf.ofList [1, 2, 5]) (Buf.ofList [1, 2, 3]) (Buf.ofList [1, 2, 4])
      3 2 2 junk junk).2.2 2 = fin ((100 + 200 / 3) / 2) := by
  have h := calculateStochastic_percentD (Buf.ofList [1, 2, 5]) (Buf.ofList [1, 2, 3])
    (Buf.ofList [1, 2, 4]) (seriesOf [1, 2, 5]) (seriesOf [1, 2, 3]) (seriesOf [1, 2, 4])
    3 2 2 junk junk (by decide) (fun j h0 h1 => ofList_seriesOf [1, 2, 5] j h0 h1)
    (fun j h0 h1 => ofList_seriesOf [1, 2, 3] j h0 h1)
    (fun j h0 h1 => ofList_seriesOf [1, 2, 4] j h0 h1)
    (by decide) (by decide) (by decide) (by decide)
  exact ⟨h.1 0 (by decide) (by decide) (by decide), h.1 1 (by decide) (by decide) (by decide),
    by decide!⟩

/-! ## Weighted moving average -/

/-- Output of a successful `calculateWMA` run, for arbitrary (possibly `nan`) inputs. -/
theorem calculateWMA_run (prices : Buf) (N : Nat) (period : Int) (result : Buf)
    (hN : N < 2 ^ 31) (h1 : 1 ≤ period) (h2 : period ≤ N) :
    calculateWMA prices N period result = (0, fun k =>
      if period - 1 ≤ k ∧ k < N then
        (forInt 0 period
          (fun j s => s.add ((prices (k - period + 1 + j)).mul (Dbl.ofInt (j + 1))))
          (fin 0)).div
          (Dbl.ofInt (Int.tdiv (wrapInt (period * wrapInt (period + 1))) 2))
      else if 0 ≤ k ∧ k < period - 1 then nan else result k) := by
  have hc : castInt N = (N : Int) := castInt_of_lt N hN
  have hv : ¬ (period ≤ 0 ∨ period > (N : Int)) := by omega
  have hm : min (period - 1) (N : Int) = period - 1 := min_eq_left (by omega)
  unfold calculateWMA
  rw [hc, if_neg hv, hm]
  refine congrArg (Prod.mk (0 : Int)) ?_
  funext k
  rw [forInt_fill (period - 1) N
    (fun i => (forInt 0 period
      (fun j s => s.add ((prices (i - period + 1 + j)).mul (Dbl.ofInt (j + 1)))) (fin 0)).div
      (Dbl.ofInt (Int.tdiv (wrapInt (period * wrapInt (period + 1))) 2))),
    forInt_fill 0 _ (fun _ => nan)]

/-- The weighted accumulation loop of `calculateWMA` (lines 97-100) over finite values. -/
theorem forInt_weightedSum (prices : Buf) (p : Int → ℚ) (lo : Int) (n : Nat)
    (hp : ∀ t : Nat, t < n → prices (lo + t) = fin (p (lo + t))) :
    forInt 0 (n : Int) (fun j s => s.add ((prices (lo + j)).mul (Dbl.ofInt (j + 1)))) (fin 0)
      = fin (∑ t in Finset.range n, ((t : ℚ) + 1) * p (lo + t)) := by
  induction n with
  | zero => simp [forInt_of_le]
  | succ n ih =>
    have hs : ((n + 1 : Nat) : Int) = (n : Int) + 1 := by push_cast; ring
    rw [hs, forInt_succ _ _ _ _ (by omega), ih (fun t ht => hp t (by omega)),
      hp n (by omega), Finset.sum_range_succ]
    simp only [Dbl.mul, Dbl.add, Dbl.ofInt]
    congr 2
    push_cast
    ring

/-- The weight sum `period * (period + 1) / 2` when the product stays in the `int` range. -/
theorem weightSum_eq (period : Int) (h1 : 1 ≤ period) (hov : period * (period + 1) < 2 ^ 31) :
    ((Int.tdiv (wrapInt (period * wrapInt (period + 1))) 2 : Int) : ℚ)
      = (period : ℚ) * ((period : ℚ) + 1) / 2 := by
  have hp1 : period + 1 < 2 ^ 31 := by nlinarith
  have hpos : 0 ≤ period * (period + 1) := by nlinarith
  rw [wrapInt_of_range (period + 1) (by omega) hp1,
    wrapInt_of_range (period * (period + 1)) (by omega) hov,
    Int.tdiv_eq_ediv hpos (by decide)]
  obtain ⟨m, hm⟩ := Int.even_mul_succ_self period
  rw [hm, show m + m = 2 * m by ring, Int.mul_ediv_cancel_left _ (by decide : (2 : Int) ≠ 0)]
  have : ((period * (period + 1) : Int) : ℚ) = ((m + m : Int) : ℚ) := by rw [hm]
  push_cast at this
  rw [this]
  ring

/-- C15. `calculateWMA` on a finite price series of length `N` (representable as `int`)
with `1 ≤ period ≤ N` and `period*(period+1)` inside the 32-bit `int` range succeeds;
`result[i]` is `nan` for `i < period-1`, and for `period-1 ≤ i < N`
`result[i] = (Σ_{j<period} (j+1)·prices[i-period+1+j]) / (period·(period+1)/2)`. -/
theorem calculateWMA_spec (prices : Buf) (p : Int → ℚ) (N : Nat) (period : Int) (result : Buf)
    (hN : N < 2 ^ 31) (hfin : ∀ j : Int, 0 ≤ j → j < N → prices j = fin (p j))
    (h1 : 1 ≤ period) (h2 : period ≤ N) (hov : period * (period + 1) < 2 ^ 31) :
    (calculateWMA prices N period result).1 = 0 ∧
    (∀ i : Int, 0 ≤ i → i < period - 1 → (calculateWMA prices N period result).2 i = nan) ∧
    (∀ i : Int, period - 1 ≤ i → i < N → (calculateWMA prices N period result).2 i =
      fin ((∑ j in Finset.range period.toNat, ((j : ℚ) + 1) * p (i - period + 1 + j))
        / ((period : ℚ) * ((period : ℚ) + 1) / 2))) := by
  rw [calculateWMA_run prices N period result hN h1 h2]
  refine ⟨rfl, ?_, ?_⟩
  · intro i hi1 hi2
    simp only []
    rw [if_neg (by omega), if_pos ⟨hi1, hi2⟩]
  · intro i hi1 hi2
    simp only []
    have hsum := forInt_weightedSum prices p (i - period + 1) period.toNat
      (fun t ht => hfin _ (by omega) (by omega))
    rw [show ((period.toNat : Nat) : Int) = period by omega] at hsum
    have hw : (period : ℚ) * ((period : ℚ) + 1) / 2 ≠ 0 := by
      have : (1 : ℚ) ≤ period := by exact_mod_cast h1
      positivity
    rw [if_pos ⟨hi1, hi2⟩, hsum]
    simp only [Dbl.div, Dbl.ofInt, weightSum_eq period h1 hov, if_neg hw]

/-- C15, witness: `prices = [1,2,3,4,5]`, `period = 3`: `result = [nan, nan, 14/6, 20/6,
26/6]`. -/
theorem calculateWMA_spec_witness :
    (calculateWMA (Buf.ofList [1, 2, 3, 4, 5]) 5 3 junk).1 = 0 ∧
    (calculateWMA (Buf.ofList [1, 2, 3, 4, 5]) 5 3 junk).2 1 = nan ∧
    (calculateWMA (Buf.ofList [1, 2, 3, 4, 5]) 5 3 junk).2 2 = fin (14 / 6) ∧
    (calculateWMA (Buf.ofList [1, 2, 3, 4, 5]) 5 3 junk).2 4 = fin (26 / 6) := by
  have h := calculateWMA_spec (Buf.ofList [1, 2, 3, 4, 5]) examplePrices 5 3 junk
    (by decide) ofList_examplePrices (by decide) (by decide) (by decide)
  have e3 : Int.toNat 3 = 3 := rfl
  refine ⟨h.1, h.2.1 1 (by decide) (by decide), (h.2.2 2 (by decide) (by decide)).trans ?_,
    (h.2.2 4 (by decide) (by decide)).trans ?_⟩ <;>
  · congr 1
    norm_num [e3, Finset.sum_range_succ, examplePrices]

/-! ## VWAP -/

/-- With enough fuel, `log2Fuel` is the integer logarithm: `2^k ≤ n < 2^(k+1)`. -/
theorem log2Fuel_spec (fuel : Nat) : ∀ n : Nat, 1 ≤ n → n ≤ fuel →
    2 ^ log2Fuel fuel n ≤ n ∧ n < 2 ^ (log2Fuel fuel n + 1) := by
  induction fuel with
  | zero => intro n h1 h2; omega
  | succ fuel ih =>
    intro n h1 h2
    unfold log2Fuel
    by_cases hn : n < 2
    · rw [if_pos hn]
      constructor
      · simpa using h1
      · simpa using hn
    · rw [if_neg hn]
      have hdiv1 : 1 ≤ n / 2 := by omega
      have hdiv2 : n / 2 ≤ fuel := by omega
      obtain ⟨ha, hb⟩ := ih (n / 2) hdiv1 hdiv2
      rw [pow_succ, pow_succ]
      rw [pow_succ] at hb
      constructor <;> omega

/-- The integer logarithm `ilog2 n` of `n ≥ 1`: `2^(ilog2 n) ≤ n < 2^(ilog2 n + 1)`. -/
theorem ilog2_spec (n : Nat) (hn : 1 ≤ n) : 2 ^ ilog2 n ≤ n ∧ n < 2 ^ (ilog2 n + 1) :=
  log2Fuel_spec n n hn (le_refl n)

/-- The rational `pow2 e` is the power `2^e`. -/
theorem pow2_eq_zpow (e : Int) : pow2 e = (2 : ℚ) ^ e := by
  unfold pow2
  by_cases h : 0 ≤ e
  · rw [if_pos h]
    have he : e = ((e.toNat : Nat) : Int) := (Int.toNat_of_nonneg h).symm
    conv_rhs => rw [he]
    rw [zpow_natCast]
    push_cast
    rfl
  · rw [if_neg h]
    have he : e = -(((-e).toNat : Nat) : Int) := by
      rw [Int.toNat_of_nonneg (by omega)]; ring
    conv_rhs => rw [he]
    rw [zpow_neg, zpow_natCast]
    push_cast
    rw [one_div]

/-- The rational `pow2 e` is positive. -/
theorem pow2_pos (e : Int) : 0 < pow2 e := by
  rw [pow2_eq_zpow]
  positivity

/-- The magnitude of a rational is its absolute value. -/
theorem magnitude_eq_abs (q : ℚ) : magnitude q = |q| := by
  unfold magnitude
  by_cases h : q < 0
  · rw [if_pos h, abs_of_neg h]
  · rw [if_neg h, abs_of_nonneg (not_lt.mp h)]

/-- The integer logarithm of a positive rational: `2^(floorLog2 q) ≤ q < 2^(floorLog2 q + 1)`. -/
theorem floorLog2_spec (q : ℚ) (hq : 0 < q) :
    pow2 (floorLog2 q) ≤ q ∧ q < pow2 (floorLog2 q + 1) := by
  have hnum : 0 < q.num := Rat.num_pos.mpr hq
  have hn1 : 1 ≤ q.num.toNat := by omega
  have hd1 : 1 ≤ q.den := q.den_pos
  obtain ⟨na, nb⟩ := ilog2_spec q.num.toNat hn1
  obtain ⟨da, db⟩ := ilog2_spec q.den hd1
  have hqe : q = ((q.num.toNat : Nat) : ℚ) / ((q.den : Nat) : ℚ) := by
    have h1 : ((q.num.toNat : Nat) : ℚ) = ((q.num : Int) : ℚ) := by
      have : ((q.num.toNat : Nat) : Int) = q.num := Int.toNat_of_nonneg (le_of_lt hnum)
      exact_mod_cast this
    rw [h1]
    exact (Rat.num_div_den q).symm
  have hdpos : (0 : ℚ) < ((q.den : Nat) : ℚ) := by exact_mod_cast hd1
  have naq : ((2 : ℚ) ^ ilog2 q.num.toNat) ≤ ((q.num.toNat : Nat) : ℚ) := by exact_mod_cast na
  have nbq : ((q.num.toNat : Nat) : ℚ) < (2 : ℚ) ^ (ilog2 q.num.toNat + 1) := by
    exact_mod_cast nb
  have daq : ((2 : ℚ) ^ ilog2 q.den) ≤ ((q.den : Nat) : ℚ) := by exact_mod_cast da
  have dbq : ((q.den : Nat) : ℚ) < (2 : ℚ) ^ (ilog2 q.den + 1) := by exact_mod_cast db
  have h2 : (0 : ℚ) < 2 := by norm_num
  have h2ne : (2 : ℚ) ≠ 0 := by norm_num
  unfold floorLog2
  by_cases h : pow2 ((ilog2 q.num.toNat : Int) - (ilog2 q.den : Int)) ≤ q
  · rw [if_pos h]
    refine ⟨h, ?_⟩
    rw [pow2_eq_zpow]
    have e1 : (2 : ℚ) ^ ((ilog2 q.num.toNat : Int) - (ilog2 q.den : Int) + 1)
        = (2 : ℚ) ^ (ilog2 q.num.toNat + 1) / (2 : ℚ) ^ (ilog2 q.den) := by
      have : (ilog2 q.num.toNat : Int) - (ilog2 q.den : Int) + 1
          = ((ilog2 q.num.toNat + 1 : Nat) : Int) - ((ilog2 q.den : Nat) : Int) := by
        push_cast; ring
      rw [this, zpow_sub₀ h2ne, zpow_natCast, zpow_natCast]
    rw [e1]
    conv_lhs => rw [hqe]
    rw [div_lt_div_iff₀ hdpos (by positivity)]
    calc ((q.num.toNat : Nat) : ℚ) * (2 : ℚ) ^ ilog2 q.den
        < (2 : ℚ) ^ (ilog2 q.num.toNat + 1) * (2 : ℚ) ^ ilog2 q.den := by
          apply mul_lt_mul_of_pos_right nbq (by positivity)
      _ ≤ (2 : ℚ) ^ (ilog2 q.num.toNat + 1) * ((q.den : Nat) : ℚ) := by
          apply mul_le_mul_of_nonneg_left daq (by positivity)
  · rw [if_neg h]
    have hlt := not_le.mp h
    constructor
    · rw [pow2_eq_zpow]
      have e1 : (2 : ℚ) ^ ((ilog2 q.num.toNat : Int) - (ilog2 q.den : Int) - 1)
          = (2 : ℚ) ^ (ilog2 q.num.toNat) / (2 : ℚ) ^ (ilog2 q.den + 1) := by
        have : (ilog2 q.num.toNat : Int) - (ilog2 q.den : Int) - 1
            = ((ilog2 q.num.toNat : Nat) : Int) - ((ilog2 q.den + 1 : Nat) : Int) := by
          push_cast; ring
        rw [this, zpow_sub₀ h2ne, zpow_natCast, zpow_natCast]
      rw [e1]
      conv_rhs => rw [hqe]
      rw [div_le_div_iff₀ (by positivity) hdpos]
      calc (2 : ℚ) ^ ilog2 q.num.toNat * ((q.den : Nat) : ℚ)
          ≤ (2 : ℚ) ^ ilog2 q.num.toNat * (2 : ℚ) ^ (ilog2 q.den + 1) := by
            apply mul_le_mul_of_nonneg_left (le_of_lt dbq) (by positivity)
        _ ≤ ((q.num.toNat : Nat) : ℚ) * (2 : ℚ) ^ (ilog2 q.den + 1) := by
            apply mul_le_mul_of_nonneg_right naq (by positivity)
    · have : (ilog2 q.num.toNat : Int) - (ilog2 q.den : Int) - 1 + 1
          = (ilog2 q.num.toNat : Int) - (ilog2 q.den : Int) := by ring
      rw [this]
      exact hlt

/-- Rounding to the nearest integer: the result is within one half of the argument, and it
lies between the floor and the floor plus one. -/
theorem roundHalfEven_spec (m : ℚ) :
    |((roundHalfEven m : Int) : ℚ) - m| ≤ 1 / 2 ∧
    ⌊m⌋ ≤ roundHalfEven m ∧ roundHalfEven m ≤ ⌊m⌋ + 1 := by
  have hf : m.num / (m.den : Int) = ⌊m⌋ := (Rat.floor_def' m).symm
  have h1 : ((⌊m⌋ : Int) : ℚ) ≤ m := Int.floor_le m
  have h2 : m < ((⌊m⌋ : Int) : ℚ) + 1 := Int.lt_floor_add_one m
  unfold roundHalfEven
  simp only [hf]
  by_cases c1 : m - ((⌊m⌋ : Int) : ℚ) < 1 / 2
  · rw [if_pos c1]
    refine ⟨?_, le_refl _, by omega⟩
    rw [abs_le]; constructor <;> linarith
  · rw [if_neg c1]
    by_cases c2 : 1 / 2 < m - ((⌊m⌋ : Int) : ℚ)
    · rw [if_pos c2]
      refine ⟨?_, by omega, le_refl _⟩
      rw [abs_le]; push_cast; constructor <;> linarith
    · rw [if_neg c2]
      by_cases c3 : ⌊m⌋ % 2 = 0
      · rw [if_pos c3]
        refine ⟨?_, le_refl _, by omega⟩
        rw [abs_le]; constructor <;> linarith
      · rw [if_neg c3]
        refine ⟨?_, by omega, le_refl _⟩
        rw [abs_le]; push_cast; constructor <;> linarith

/-- An integer is its own rounding. -/
theorem roundHalfEven_intCast (r : Int) : roundHalfEven (r : ℚ) = r := by
  unfold roundHalfEven
  have hf : (r : ℚ).num / (((r : ℚ).den : Nat) : Int) = r := by
    rw [Rat.num_intCast, Rat.den_intCast]; simp
  simp only [hf, sub_self]
  rw [if_pos (by norm_num)]


/-- The powers `pow2` are monotone in the exponent. -/
theorem pow2_le_pow2 (a b : Int) (h : a ≤ b) : pow2 a ≤ pow2 b := by
  rw [pow2_eq_zpow, pow2_eq_zpow]
  exact zpow_le_zpow_right₀ (by norm_num) h

/-- The powers `pow2` add their exponents. -/
theorem pow2_add (a b : Int) : pow2 (a + b) = pow2 a * pow2 b := by
  rw [pow2_eq_zpow, pow2_eq_zpow, pow2_eq_zpow, zpow_add₀ (by norm_num)]

/-- Rounding to binary64 of a non-zero rational `q`, with `E` the exponent of the last
place (`⌊log₂ |q|⌋ - 52`, at least `-1074`): the result is `± r · 2^E` for an integer
significand `0 ≤ r ≤ 2^53`, has the sign of `q`, and is within half a unit in the last
place of `q`. -/
theorem round64_spec (q : ℚ) (hq : q ≠ 0) :
    ∃ r : Int, 0 ≤ r ∧ r ≤ 2 ^ 53 ∧
      round64 q = (if q < 0 then -1 else 1)
        * ((r : ℚ) * pow2 (max (floorLog2 (magnitude q) - 52) (-1074))) ∧
      |round64 q - q| ≤ pow2 (max (floorLog2 (magnitude q) - 52) (-1074)) / 2 := by
  have hm : 0 < magnitude q := by
    rw [magnitude_eq_abs]; exact abs_pos.mpr hq
  obtain ⟨_, hL⟩ := floorLog2_spec (magnitude q) hm
  generalize hE : max (floorLog2 (magnitude q) - 52) (-1074) = E
  have hEL : floorLog2 (magnitude q) + 1 ≤ E + 53 := by
    have := le_max_left (floorLog2 (magnitude q) - 52) (-1074)
    rw [hE] at this
    omega
  have hP : 0 < pow2 E := pow2_pos E
  have h53 : pow2 53 = ((2 ^ 53 : Int) : ℚ) := by
    rw [pow2_eq_zpow]; norm_num
  have hlt : magnitude q / pow2 E < ((2 ^ 53 : Int) : ℚ) := by
    rw [div_lt_iff₀ hP, ← h53, mul_comm, ← pow2_add]
    exact lt_of_lt_of_le hL (pow2_le_pow2 _ _ hEL)
  have hnn : 0 ≤ magnitude q / pow2 E := le_of_lt (div_pos hm hP)
  obtain ⟨herr, hlo, hhi⟩ := roundHalfEven_spec (magnitude q / pow2 E)
  have hfl0 : 0 ≤ ⌊magnitude q / pow2 E⌋ := Int.floor_nonneg.mpr hnn
  have hfl1 : ⌊magnitude q / pow2 E⌋ < 2 ^ 53 := Int.floor_lt.mpr hlt
  have hbound : |((roundHalfEven (magnitude q / pow2 E) : Int) : ℚ) * pow2 E - magnitude q|
      ≤ pow2 E / 2 := by
    have e : ((roundHalfEven (magnitude q / pow2 E) : Int) : ℚ) * pow2 E - magnitude q
        = (((roundHalfEven (magnitude q / pow2 E) : Int) : ℚ) - magnitude q / pow2 E)
          * pow2 E := by
      field_simp
    rw [e, abs_mul, abs_of_pos hP]
    calc |((roundHalfEven (magnitude q / pow2 E) : Int) : ℚ) - magnitude q / pow2 E| * pow2 E
        ≤ 1 / 2 * pow2 E := mul_le_mul_of_nonneg_right herr (le_of_lt hP)
      _ = pow2 E / 2 := by ring
  refine ⟨roundHalfEven (magnitude q / pow2 E), by omega, by omega, ?_, ?_⟩
  · unfold round64
    rw [if_neg hq]
    simp only [hE]
    by_cases hneg : q < 0
    · rw [if_pos hneg, if_pos hneg]; ring
    · rw [if_neg hneg, if_neg hneg]; ring
  · unfold round64
    rw [if_neg hq]
    simp only [hE]
    by_cases hneg : q < 0
    · rw [if_pos hneg]
      have hq2 : magnitude q = -q := by unfold magnitude; rw [if_pos hneg]
      have e : -(((roundHalfEven (magnitude q / pow2 E) : Int) : ℚ) * pow2 E) - q
          = -(((roundHalfEven (magnitude q / pow2 E) : Int) : ℚ) * pow2 E - magnitude q) := by
        rw [hq2]; ring
      rw [e, abs_neg]
      exact hbound
    · rw [if_neg hneg]
      have hq2 : magnitude q = q := by unfold magnitude; rw [if_neg hneg]
      rw [hq2] at hbound ⊢
      exact hbound

/-- A binary64 number is its own rounding: `round64 (r · 2^e) = r · 2^e` for an integer
significand `|r| < 2^53` and an exponent `e ≥ -1074`. -/
theorem round64_representable (r e : Int) (hr : |r| < 2 ^ 53) (he : -1074 ≤ e) :
    round64 ((r : ℚ) * pow2 e) = (r : ℚ) * pow2 e := by
  by_cases hr0 : r = 0
  · rw [hr0]; unfold round64; simp
  have hPe : 0 < pow2 e := pow2_pos e
  have hq : (r : ℚ) * pow2 e ≠ 0 := by
    apply mul_ne_zero
    · exact_mod_cast hr0
    · exact ne_of_gt hPe
  have hmag : magnitude ((r : ℚ) * pow2 e) = ((|r| : Int) : ℚ) * pow2 e := by
    rw [magnitude_eq_abs, abs_mul, abs_of_pos hPe]
    push_cast
    rfl
  have hm : 0 < magnitude ((r : ℚ) * pow2 e) := by
    rw [magnitude_eq_abs]; exact abs_pos.mpr hq
  obtain ⟨hL, _⟩ := floorLog2_spec (magnitude ((r : ℚ) * pow2 e)) hm
  -- the exponent of the last place is at most `e`
  have hLe : floorLog2 (magnitude ((r : ℚ) * pow2 e)) < e + 53 := by
    by_contra hcon
    have h1 : pow2 (e + 53) ≤ pow2 (floorLog2 (magnitude ((r : ℚ) * pow2 e))) :=
      pow2_le_pow2 _ _ (by omega)
    have h2 : magnitude ((r : ℚ) * pow2 e) < pow2 (e + 53) := by
      rw [hmag, pow2_add, mul_comm (pow2 e)]
      apply mul_lt_mul_of_pos_right _ hPe
      have : pow2 53 = ((2 ^ 53 : Int) : ℚ) := by rw [pow2_eq_zpow]; norm_num
      rw [this]
      exact_mod_cast hr
    linarith
  generalize hE : max (floorLog2 (magnitude ((r : ℚ) * pow2 e)) - 52) (-1074) = E
  have hEe : E ≤ e := by
    rw [← hE]; exact max_le (by omega) he
  have hP : 0 < pow2 E := pow2_pos E
  obtain ⟨k, hk⟩ : ∃ k : Nat, e = E + k := ⟨(e - E).toNat, by omega⟩
  have hquot : magnitude ((r : ℚ) * pow2 e) / pow2 E = (((|r| * 2 ^ k : Int)) : ℚ) := by
    rw [hmag, hk, pow2_add]
    have : pow2 (k : Int) = ((2 ^ k : Int) : ℚ) := by
      rw [pow2_eq_zpow, zpow_natCast]; push_cast; rfl
    rw [this]
    push_cast
    field_simp
    ring
  have hround : roundHalfEven (magnitude ((r : ℚ) * pow2 e) / pow2 E) = |r| * 2 ^ k := by
    rw [hquot]; exact roundHalfEven_intCast _
  have hback : (((|r| * 2 ^ k : Int)) : ℚ) * pow2 E = magnitude ((r : ℚ) * pow2 e) := by
    rw [← hquot]; field_simp
  unfold round64
  rw [if_neg hq]
  simp only [hE, hround]
  rw [hback]
  by_cases hneg : (r : ℚ) * pow2 e < 0
  · rw [if_pos hneg]
    unfold magnitude; rw [if_pos hneg]; ring
  · rw [if_neg hneg]
    unfold magnitude; rw [if_neg hneg]

/-- Sample roundings: small integers are exact; `1/10` and `1/3` round to the familiar
binary64 values; `2^53 + 1` is a tie and goes to the even significand, `2^53 + 3` goes up;
`10^16 + 1` and `10^9 + 10^-8` lose the small term; the subnormal spacing is `2^-1074`;
the largest finite value is `2^1024 - 2^971`. -/
theorem round64_examples :
    round64 3 = 3 ∧
    round64 10000000000000000 = 10000000000000000 ∧
    round64 (1 / 10) = 3602879701896397 / 36028797018963968 ∧
    round64 (1 / 3) = 6004799503160661 / 18014398509481984 ∧
    round64 (pow2 53 + 1) = pow2 53 ∧
    round64 (pow2 53 + 3) = pow2 53 + 4 ∧
    round64 (10000000000000000 + 1) = 10000000000000000 ∧
    round64 (-(10000000000000000 + 1)) = -10000000000000000 ∧
    round64 (1000000000 + 1 / 100000000) = 1000000000 ∧
    round64 (pow2 (-1075)) = 0 ∧
    round64 (3 * pow2 (-1075)) = 2 * pow2 (-1074) ∧
    round64 (pow2 1024 - pow2 971) = pow2 1024 - pow2 971 ∧
    round64 (pow2 1024 - pow2 970) = pow2 1024 ∧
    Dbl.addR (fin 10) (fin 20) = fin 30 ∧
    Dbl.subR (fin 30) (fin 40) = fin (-10) ∧
    Dbl.addR (fin 10000000000000000) (fin 1) = fin 10000000000000000 ∧
    Dbl.addR (fin (pow2 1023)) (fin (pow2 1023)) = nan := by
  refine ⟨by decide!, by decide!, by decide!, by decide!, by decide!, by decide!, by decide!,
    by decide!, by decide!, by decide!, by decide!, by decide!, by decide!, by decide!,
    by decide!, by decide!, by decide!⟩

/-! ## OBV -/

/-- One iteration of the loop of `calculateOBV` (lines 426-435) on finite close and volume
values. -/
theorem obv_step (close volume : Buf) (c v : Int → ℚ) (r : Buf) (i : Int)
    (hci : close i = fin (c i)) (hcp : close (i - 1) = fin (c (i - 1)))
    (hvi : volume i = fin (v i)) :
    (if (close i).gt (close (i - 1)) = true then r.write i ((r (i - 1)).addR (volume i))
      else if (close i).lt (close (i - 1)) = true then r.write i ((r (i - 1)).subR (volume i))
      else r.write i (r (i - 1)))
      = r.write i (if c i > c (i - 1) then (r (i - 1)).addR (fin (v i))
          else if c i < c (i - 1) then (r (i - 1)).subR (fin (v i)) else r (i - 1)) := by
  rw [hci, hcp, hvi]
  simp only [Dbl.gt, Dbl.lt, decide_eq_true_eq, gt_iff_lt]
  by_cases h1 : c (i - 1) < c i
  · rw [if_pos h1, if_pos h1]
  · rw [if_neg h1, if_neg h1]
    by_cases h2 : c i < c (i - 1)
    · rw [if_pos h2, if_pos h2]
    · rw [if_neg h2, if_neg h2]

/-- The loop of `calculateOBV` on finite close/volume of length `N ≥ 1`: `result[0]` is
`volume[0]` and every later entry is obtained from its predecessor by the rounded step. -/
theorem calculateOBV_run (close volume : Buf) (c v : Int → ℚ) (N : Nat) (result : Buf)
    (hc : ∀ j : Int, 0 ≤ j → j < N → close j = fin (c j))
    (hv : ∀ j : Int, 0 ≤ j → j < N → volume j = fin (v j))
    (hN : 1 ≤ N) :
    (calculateOBV close volume N result).1 = 0 ∧
    (calculateOBV close volume N result).2 0 = fin (v 0) ∧
    (∀ i : Int, 1 ≤ i → i < N →
      (calculateOBV close volume N result).2 i
        = (if c i > c (i - 1)
            then ((calculateOBV close volume N result).2 (i - 1)).addR (fin (v i))
          else if c i < c (i - 1)
            then ((calculateOBV close volume N result).2 (i - 1)).subR (fin (v i))
          else (calculateOBV close volume N result).2 (i - 1))) := by
  have hne : ¬ (N = 0) := by omega
  unfold calculateOBV
  rw [if_neg hne]
  have key := forInt_inv
    (fun (n : Int) (t : Buf) => t 0 = fin (v 0) ∧
      (∀ k, 1 ≤ k → k < n →
        t k = (if c k > c (k - 1) then (t (k - 1)).addR (fin (v k))
          else if c k < c (k - 1) then (t (k - 1)).subR (fin (v k)) else t (k - 1))))
    1 N
    (fun i r =>
      if (close i).gt (close (i - 1)) = true then r.write i ((r (i - 1)).addR (volume i))
      else if (close i).lt (close (i - 1)) = true then r.write i ((r (i - 1)).subR (volume i))
      else r.write i (r (i - 1)))
    (result.write 0 (volume 0)) (by omega)
    ⟨by rw [Buf.write_same, hv 0 (le_refl _) (by omega)], fun k h1 h2 => by omega⟩
    (by
      rintro i t hi1 hi2 ⟨h0, hstep⟩
      simp only []
      rw [obv_step close volume c v t i (hc i (by omega) hi2)
        (hc (i - 1) (by omega) (by omega)) (hv i (by omega) hi2)]
      refine ⟨?_, ?_⟩
      · rw [Buf.write_other _ _ _ _ (by omega)]
        exact h0
      · intro k hk1 hk2
        rw [Buf.write_other _ _ (k - 1) _ (by omega)]
        by_cases hki : k = i
        · rw [hki, Buf.write_same]
        · rw [Buf.write_other _ _ _ _ hki]
          exact hstep k hk1 (by omega))
  obtain ⟨k0, kstep⟩ := key
  exact ⟨rfl, k0, kstep⟩

/-- C17. `calculateOBV` on finite close/volume of length `N ≥ 1` succeeds and
`result[0] = volume[0]`.  For `1 ≤ i < N` with `result[i-1]` finite, `result[i]` is the
binary64 rounding of `result[i-1] + volume[i]` if `close[i] > close[i-1]`, of
`result[i-1] - volume[i]` if `close[i] < close[i-1]`, and `result[i-1]` itself if they are
equal.  So `result[i] - result[i-1]` is `+volume[i]`, `-volume[i]` or `0` whenever that sum
or difference is representable, and `result[i]` is finite whenever the rounded value is in
the binary64 range. -/
theorem calculateOBV_rounded (close volume : Buf) (c v : Int → ℚ) (N : Nat) (result : Buf)
    (hc : ∀ j : Int, 0 ≤ j → j < N → close j = fin (c j))
    (hv : ∀ j : Int, 0 ≤ j → j < N → volume j = fin (v j))
    (hN : 1 ≤ N) :
    (calculateOBV close volume N result).1 = 0 ∧
    (calculateOBV close volume N result).2 0 = fin (v 0) ∧
    (∀ i : Int, 1 ≤ i → i < N → ∀ a : ℚ,
      (calculateOBV close volume N result).2 (i - 1) = fin a →
      (calculateOBV close volume N result).2 i
        = (if c i > c (i - 1) then Dbl.ofExact (a + v i)
          else if c i < c (i - 1) then Dbl.ofExact (a - v i) else fin a)) ∧
    (∀ i : Int, 1 ≤ i → i < N → ∀ a : ℚ,
      (calculateOBV close volume N result).2 (i - 1) = fin a →
      (c i > c (i - 1) → Dbl.ofExact (a + v i) = fin (a + v i)) →
      (c i < c (i - 1) → Dbl.ofExact (a - v i) = fin (a - v i)) →
      ∃ b : ℚ, (calculateOBV close volume N result).2 i = fin b ∧
        b - a = (if c i > c (i - 1) then v i else if c i < c (i - 1) then -v i else 0)) ∧
    (∀ i : Int, 1 ≤ i → i < N → ∀ a : ℚ,
      (calculateOBV close volume N result).2 (i - 1) = fin a →
      magnitude (round64 (a + obvStepSpec c v i)) < pow2 1024 →
      ∃ b : ℚ, (calculateOBV close volume N result).2 i = fin b) := by
  obtain ⟨h1, h0, hrec⟩ := calculateOBV_run close volume c v N result hc hv hN
  have hA : ∀ i : Int, 1 ≤ i → i < N → ∀ a : ℚ,
      (calculateOBV close volume N result).2 (i - 1) = fin a →
      (calculateOBV close volume N result).2 i
        = (if c i > c (i - 1) then Dbl.ofExact (a + v i)
          else if c i < c (i - 1) then Dbl.ofExact (a - v i) else fin a) := by
    intro i hi1 hi2 a ha
    rw [hrec i hi1 hi2, ha]
    rfl
  refine ⟨h1, h0, hA, ?_, ?_⟩
  · intro i hi1 hi2 a ha hup hdown
    rw [hA i hi1 hi2 a ha]
    by_cases hgt : c i > c (i - 1)
    · rw [if_pos hgt, if_pos hgt, hup hgt]
      exact ⟨_, rfl, by ring⟩
    · rw [if_neg hgt, if_neg hgt]
      by_cases hlt : c i < c (i - 1)
      · rw [if_pos hlt, if_pos hlt, hdown hlt]
        exact ⟨_, rfl, by ring⟩
      · rw [if_neg hlt, if_neg hlt]
        exact ⟨_, rfl, by ring⟩
  · intro i hi1 hi2 a ha hrange
    rw [hA i hi1 hi2 a ha]
    unfold obvStepSpec at hrange
    by_cases hgt : c i > c (i - 1)
    · rw [if_pos hgt] at hrange ⊢
      exact ⟨_, if_pos hrange⟩
    · rw [if_neg hgt] at hrange ⊢
      by_cases hlt : c i < c (i - 1)
      · rw [if_pos hlt] at hrange ⊢
        rw [← sub_eq_add_neg] at hrange
        exact ⟨_, if_pos hrange⟩
      · rw [if_neg hlt]
        exact ⟨_, rfl⟩

/-- C17, witness: close `[1,2,2,1]`, volume `[10,20,30,40]`: `result = [10, 30, 30, -10]`,
every sum and difference being representable. -/
theorem calculateOBV_rounded_witness :
    (calculateOBV (Buf.ofList [1, 2, 2, 1]) (Buf.ofList [10, 20, 30, 40]) 4 junk).1 = 0 ∧
    (calculateOBV (Buf.ofList [1, 2, 2, 1]) (Buf.ofList [10, 20, 30, 40]) 4 junk).2 0
      = fin (seriesOf [10, 20, 30, 40] 0) ∧
    (calculateOBV (Buf.ofList [1, 2, 2, 1]) (Buf.ofList [10, 20, 30, 40]) 4 junk).2 0 = fin 10 ∧
    (calculateOBV (Buf.ofList [1, 2, 2, 1]) (Buf.ofList [10, 20, 30, 40]) 4 junk).2 1 = fin 30 ∧
    (calculateOBV (Buf.ofList [1, 2, 2, 1]) (Buf.ofList [10, 20, 30, 40]) 4 junk).2 2 = fin 30 ∧
    (calculateOBV (Buf.ofList [1, 2, 2, 1]) (Buf.ofList [10, 20, 30, 40]) 4 junk).2 3
      = fin (-10) ∧
    (∃ b : ℚ,
      (calculateOBV (Buf.ofList [1, 2, 2, 1]) (Buf.ofList [10, 20, 30, 40]) 4 junk).2 1 = fin b ∧
      b - 10 = 20) := by
  have h := calculateOBV_rounded (Buf.ofList [1, 2, 2, 1]) (Buf.ofList [10, 20, 30, 40])
    (seriesOf [1, 2, 2, 1]) (seriesOf [10, 20, 30, 40]) 4 junk
    (fun j h0 h1 => ofList_seriesOf [1, 2, 2, 1] j h0 h1)
    (fun j h0 h1 => ofList_seriesOf [10, 20, 30, 40] j h0 h1) (by decide)
  have h10 : (calculateOBV (Buf.ofList [1, 2, 2, 1]) (Buf.ofList [10, 20, 30, 40]) 4 junk).2
      ((1 : Int) - 1) = fin 10 := by decide!
  obtain ⟨b, hb, hd⟩ := h.2.2.2.1 1 (by decide) (by decide) 10 h10
    (fun _ => by decide!) (fun _ => by decide!)
  have hstep : (if seriesOf [1, 2, 2, 1] 1 > seriesOf [1, 2, 2, 1] (1 - 1)
      then seriesOf [10, 20, 30, 40] 1
      else if seriesOf [1, 2, 2, 1] 1 < seriesOf [1, 2, 2, 1] (1 - 1)
        then -seriesOf [10, 20, 30, 40] 1 else 0) = 20 := by decide!
  rw [hstep] at hd
  exact ⟨h.1, h.2.1, by decide!, by decide!, by decide!, by decide!, b, hb, hd⟩

/-- C17, counterexample: close `[1, 2]`, volume `[10^16, 1]`, all binary64 numbers.  The
call succeeds and `close[1] > close[0]`, but `10^16 + 1` is not a binary64 number: the sum of line 428 rounds
to `10^16`, so `result[1] = result[0]` and `result[1] - result[0]` is `0`, not `volume[1] = 1`. -/
theorem calculateOBV_increment_counterexample :
    (calculateOBV (Buf.ofList [1, 2]) (Buf.ofList [10000000000000000, 1]) 2 junk).1 = 0 ∧
    ((Buf.ofList [1, 2]) 1).gt ((Buf.ofList [1, 2]) 0) = true ∧
    (Buf.ofList [10000000000000000, 1]) 1 = fin 1 ∧
    round64 10000000000000000 = 10000000000000000 ∧
    (calculateOBV (Buf.ofList [1, 2]) (Buf.ofList [10000000000000000, 1]) 2 junk).2 0
      = fin 10000000000000000 ∧
    (calculateOBV (Buf.ofList [1, 2]) (Buf.ofList [10000000000000000, 1]) 2 junk).2 1
      = fin 10000000000000000 ∧
    ¬ (∃ a b : ℚ,
      (calculateOBV (Buf.ofList [1, 2]) (Buf.ofList [10000000000000000, 1]) 2 junk).2 0 = fin a ∧
      (calculateOBV (Buf.ofList [1, 2]) (Buf.ofList [10000000000000000, 1]) 2 junk).2 1 = fin b ∧
      b - a = 1) := by
  have e0 : (calculateOBV (Buf.ofList [1, 2]) (Buf.ofList [10000000000000000, 1]) 2 junk).2 0
      = fin 10000000000000000 := by decide!
  have e1 : (calculateOBV (Buf.ofList [1, 2]) (Buf.ofList [10000000000000000, 1]) 2 junk).2 1
      = fin 10000000000000000 := by decide!
  refine ⟨by decide!, by decide!, by decide!, by decide!, e0, e1, ?_⟩
  rintro ⟨a, b, ha, hb, hab⟩
  rw [e0] at ha
  rw [e1] at hb
  have ha2 : (10000000000000000 : ℚ) = a := Dbl.fin.inj ha
  have hb2 : (10000000000000000 : ℚ) = b := Dbl.fin.inj hb
  rw [← ha2, ← hb2] at hab
  norm_num at hab

/-! ## Bollinger Bands -/

/-- The accumulation loop of `calculateVariance` (lines 14-17) over finite values. -/
theorem forInt_sqDev (values : Buf) (p : Int → ℚ) (m : ℚ) (n : Nat)
    (hp : ∀ t : Nat, t < n → values t = fin (p t)) :
    forInt 0 (n : Int)
      (fun i sum =>
        let diff := (values i).sub (fin m)
        sum.add (diff.mul diff)) (fin 0)
      = fin (∑ t in Finset.range n, (p t - m) * (p t - m)) := by
  induction n with
  | zero => simp [forInt_of_le]
  | succ n ih =>
    have hs : ((n + 1 : Nat) : Int) = (n : Int) + 1 := by push_cast; ring
    rw [hs, forInt_succ _ _ _ _ (by omega), ih (fun t ht => hp t (by omega)),
      hp n (by omega), Finset.sum_range_succ]
    rfl

/-- The function `calculateVariance` on a non-empty finite slice: the mean squared
deviation. -/
theorem calculateVariance_fin (values : Buf) (p : Int → ℚ) (m : ℚ) (n : Nat) (hn : 1 ≤ n)
    (hp : ∀ t : Nat, t < n → values t = fin (p t)) :
    calculateVariance values n (fin m)
      = fin ((∑ t in Finset.range n, (p t - m) * (p t - m)) / (n : ℚ)) := by
  have hq : (n : ℚ) ≠ 0 := by
    have : (0 : ℚ) < n := by exact_mod_cast hn
    exact ne_of_gt this
  unfold calculateVariance
  rw [if_neg (by omega)]
  simp only []
  rw [forInt_sqDev values p m n hp]
  simp only [Dbl.div, Dbl.ofNat, if_neg hq]

theorem castSize_of_pos (period : Int) (h1 : 0 ≤ period) (h2 : period < 2 ^ 31) :
    castSize period = period.toNat := by
  unfold castSize
  rw [Int.emod_eq_of_lt h1 (by omega)]

/-- A call of `calculateBollingerBands` that passes the validation: the three outputs in
terms of the SMA of the prices, for an arbitrary `sqrt`. -/
theorem calculateBollingerBands_run (sqrt : Dbl → Dbl) (prices : Buf) (N : Nat)
    (period : Int) (kk : ℚ) (upper middle lower : Buf) (hN : N < 2 ^ 31)
    (h1 : 1 ≤ period) (h2 : period ≤ N) (hk : 0 < kk) :
    calculateBollingerBands sqrt prices N period (fin kk) upper middle lower =
      (0,
       (fun i => if 0 ≤ i ∧ i < period - 1 then nan
          else if period - 1 ≤ i ∧ i < N then
            ((calculateSMA prices N period middle).2 i).add ((fin kk).mul
              (calculateStdDev sqrt (prices.shift (i - period + 1)) period.toNat
                ((calculateSMA prices N period middle).2 i)))
          else upper i),
       (calculateSMA prices N period middle).2,
       (fun i => if 0 ≤ i ∧ i < period - 1 then nan
          else if period - 1 ≤ i ∧ i < N then
            ((calculateSMA prices N period middle).2 i).sub ((fin kk).mul
              (calculateStdDev sqrt (prices.shift (i - period + 1)) period.toNat
                ((calculateSMA prices N period middle).2 i)))
          else lower i)) := by
  have hc : castInt N = (N : Int) := castInt_of_lt N hN
  have hle : ¬ ((fin kk).le (fin 0) = true) := by
    simp only [Dbl.le, decide_eq_true_eq, not_le]
    exact hk
  have hv : ¬ (period ≤ 0 ∨ period > (N : Int) ∨ (fin kk).le (fin 0) = true) := by
    intro h
    rcases h with h | h | h
    · omega
    · omega
    · exact hle h
  have hm : min (period - 1) (N : Int) = period - 1 := min_eq_left (by omega)
  have hst : (calculateSMA prices N period middle).1 = 0 := by
    rw [(movingAverage_status prices N period middle).1, hc, if_neg (by omega)]
  unfold calculateBollingerBands
  rw [hc, if_neg hv, hm, castSize_of_pos period (by omega) (by omega)]
  simp only [hst, ne_eq, not_true_eq_false, if_false, forInt_fill2]
  refine congrArg _ (Prod.ext ?_ (Prod.ext rfl ?_))
  · funext i
    simp only []
    rw [forInt_fill 0 (period - 1) (fun _ => nan),
      forInt_fill (period - 1) N (fun i => ((calculateSMA prices N period middle).2 i).add
        ((fin kk).mul (calculateStdDev sqrt (prices.shift (i - period + 1)) period.toNat
          ((calculateSMA prices N period middle).2 i))))]
  · funext i
    simp only []
    rw [forInt_fill 0 (period - 1) (fun _ => nan),
      forInt_fill (period - 1) N (fun i => ((calculateSMA prices N period middle).2 i).sub
        ((fin kk).mul (calculateStdDev sqrt (prices.shift (i - period + 1)) period.toNat
          ((calculateSMA prices N period middle).2 i))))]

/-- C14. `calculateBollingerBands` on a finite price series of length `N` (representable
as `int`) with `1 ≤ period ≤ N` and multiplier `k > 0` succeeds, for every `sqrt` that maps
a non-negative finite `q` to a non-negative finite `root q`; `middle` is the `calculateSMA`
output; `upper[i]`, `lower[i]` are `nan` for `i < period-1`; and for `period-1 ≤ i < N`,
with `s = root` of the mean of `(prices[j]-middle[i])²` over `[i-period+1, i]`,
`upper[i] = middle[i] + k·s`, `lower[i] = middle[i] - k·s` and
`lower[i] ≤ middle[i] ≤ upper[i]`. -/
theorem calculateBollingerBands_spec (sqrt : Dbl → Dbl) (root : ℚ → ℚ) (prices : Buf)
    (p : Int → ℚ) (N : Nat) (period : Int) (kk : ℚ) (upper middle lower : Buf)
    (hN : N < 2 ^ 31) (hfin : ∀ j : Int, 0 ≤ j → j < N → prices j = fin (p j))
    (h1 : 1 ≤ period) (h2 : period ≤ N) (hk : 0 < kk)
    (hsqrt : ∀ q : ℚ, 0 ≤ q → sqrt (fin q) = fin (root q) ∧ 0 ≤ root q) :
    (calculateBollingerBands sqrt prices N period (fin kk) upper middle lower).1 = 0 ∧
    (calculateBollingerBands sqrt prices N period (fin kk) upper middle lower).2.2.1
      = (calculateSMA prices N period middle).2 ∧
    (∀ i : Int, 0 ≤ i → i < period - 1 →
      (calculateBollingerBands sqrt prices N period (fin kk) upper middle lower).2.1 i = nan ∧
      (calculateBollingerBands sqrt prices N period (fin kk) upper middle lower).2.2.2 i
        = nan) ∧
    (∀ i : Int, period - 1 ≤ i → i < N → ∃ m s : ℚ,
      m = (∑ t in Finset.range period.toNat, p (i - period + 1 + t)) / (period : ℚ) ∧
      s = root ((∑ t in Finset.range period.toNat, (p (i - period + 1 + t) - m) ^ 2)
        / (period : ℚ)) ∧
      (calculateBollingerBands sqrt prices N period (fin kk) upper middle lower).2.2.1 i
        = fin m ∧
      (calculateBollingerBands sqrt prices N period (fin kk) upper middle lower).2.1 i
        = fin (m + kk * s) ∧
      (calculateBollingerBands sqrt prices N period (fin kk) upper middle lower).2.2.2 i
        = fin (m - kk * s) ∧
      m - kk * s ≤ m ∧ m ≤ m + kk * s) := by
  rw [calculateBollingerBands_run sqrt prices N period kk upper middle lower hN h1 h2 hk]
  refine ⟨rfl, rfl, ?_, ?_⟩
  · intro i hi1 hi2
    simp only []
    constructor <;> rw [if_pos ⟨hi1, hi2⟩]
  · intro i hi1 hi2
    have hmid : (calculateSMA prices N period middle).2 i
        = fin ((∑ t in Finset.range period.toNat, p (i - period + 1 + t)) / (period : ℚ)) := by
      rw [calculateSMA_run prices N period middle hN h1 h2]
      simp only []
      rw [if_pos ⟨hi1, hi2⟩, windowSum_fin prices p N period hfin h1 i hi1 hi2,
        Dbl.div_ofInt_pos _ _ h1]
    have hcast : ((period.toNat : Nat) : ℚ) = (period : ℚ) := by
      have : ((period.toNat : Nat) : Int) = period := by omega
      exact_mod_cast this
    have hvar := calculateVariance_fin (prices.shift (i - period + 1))
      (fun t => p (i - period + 1 + t))
      ((∑ t in Finset.range period.toNat, p (i - period + 1 + t)) / (period : ℚ))
      period.toNat (by omega)
      (fun t ht => hfin _ (by omega) (by omega))
    rw [hcast] at hvar
    have hnn : 0 ≤ (∑ t in Finset.range period.toNat,
        (p (i - period + 1 + t)
          - (∑ t in Finset.range period.toNat, p (i - period + 1 + t)) / (period : ℚ)) ^ 2)
        / (period : ℚ) := by
      have hp : (0 : ℚ) < period := by exact_mod_cast (by omega : (0 : Int) < period)
      exact div_nonneg (Finset.sum_nonneg (fun t _ => sq_nonneg _)) (le_of_lt hp)
    obtain ⟨hs, hs0⟩ := hsqrt _ hnn
    refine ⟨_, _, rfl, rfl, ?_, ?_, ?_, ?_, ?_⟩
    · simp only []
      exact hmid
    · simp only []
      rw [if_neg (by omega), if_pos ⟨hi1, hi2⟩, hmid]
      unfold calculateStdDev
      rw [hvar]
      simp only [← sq]
      rw [hs]
      rfl
    · simp only []
      rw [if_neg (by omega), if_pos ⟨hi1, hi2⟩, hmid]
      unfold calculateStdDev
      rw [hvar]
      simp only [← sq]
      rw [hs]
      rfl
    · have := mul_nonneg (le_of_lt hk) hs0
      linarith
    · have := mul_nonneg (le_of_lt hk) hs0
      linarith

/-- C14, witness: `prices = [1,3]`, `period = 2`, multiplier `2`, with a `sqrt` that is
exact at the variance `1` met here: `middle[1] = 2`, `upper[1] = 4`, `lower[1] = 0`, and
`upper[0]`, `lower[0]` are `nan`. -/
theorem calculateBollingerBands_spec_witness :
    (calculateBollingerBands exampleSqrt (Buf.ofList [1, 3]) 2 2 (fin 2) junk junk junk).1
      = 0 ∧
    (calculateBollingerBands exampleSqrt (Buf.ofList [1, 3]) 2 2 (fin 2) junk junk junk).2.1 0
      = nan ∧
    (calculateBollingerBands exampleSqrt (Buf.ofList [1, 3]) 2 2 (fin 2) junk junk junk).2.2.2 0
      = nan ∧
    (calculateBollingerBands exampleSqrt (Buf.ofList [1, 3]) 2 2 (fin 2) junk junk junk).2.2.1 1
      = fin 2 ∧
    (calculateBollingerBands exampleSqrt (Buf.ofList [1, 3]) 2 2 (fin 2) junk junk junk).2.1 1
      = fin 4 ∧
    (calculateBollingerBands exampleSqrt (Buf.ofList [1, 3]) 2 2 (fin 2) junk junk junk).2.2.2 1
      = fin 0 := by
  have hroot : ∀ q : ℚ, 0 ≤ q → exampleSqrt (fin q) = fin (exampleRoot q) ∧
      0 ≤ exampleRoot q := by
    intro q _
    refine ⟨rfl, ?_⟩
    unfold exampleRoot
    split
    · norm_num
    · split <;> norm_num
  have h := calculateBollingerBands_spec exampleSqrt exampleRoot (Buf.ofList [1, 3])
    (seriesOf [1, 3]) 2 2 2 junk junk junk (by decide)
    (fun j h0 h1 => ofList_seriesOf [1, 3] j h0 h1) (by decide) (by decide) (by norm_num) hroot
  exact ⟨h.1, (h.2.2.1 0 (by decide) (by decide)).1, (h.2.2.1 0 (by decide) (by decide)).2,
    by decide!, by decide!, by decide!⟩

/-! ## Causality -/

/-- Two loop bodies that agree on `[lo, hi)` give the same loop. -/
theorem forInt_congr {σ : Type} (lo hi : Int) (body body' : Int → σ → σ) (s : σ)
    (h : ∀ i, lo ≤ i → i < hi → body i = body' i) :
    forInt lo hi body s = forInt lo hi body' s := by
  by_cases hle : lo ≤ hi
  · obtain ⟨n, rfl⟩ : ∃ n : Nat, hi = lo + n := ⟨(hi - lo).toNat, by omega⟩
    clear hle
    induction n with
    | zero => simp [forInt_of_le]
    | succ n ih =>
      have hs : lo + ((n + 1 : Nat) : Int) = (lo + n) + 1 := by push_cast; ring
      rw [hs, forInt_succ _ _ _ _ (by omega), forInt_succ _ _ _ _ (by omega),
        ih (fun i h1 h2 => h i h1 (by push_cast; omega)), h (lo + n) (by omega)
          (by push_cast; omega)]
  · rw [forInt_of_le _ _ _ _ (by omega), forInt_of_le _ _ _ _ (by omega)]

/-- The gain stored at line 179 is a non-negative finite number, whatever the prices. -/
theorem gain_val (prices : Buf) (i : Int) :
    (if ((prices i).sub (prices (i - 1))).gt (fin 0) = true
      then (prices i).sub (prices (i - 1)) else fin 0)
      = fin (Dbl.val (if ((prices i).sub (prices (i - 1))).gt (fin 0) = true
          then (prices i).sub (prices (i - 1)) else fin 0)) ∧
    0 ≤ Dbl.val (if ((prices i).sub (prices (i - 1))).gt (fin 0) = true
          then (prices i).sub (prices (i - 1)) else fin 0) := by
  cases h : (prices i).sub (prices (i - 1)) with
  | nan => simp [Dbl.gt, Dbl.val]
  | fin q =>
    simp only [Dbl.gt, decide_eq_true_eq]
    split
    · rename_i hq; exact ⟨rfl, le_of_lt hq⟩
    · exact ⟨rfl, le_refl _⟩

/-- The loss stored at line 180 is a non-negative finite number, whatever the prices. -/
theorem loss_val (prices : Buf) (i : Int) :
    (if ((prices i).sub (prices (i - 1))).lt (fin 0) = true
      then ((prices i).sub (prices (i - 1))).neg else fin 0)
      = fin (Dbl.val (if ((prices i).sub (prices (i - 1))).lt (fin 0) = true
          then ((prices i).sub (prices (i - 1))).neg else fin 0)) ∧
    0 ≤ Dbl.val (if ((prices i).sub (prices (i - 1))).lt (fin 0) = true
          then ((prices i).sub (prices (i - 1))).neg else fin 0) := by
  cases h : (prices i).sub (prices (i - 1)) with
  | nan => simp [Dbl.lt, Dbl.val]
  | fin q =>
    simp only [Dbl.lt, decide_eq_true_eq, Dbl.neg]
    split
    · rename_i hq
      refine ⟨rfl, ?_⟩
      show 0 ≤ -q
      linarith
    · exact ⟨rfl, le_refl _⟩

/-- The Wilder average at index `period + n` depends on `x` only at indices
`1 .. period + n`. -/
theorem avgSpec_congr (x y : Int → ℚ) (period : Int) (h1 : 1 ≤ period) (n : Nat)
    (h : ∀ i : Int, 1 ≤ i → i ≤ period + n → x i = y i) :
    avgSpec x period n = avgSpec y period n := by
  induction n with
  | zero =>
    unfold avgSpec
    congr 1
    apply Finset.sum_congr rfl
    intro k hk
    have := Finset.mem_range.mp hk
    exact h _ (by omega) (by omega)
  | succ n ih =>
    unfold avgSpec
    rw [ih (fun i h1 h2 => h i h1 (by push_cast; omega)), h _ (by omega) (le_refl _)]

/-- A moving average that returns success was called with `1 ≤ period ≤ length`. -/
theorem valid_of_status (N : Nat) (period : Int) (hN : N < 2 ^ 31)
    (h : (if period ≤ 0 ∨ period > castInt N then (-1 : Int) else 0) = 0) :
    1 ≤ period ∧ period ≤ N := by
  have hc : castInt N = (N : Int) := castInt_of_lt N hN
  by_cases hv : period ≤ 0 ∨ period > castInt N
  · rw [if_pos hv] at h
    exact absurd h (by decide)
  · rw [hc] at hv
    omega

/-- Causality of `calculateSMA`. -/
theorem calculateSMA_causal (prices prices' : Buf) (N : Nat) (period : Int) (r r' : Buf)
    (hN : N < 2 ^ 31) (h1 : 1 ≤ period) (h2 : period ≤ N) (i : Int) (hi0 : 0 ≤ i)
    (hi : i < N) (hag : ∀ j : Int, 0 ≤ j → j ≤ i → prices j = prices' j) :
    (calculateSMA prices N period r).2 i = (calculateSMA prices' N period r').2 i := by
  rw [calculateSMA_run prices N period r hN h1 h2, calculateSMA_run prices' N period r' hN h1 h2]
  simp only []
  by_cases hk : period - 1 ≤ i ∧ i < N
  · rw [if_pos hk, if_pos hk]
    rw [forInt_congr (i - period + 1) (i + 1) (fun j s => s.add (prices j))
      (fun j s => s.add (prices' j)) (fin 0)
      (fun j hj1 hj2 => by funext s; dsimp only; rw [hag j (by omega) (by omega)])]
  · rw [if_neg hk, if_neg hk, if_pos ⟨hi0, by omega⟩, if_pos ⟨hi0, by omega⟩]

/-- Causality of `calculateWMA`. -/
theorem calculateWMA_causal (prices prices' : Buf) (N : Nat) (period : Int) (r r' : Buf)
    (hN : N < 2 ^ 31) (h1 : 1 ≤ period) (h2 : period ≤ N) (i : Int) (hi0 : 0 ≤ i)
    (hi : i < N) (hag : ∀ j : Int, 0 ≤ j → j ≤ i → prices j = prices' j) :
    (calculateWMA prices N period r).2 i = (calculateWMA prices' N period r').2 i := by
  rw [calculateWMA_run prices N period r hN h1 h2, calculateWMA_run prices' N period r' hN h1 h2]
  simp only []
  by_cases hk : period - 1 ≤ i ∧ i < N
  · rw [if_pos hk, if_pos hk]
    rw [forInt_congr 0 period
      (fun j s => s.add ((prices (i - period + 1 + j)).mul (Dbl.ofInt (j + 1))))
      (fun j s => s.add ((prices' (i - period + 1 + j)).mul (Dbl.ofInt (j + 1)))) (fin 0)
      (fun j hj1 hj2 => by funext s; dsimp only; rw [hag _ (by omega) (by omega)])]
  · rw [if_neg hk, if_neg hk, if_pos ⟨hi0, by omega⟩, if_pos ⟨hi0, by omega⟩]

/-- Causality of `calculateEMA`. -/
theorem calculateEMA_causal (prices prices' : Buf) (N : Nat) (period : Int) (r r' : Buf)
    (hN : N < 2 ^ 31) (h1 : 1 ≤ period) (h2 : period ≤ N) (i : Int) (hi0 : 0 ≤ i)
    (hi : i < N) (hag : ∀ j : Int, 0 ≤ j → j ≤ i → prices j = prices' j) :
    (calculateEMA prices N period r).2 i = (calculateEMA prices' N period r').2 i := by
  obtain ⟨_, hnan, hseed, hrec, _⟩ := calculateEMA_run prices N period r hN h1 h2
  obtain ⟨_, hnan', hseed', hrec', _⟩ := calculateEMA_run prices' N period r' hN h1 h2
  by_cases hlt : i < period - 1
  · rw [hnan i hi0 hlt, hnan' i hi0 hlt]
  · obtain ⟨n, rfl⟩ : ∃ n : Nat, i = period - 1 + n := ⟨(i - (period - 1)).toNat, by omega⟩
    clear hlt hi0
    induction n with
    | zero =>
      rw [show period - 1 + ((0 : Nat) : Int) = period - 1 by simp, hseed, hseed',
        forInt_congr 0 period (fun j s => s.add (prices j)) (fun j s => s.add (prices' j))
          (fin 0) (fun j hj1 hj2 => by
            funext s
            dsimp only
            rw [hag j hj1 (by push_cast; omega)])]
    | succ n ih =>
      rw [hrec _ (by omega) hi, hrec' _ (by omega) hi,
        show period - 1 + ((n + 1 : Nat) : Int) - 1 = period - 1 + (n : Int) by omega,
        ih (by omega) (fun j hj1 hj2 => hag j hj1 (by push_cast; omega)),
        hag _ (by omega) (le_refl _)]

/-- Causality of `calculateRSI`. -/
theorem calculateRSI_causal (g0 l0 g0' l0' prices prices' : Buf) (N : Nat) (period : Int)
    (r r' : Buf) (hN : N < 2 ^ 31) (h1 : 1 ≤ period) (h2 : period < N) (i : Int)
    (hi0 : 0 ≤ i) (hi : i < N) (hag : ∀ j : Int, 0 ≤ j → j ≤ i → prices j = prices' j) :
    (calculateRSI (some (g0, l0)) prices N period r).2 i
      = (calculateRSI (some (g0', l0')) prices' N period r').2 i := by
  rw [calculateRSI_run g0 l0 prices N period r _ _ hN h1 h2
      (fun j _ _ => (gain_val prices j).1) (fun j _ _ => (loss_val prices j).1)
      (fun j => (gain_val prices j).2) (fun j => (loss_val prices j).2),
    calculateRSI_run g0' l0' prices' N period r' _ _ hN h1 h2
      (fun j _ _ => (gain_val prices' j).1) (fun j _ _ => (loss_val prices' j).1)
      (fun j => (gain_val prices' j).2) (fun j => (loss_val prices' j).2)]
  simp only []
  by_cases hk : period ≤ i ∧ i < N
  · rw [if_pos hk, if_pos hk]
    have hG := avgSpec_congr
      (fun j => Dbl.val (if ((prices j).sub (prices (j - 1))).gt (fin 0) = true
        then (prices j).sub (prices (j - 1)) else fin 0))
      (fun j => Dbl.val (if ((prices' j).sub (prices' (j - 1))).gt (fin 0) = true
        then (prices' j).sub (prices' (j - 1)) else fin 0))
      period h1 (i - period).toNat
      (fun j hj1 hj2 => by
        simp only []
        rw [hag j (by omega) (by omega), hag (j - 1) (by omega) (by omega)])
    have hL := avgSpec_congr
      (fun j => Dbl.val (if ((prices j).sub (prices (j - 1))).lt (fin 0) = true
        then ((prices j).sub (prices (j - 1))).neg else fin 0))
      (fun j => Dbl.val (if ((prices' j).sub (prices' (j - 1))).lt (fin 0) = true
        then ((prices' j).sub (prices' (j - 1))).neg else fin 0))
      period h1 (i - period).toNat
      (fun j hj1 hj2 => by
        simp only []
        rw [hag j (by omega) (by omega), hag (j - 1) (by omega) (by omega)])
    rw [hG, hL]
  · rw [if_neg hk, if_neg hk, if_pos ⟨hi0, by omega⟩, if_pos ⟨hi0, by omega⟩]

/-- C18. Causality of the single-series kernels: for `calculateSMA`, `calculateEMA`,
`calculateWMA` and `calculateRSI`, any period and any two price series of the same length
`N` (representable as `int`) that agree on all indices `j ≤ i`, both calls return the same
status and, on success, the same output at index `i` (`nan` or the same number), whatever
the initial contents of the result and temporary buffers. -/
theorem kernels_causal (g0 l0 g0' l0' prices prices' : Buf) (N : Nat) (period : Int)
    (r r' : Buf) (hN : N < 2 ^ 31) (i : Int) (hi0 : 0 ≤ i) (hi : i < N)
    (hag : ∀ j : Int, 0 ≤ j → j ≤ i → prices j = prices' j) :
    ((calculateSMA prices N period r).1 = (calculateSMA prices' N period r').1 ∧
      ((calculateSMA prices N period r).1 = 0 →
        (calculateSMA prices N period r).2 i = (calculateSMA prices' N period r').2 i)) ∧
    ((calculateEMA prices N period r).1 = (calculateEMA prices' N period r').1 ∧
      ((calculateEMA prices N period r).1 = 0 →
        (calculateEMA prices N period r).2 i = (calculateEMA prices' N period r').2 i)) ∧
    ((calculateWMA prices N period r).1 = (calculateWMA prices' N period r').1 ∧
      ((calculateWMA prices N period r).1 = 0 →
        (calculateWMA prices N period r).2 i = (calculateWMA prices' N period r').2 i)) ∧
    ((calculateRSI (some (g0, l0)) prices N period r).1
        = (calculateRSI (some (g0', l0')) prices' N period r').1 ∧
      ((calculateRSI (some (g0, l0)) prices N period r).1 = 0 →
        (calculateRSI (some (g0, l0)) prices N period r).2 i
          = (calculateRSI (some (g0', l0')) prices' N period r').2 i)) := by
  have hc : castInt N = (N : Int) := castInt_of_lt N hN
  refine ⟨⟨?_, ?_⟩, ⟨?_, ?_⟩, ⟨?_, ?_⟩, ⟨?_, ?_⟩⟩
  · rw [(movingAverage_status prices N period r).1,
      (movingAverage_status prices' N period r').1]
  · intro hs
    rw [(movingAverage_status prices N period r).1] at hs
    obtain ⟨h1, h2⟩ := valid_of_status N period hN hs
    exact calculateSMA_causal prices prices' N period r r' hN h1 h2 i hi0 hi hag
  · rw [(movingAverage_status prices N period r).2.1,
      (movingAverage_status prices' N period r').2.1]
  · intro hs
    rw [(movingAverage_status prices N period r).2.1] at hs
    obtain ⟨h1, h2⟩ := valid_of_status N period hN hs
    exact calculateEMA_causal prices prices' N period r r' hN h1 h2 i hi0 hi hag
  · rw [(movingAverage_status prices N period r).2.2,
      (movingAverage_status prices' N period r').2.2]
  · intro hs
    rw [(movingAverage_status prices N period r).2.2] at hs
    obtain ⟨h1, h2⟩ := valid_of_status N period hN hs
    exact calculateWMA_causal prices prices' N period r r' hN h1 h2 i hi0 hi hag
  · rw [calculateRSI_status, calculateRSI_status]
  · intro hs
    rw [calculateRSI_status, hc] at hs
    have hv : 1 ≤ period ∧ period < N := by
      by_cases hv : period ≤ 0 ∨ period ≥ (N : Int)
      · rw [if_pos hv] at hs
        exact absurd hs (by decide)
      · omega
    exact calculateRSI_causal g0 l0 g0' l0' prices prices' N period r r' hN hv.1 hv.2 i hi0 hi
      hag

/-- C18, witness: `[1,2,3,4,5]` and `[1,2,3,9,9]` agree up to index 2; with `period = 2`
the four kernels succeed on both and give the same output at index 2. -/
theorem kernels_causal_witness :
    (calculateSMA (Buf.ofList [1, 2, 3, 4, 5]) 5 2 junk).2 2
      = (calculateSMA (Buf.ofList [1, 2, 3, 9, 9]) 5 2 junk).2 2 ∧
    (calculateEMA (Buf.ofList [1, 2, 3, 4, 5]) 5 2 junk).2 2
      = (calculateEMA (Buf.ofList [1, 2, 3, 9, 9]) 5 2 junk).2 2 ∧
    (calculateWMA (Buf.ofList [1, 2, 3, 4, 5]) 5 2 junk).2 2
      = (calculateWMA (Buf.ofList [1, 2, 3, 9, 9]) 5 2 junk).2 2 ∧
    (calculateRSI (some (junk, junk)) (Buf.ofList [1, 2, 3, 4, 5]) 5 2 junk).2 2
      = (calculateRSI (some (junk, junk)) (Buf.ofList [1, 2, 3, 9, 9]) 5 2 junk).2 2 ∧
    (calculateSMA (Buf.ofList [1, 2, 3, 4, 5]) 5 2 junk).2 2 = fin (5 / 2) := by
  have hag : ∀ j : Int, 0 ≤ j → j ≤ 2 →
      Buf.ofList [1, 2, 3, 4, 5] j = Buf.ofList [1, 2, 3, 9, 9] j := by
    intro j h0 h1
    interval_cases j <;> decide!
  have h := kernels_causal junk junk junk junk (Buf.ofList [1, 2, 3, 4, 5])
    (Buf.ofList [1, 2, 3, 9, 9]) 5 2 junk junk (by decide) 2 (by decide) (by decide) hag
  exact ⟨h.1.2 (by decide!), h.2.1.2 (by decide!), h.2.2.1.2 (by decide!),
    h.2.2.2.2 (by decide!), by decide!⟩

/-! ## Validation of the moving averages -/

/-- No power `2^32` divides `n·(n+1)` for `0 < n < 2^31`. -/
theorem not_dvd_mul_succ (n : Nat) (h1 : 1 ≤ n) (h2 : n < 2 ^ 31) :
    ¬ ((2 : Nat) ^ 32 ∣ n * (n + 1)) := by
  intro hd
  rcases Nat.even_or_odd n with he | ho
  · have ho1 : Odd (n + 1) := he.add_one
    have hc : Nat.Coprime (2 ^ 32) (n + 1) := Nat.Coprime.pow_left 32 (Nat.coprime_two_left.mpr ho1)
    rw [Nat.mul_comm] at hd
    have := Nat.le_of_dvd (by omega) (hc.dvd_of_dvd_mul_left hd)
    omega
  · have hc : Nat.Coprime (2 ^ 32) n := Nat.Coprime.pow_left 32 (Nat.coprime_two_left.mpr ho)
    have := Nat.le_of_dvd (by omega) (hc.dvd_of_dvd_mul_left hd)
    omega

/-- The divisor `weightSum` of `calculateWMA` (line 93) is never zero for a period that
passes the validation, also when the `int` product wraps. -/
theorem weightSum_ne_zero (period : Int) (h1 : 1 ≤ period) (h2 : period < 2 ^ 31) :
    Int.tdiv (wrapInt (period * wrapInt (period + 1))) 2 ≠ 0 := by
  intro h0
  have hmod : wrapInt (period * wrapInt (period + 1)) % (2 ^ 32 : Nat)
      = (period * (period + 1)) % (2 ^ 32 : Nat) := by
    unfold wrapInt
    rw [Int.bmod_emod, Int.mul_emod, Int.bmod_emod, ← Int.mul_emod]
  obtain ⟨m, hm⟩ := Int.even_mul_succ_self period
  have hsmall : -2 < wrapInt (period * wrapInt (period + 1)) ∧
      wrapInt (period * wrapInt (period + 1)) < 2 := by
    by_cases hw : 0 ≤ wrapInt (period * wrapInt (period + 1))
    · rw [Int.tdiv_eq_ediv hw (by decide)] at h0
      omega
    · have h0' : Int.tdiv (-(wrapInt (period * wrapInt (period + 1)))) 2 = 0 := by
        rw [Int.neg_tdiv, h0]; rfl
      rw [Int.tdiv_eq_ediv (by omega) (by decide)] at h0'
      omega
  have hzero : (period * (period + 1)) % (2 ^ 32 : Nat) = 0 := by
    rw [hm] at hmod ⊢
    norm_num at hmod ⊢
    omega
  have hn : period = ((period.toNat : Nat) : Int) := by omega
  have hd : ((2 ^ 32 : Nat) : Int) ∣ ((period.toNat * (period.toNat + 1) : Nat) : Int) := by
    have := Int.dvd_of_emod_eq_zero hzero
    rw [hn] at this
    exact_mod_cast this
  exact not_dvd_mul_succ period.toNat (by omega) (by omega) (Int.natCast_dvd_natCast.mp hd)

theorem rsiSpec_range (ag al : ℚ) (hg : 0 ≤ ag) (hl : 0 ≤ al) :
    0 ≤ rsiSpec ag al ∧ rsiSpec ag al ≤ 100 := by
  unfold rsiSpec
  by_cases h : al = 0
  · rw [if_pos h]
    norm_num
  · rw [if_neg h]
    have hrs : 0 ≤ ag / al := div_nonneg hg hl
    have hpos : (0 : ℚ) < 1 + ag / al := by linarith
    have hle : 100 / (1 + ag / al) ≤ 100 := by
      rw [div_le_iff₀ hpos]
      nlinarith
    have hnn : 0 ≤ 100 / (1 + ag / al) := div_nonneg (by norm_num) (le_of_lt hpos)
    constructor <;> linarith

/-- C19. With the buffers present and a length representable as `int`, each of
`calculateSMA`, `calculateEMA` and `calculateWMA` returns failure iff `period ≤ 0` or
`period > length`, and success for every `1 ≤ period ≤ length`; for `period = length` on
finite prices every output before the last is `nan` and the last one is a finite
number. -/
theorem movingAverage_validation (prices : Buf) (N : Nat) (period : Int) (r1 r2 r3 : Buf)
    (hN : N < 2 ^ 31) :
    (((calculateSMA prices N period r1).1 = -1 ↔ (period ≤ 0 ∨ period > (N : Int))) ∧
      ((calculateEMA prices N period r2).1 = -1 ↔ (period ≤ 0 ∨ period > (N : Int))) ∧
      ((calculateWMA prices N period r3).1 = -1 ↔ (period ≤ 0 ∨ period > (N : Int)))) ∧
    (1 ≤ period ∧ period ≤ (N : Int) →
      (calculateSMA prices N period r1).1 = 0 ∧ (calculateEMA prices N period r2).1 = 0 ∧
      (calculateWMA prices N period r3).1 = 0) ∧
    (∀ p : Int → ℚ, (∀ j : Int, 0 ≤ j → j < N → prices j = fin (p j)) → 1 ≤ N →
      (∀ i : Int, 0 ≤ i → i < (N : Int) - 1 →
        (calculateSMA prices N (N : Int) r1).2 i = nan ∧
        (calculateEMA prices N (N : Int) r2).2 i = nan ∧
        (calculateWMA prices N (N : Int) r3).2 i = nan) ∧
      (∃ a b c : ℚ, (calculateSMA prices N (N : Int) r1).2 ((N : Int) - 1) = fin a ∧
        (calculateEMA prices N (N : Int) r2).2 ((N : Int) - 1) = fin b ∧
        (calculateWMA prices N (N : Int) r3).2 ((N : Int) - 1) = fin c)) := by
  have hc : castInt N = (N : Int) := castInt_of_lt N hN
  have hiff : ∀ s : Int, s = (if period ≤ 0 ∨ period > (N : Int) then -1 else 0) →
      (s = -1 ↔ (period ≤ 0 ∨ period > (N : Int))) := by
    intro s hs
    by_cases hv : period ≤ 0 ∨ period > (N : Int)
    · rw [hs, if_pos hv]
      exact ⟨fun _ => hv, fun _ => rfl⟩
    · rw [hs, if_neg hv]
      exact ⟨fun h0 => absurd h0 (by decide), fun h0 => absurd h0 hv⟩
  obtain ⟨hs1, _, _⟩ := movingAverage_status prices N period r1
  obtain ⟨_, hs2, _⟩ := movingAverage_status prices N period r2
  obtain ⟨_, _, hs3⟩ := movingAverage_status prices N period r3
  rw [hc] at hs1 hs2 hs3
  refine ⟨⟨hiff _ hs1, hiff _ hs2, hiff _ hs3⟩, ?_, ?_⟩
  · intro hv
    rw [hs1, hs2, hs3, if_neg (by omega)]
    exact ⟨rfl, rfl, rfl⟩
  · intro p hfin hpos
    have h1 : (1 : Int) ≤ N := by omega
    obtain ⟨_, hnanE, _, _, _⟩ := calculateEMA_run prices N (N : Int) r2 hN h1 (le_refl _)
    constructor
    · intro i hi0 hi1
      refine ⟨?_, hnanE i hi0 hi1, ?_⟩
      · rw [calculateSMA_run prices N (N : Int) r1 hN h1 (le_refl _)]
        simp only []
        rw [if_neg (by omega), if_pos ⟨hi0, hi1⟩]
      · rw [calculateWMA_run prices N (N : Int) r3 hN h1 (le_refl _)]
        simp only []
        rw [if_neg (by omega), if_pos ⟨hi0, hi1⟩]
    · obtain ⟨b, hb⟩ := calculateEMA_finite prices p N (N : Int) r2 hN hfin h1 (le_refl _)
        ((N : Int) - 1) (le_refl _) (by omega)
      have hS : ∃ a : ℚ, (calculateSMA prices N (N : Int) r1).2 ((N : Int) - 1) = fin a := by
        rw [calculateSMA_run prices N (N : Int) r1 hN h1 (le_refl _)]
        simp only []
        rw [if_pos ⟨le_refl _, by omega⟩,
          windowSum_fin prices p N (N : Int) hfin h1 _ (le_refl _) (by omega),
          Dbl.div_ofInt_pos _ _ h1]
        exact ⟨_, rfl⟩
      have hW : ∃ c : ℚ, (calculateWMA prices N (N : Int) r3).2 ((N : Int) - 1) = fin c := by
        rw [calculateWMA_run prices N (N : Int) r3 hN h1 (le_refl _)]
        simp only []
        have hsum := forInt_weightedSum prices p ((N : Int) - 1 - (N : Int) + 1) N
          (fun t ht => hfin _ (by omega) (by omega))
        have hw : ((Int.tdiv (wrapInt ((N : Int) * wrapInt ((N : Int) + 1))) 2 : Int) : ℚ) ≠ 0 :=
          Int.cast_ne_zero.mpr (weightSum_ne_zero (N : Int) h1 (by omega))
        rw [if_pos ⟨le_refl _, by omega⟩, hsum]
        simp only [Dbl.div, Dbl.ofInt, if_neg hw]
        exact ⟨_, rfl⟩
      obtain ⟨a, ha⟩ := hS
      obtain ⟨c, hcW⟩ := hW
      exact ⟨a, b, c, ha, hb, hcW⟩

/-- C19, witness: on `[1,2,3,4,5]` the three kernels fail for `period = 0` and `period = 6`,
succeed for `period = 5 = length`, where outputs 0..3 are `nan` and output 4 is finite. -/
theorem movingAverage_validation_witness :
    (calculateSMA (Buf.ofList [1, 2, 3, 4, 5]) 5 0 junk).1 = -1 ∧
    (calculateEMA (Buf.ofList [1, 2, 3, 4, 5]) 5 6 junk).1 = -1 ∧
    (calculateWMA (Buf.ofList [1, 2, 3, 4, 5]) 5 6 junk).1 = -1 ∧
    ((calculateSMA (Buf.ofList [1, 2, 3, 4, 5]) 5 5 junk).1 = 0 ∧
      (calculateEMA (Buf.ofList [1, 2, 3, 4, 5]) 5 5 junk).1 = 0 ∧
      (calculateWMA (Buf.ofList [1, 2, 3, 4, 5]) 5 5 junk).1 = 0) ∧
    ((calculateSMA (Buf.ofList [1, 2, 3, 4, 5]) 5 ((5 : Nat) : Int) junk).2 3 = nan ∧
      (calculateEMA (Buf.ofList [1, 2, 3, 4, 5]) 5 ((5 : Nat) : Int) junk).2 3 = nan ∧
      (calculateWMA (Buf.ofList [1, 2, 3, 4, 5]) 5 ((5 : Nat) : Int) junk).2 3 = nan) ∧
    (calculateSMA (Buf.ofList [1, 2, 3, 4, 5]) 5 5 junk).2 4 = fin 3 ∧
    (calculateEMA (Buf.ofList [1, 2, 3, 4, 5]) 5 5 junk).2 4 = fin 3 ∧
    (calculateWMA (Buf.ofList [1, 2, 3, 4, 5]) 5 5 junk).2 4 = fin (55 / 15) := by
  have h0 := movingAverage_validation (Buf.ofList [1, 2, 3, 4, 5]) 5 0 junk junk junk
    (by decide)
  have h6 := movingAverage_validation (Buf.ofList [1, 2, 3, 4, 5]) 5 6 junk junk junk
    (by decide)
  have h5 := movingAverage_validation (Buf.ofList [1, 2, 3, 4, 5]) 5 5 junk junk junk
    (by decide)
  exact ⟨h0.1.1.mpr (by decide), h6.1.2.1.mpr (by decide), h6.1.2.2.mpr (by decide),
    h5.2.1 (by decide),
    (h5.2.2 examplePrices ofList_examplePrices (by decide)).1 3 (by decide) (by decide),
    by decide!, by decide!, by decide!⟩

/-- C20. For every finite price series and `0 < period < N` (length representable as
`int`), at every index `period ≤ i < N` the Wilder averages `avgGain_i` and `avgLoss_i`
are non-negative and `result[i]`, the RSI value computed from them, is a finite number
with `0 ≤ result[i] ≤ 100`. -/
theorem calculateRSI_range (g0 l0 prices : Buf) (p : Int → ℚ) (N : Nat) (period : Int)
    (result : Buf) (hN : N < 2 ^ 31)
    (hfin : ∀ j : Int, 0 ≤ j → j < N → prices j = fin (p j))
    (h1 : 0 < period) (h2 : period < N) (i : Int) (hi1 : period ≤ i) (hi2 : i < N) :
    0 ≤ avgSpec (gainSpec p) period (i - period).toNat ∧
    0 ≤ avgSpec (lossSpec p) period (i - period).toNat ∧
    ∃ q : ℚ, (calculateRSI (some (g0, l0)) prices N period result).2 i = fin q ∧
      q = rsiSpec (avgSpec (gainSpec p) period (i - period).toNat)
        (avgSpec (lossSpec p) period (i - period).toNat) ∧
      0 ≤ q ∧ q ≤ 100 := by
  have hg := avgSpec_nonneg (gainSpec p) period h1 (gainSpec_nonneg p) (i - period).toNat
  have hl := avgSpec_nonneg (lossSpec p) period h1 (lossSpec_nonneg p) (i - period).toNat
  refine ⟨hg, hl, _, ?_, rfl, rsiSpec_range _ _ hg hl⟩
  rw [calculateRSI_fin g0 l0 prices p N period result hN hfin h1 h2]
  simp only []
  rw [if_pos ⟨hi1, hi2⟩]

/-- C20, witness: `prices = [3,2,4,1]`, `period = 2`: `result[3] = 100 - 100/(1 + 2/7)`
lies in `[0, 100]`. -/
theorem calculateRSI_range_witness :
    ∃ q : ℚ, (calculateRSI (some (junk, junk)) (Buf.ofList [3, 2, 4, 1]) 4 2 junk).2 3 = fin q ∧
      0 ≤ q ∧ q ≤ 100 := by
  obtain ⟨_, _, q, hq, _, h0, h100⟩ := calculateRSI_range junk junk (Buf.ofList [3, 2, 4, 1])
    (seriesOf [3, 2, 4, 1]) 4 2 junk (by decide)
    (fun j h0 h1 => ofList_seriesOf [3, 2, 4, 1] j h0 h1) (by decide) (by decide) 3
    (by decide) (by decide)
  exact ⟨q, hq, h0, h100⟩

/-- When `lowest ≤ close ≤ highest`, the reference `%K` value lies in `[0, 100]`. -/
theorem stochSpec_range (h l c : Int → ℚ) (kPeriod : Int) (i : Int)
    (hlo : windowMin l (i - kPeriod + 1) (kPeriod - 1).toNat ≤ c i)
    (hhi : c i ≤ windowMax h (i - kPeriod + 1) (kPeriod - 1).toNat) :
    0 ≤ stochSpec h l c kPeriod i ∧ stochSpec h l c kPeriod i ≤ 100 := by
  unfold stochSpec
  by_cases he : windowMax h (i - kPeriod + 1) (kPeriod - 1).toNat
      = windowMin l (i - kPeriod + 1) (kPeriod - 1).toNat
  · rw [if_pos he]
    norm_num
  · rw [if_neg he]
    have hpos : 0 < windowMax h (i - kPeriod + 1) (kPeriod - 1).toNat
        - windowMin l (i - kPeriod + 1) (kPeriod - 1).toNat := by
      rcases lt_or_eq_of_le (le_trans hlo hhi) with hlt | heq
      · linarith
      · exact absurd heq.symm he
    constructor
    · exact div_nonneg (mul_nonneg (by norm_num) (by linarith)) (le_of_lt hpos)
    · rw [div_le_iff₀ hpos]
      nlinarith

/-- C21. For every valid call of `calculateStochastic` on finite inputs (length
representable as `int`) with `low[j] ≤ close[j] ≤ high[j]` at every index, at every
defined index `kPeriod-1 ≤ i < N`: `lowest ≤ highest`, the range `highest - lowest` is
positive whenever it is not zero (so the division of the non-zero-range branch is never
by zero), and `k[i]` is a finite number with `0 ≤ k[i] ≤ 100`. -/
theorem calculateStochastic_range (high low close : Buf) (h l c : Int → ℚ) (N : Nat)
    (kPeriod dPeriod : Int) (k d : Buf) (hN : N < 2 ^ 31)
    (hh : ∀ j : Int, 0 ≤ j → j < N → high j = fin (h j))
    (hl : ∀ j : Int, 0 ≤ j → j < N → low j = fin (l j))
    (hc : ∀ j : Int, 0 ≤ j → j < N → close j = fin (c j))
    (hk1 : 1 ≤ kPeriod) (hk2 : kPeriod ≤ N) (hd1 : 1 ≤ dPeriod) (hd2 : dPeriod ≤ N)
    (hord : ∀ j : Int, 0 ≤ j → j < N → l j ≤ c j ∧ c j ≤ h j)
    (i : Int) (hi1 : kPeriod - 1 ≤ i) (hi2 : i < N) :
    windowMin l (i - kPeriod + 1) (kPeriod - 1).toNat
      ≤ windowMax h (i - kPeriod + 1) (kPeriod - 1).toNat ∧
    (windowMax h (i - kPeriod + 1) (kPeriod - 1).toNat
        - windowMin l (i - kPeriod + 1) (kPeriod - 1).toNat ≠ 0 →
      0 < windowMax h (i - kPeriod + 1) (kPeriod - 1).toNat
        - windowMin l (i - kPeriod + 1) (kPeriod - 1).toNat) ∧
    ∃ q : ℚ, (calculateStochastic high low close N kPeriod dPeriod k d).2.1 i = fin q ∧
      0 ≤ q ∧ q ≤ 100 := by
  have hlast : i - kPeriod + 1 + (((kPeriod - 1).toNat : Nat) : Int) = i := by omega
  have hlo : windowMin l (i - kPeriod + 1) (kPeriod - 1).toNat ≤ c i := by
    have h1 := windowMin_le l (i - kPeriod + 1) (kPeriod - 1).toNat (kPeriod - 1).toNat
      (le_refl _)
    rw [hlast] at h1
    exact le_trans h1 (hord i (by omega) hi2).1
  have hhi : c i ≤ windowMax h (i - kPeriod + 1) (kPeriod - 1).toNat := by
    have h1 := windowMax_ge h (i - kPeriod + 1) (kPeriod - 1).toNat (kPeriod - 1).toNat
      (le_refl _)
    rw [hlast] at h1
    exact le_trans (hord i (by omega) hi2).2 h1
  have hle := le_trans hlo hhi
  refine ⟨hle, ?_, stochSpec h l c kPeriod i, ?_, stochSpec_range h l c kPeriod i hlo hhi⟩
  · intro hne
    rcases lt_or_eq_of_le hle with hlt | heq
    · linarith
    · exact absurd (by rw [heq, sub_self]) hne
  · rw [calculateStochastic_run high low close h l c N kPeriod dPeriod k d hN hh hl hc hk1
      hk2 hd1 hd2]
    simp only []
    rw [if_pos ⟨hi1, hi2⟩]

/-- C21, witness: high `[1,2,5]`, low `[1,2,3]`, close `[1,2,4]` (`low ≤ close ≤ high`),
`kPeriod = 2`: `k[1] = 100` and `k[2] = 200/3` lie in `[0, 100]`. -/
theorem calculateStochastic_range_witness :
    (∃ q : ℚ, (calculateStochastic (Buf.ofList [1, 2, 5]) (Buf.ofList [1, 2, 3])
        (Buf.ofList [1, 2, 4]) 3 2 2 junk junk).2.1 1 = fin q ∧ 0 ≤ q ∧ q ≤ 100) ∧
    (∃ q : ℚ, (calculateStochastic (Buf.ofList [1, 2, 5]) (Buf.ofList [1, 2, 3])
        (Buf.ofList [1, 2, 4]) 3 2 2 junk junk).2.1 2 = fin q ∧ 0 ≤ q ∧ q ≤ 100) ∧
    (calculateStochastic (Buf.ofList [1, 2, 5]) (Buf.ofList [1, 2, 3])
        (Buf.ofList [1, 2, 4]) 3 2 2 junk junk).2.1 2 = fin (200 / 3) := by
  have hord : ∀ j : Int, 0 ≤ j → j < ((3 : Nat) : Int) →
      seriesOf [1, 2, 3] j ≤ seriesOf [1, 2, 4] j ∧
        seriesOf [1, 2, 4] j ≤ seriesOf [1, 2, 5] j := by
    intro j h0 h1
    have h1' : j < 3 := by exact_mod_cast h1
    interval_cases j <;> exact ⟨by decide!, by decide!⟩
  have h := calculateStochastic_range (Buf.ofList [1, 2, 5]) (Buf.ofList [1, 2, 3])
    (Buf.ofList [1, 2, 4]) (seriesOf [1, 2, 5]) (seriesOf [1, 2, 3]) (seriesOf [1, 2, 4])
    3 2 2 junk junk (by decide) (fun j h0 h1 => ofList_seriesOf [1, 2, 5] j h0 h1)
    (fun j h0 h1 => ofList_seriesOf [1, 2, 3] j h0 h1)
    (fun j h0 h1 => ofList_seriesOf [1, 2, 4] j h0 h1)
    (by decide) (by decide) (by decide) (by decide) hord
  exact ⟨(h 1 (by decide) (by decide)).2.2, (h 2 (by decide) (by decide)).2.2, by decide!⟩

end Indicators
